import Mathlib

/-!
Verification of the prefix-trie engine in `src/prefix_trie.h`
(`PrefixTrieBase<CharT>`).  Symbols (`CharT`) are modelled as `Nat`,
with `0` playing the role of `CharT()` (the null symbol); strings are
`List Nat`.  The `unordered_map<CharT, unique_ptr<TrieNode>>` of children
is modelled as an association list `List (Nat × TrieNode)` (the map's
iteration order is unspecified in C++; the association list fixes one
order, and all counting/membership results proved below are order
insensitive).
-/

namespace PrefixTrie

/-- A trie node: its key (the symbol on the edge from its parent) and its
children map, exactly as in class `TrieNode` of `src/prefix_trie.h`. -/
inductive TrieNode : Type where
  | mk : Nat → List (Nat × TrieNode) → TrieNode

/-- The key of a node (`TrieNode::Key()`). -/
def TrieNode.key : TrieNode → Nat
  | .mk k _ => k

/-- The children map of a node (`TrieNode::Children()`). -/
def TrieNode.children : TrieNode → List (Nat × TrieNode)
  | .mk _ ch => ch

/-- `unordered_map::find`: the value stored at key `k`, if any. -/
def lookupA (l : List (Nat × TrieNode)) (k : Nat) : Option TrieNode :=
  match l with
  | [] => none
  | (k', v) :: r => if k' = k then some v else lookupA r k

/-- `map[k] = v`: overwrite the entry at `k` if present, otherwise add it. -/
def updateA (l : List (Nat × TrieNode)) (k : Nat) (v : TrieNode) :
    List (Nat × TrieNode) :=
  match l with
  | [] => [(k, v)]
  | (k', v') :: r => if k' = k then (k, v) :: r else (k', v') :: updateA r k v

/-- `map.erase(k)`: drop the entry at `k`, if present. -/
def eraseA (l : List (Nat × TrieNode)) (k : Nat) : List (Nat × TrieNode) :=
  match l with
  | [] => []
  | (k', v') :: r => if k' = k then r else (k', v') :: eraseA r k

/-- A fresh empty trie: the root node made by the default constructor. -/
def emptyTrie : TrieNode := .mk 0 []

/-- The completion marker node attached by `Insert`:
`std::make_unique<TrieNode>(CharT())`. -/
def sentinel : TrieNode := .mk 0 []

/-- The two loops of `PrefixTrieBase::Insert`: walk existing edges while
the current symbol is found, create fresh nodes for the remaining suffix,
and finally store a sentinel node under `s[s.size() - 1]` (the *last
symbol* of `s`) in the final node's children map. -/
def insertGo (last : Nat) : TrieNode → List Nat → TrieNode
  | .mk k ch, [] => .mk k (updateA ch last sentinel)
  | .mk k ch, c :: rest =>
    match lookupA ch c with
    | some child => .mk k (updateA ch c (insertGo last child rest))
    | none => .mk k (updateA ch c (insertGo last (.mk c []) rest))

/-- `PrefixTrieBase::Insert`: no-op on the empty string. -/
def insertT (t : TrieNode) (s : List Nat) : TrieNode :=
  match s with
  | [] => t
  | _ => insertGo (s.getLastD 0) t s

/-- The walk of `PrefixTrieBase::Contains`: succeeds iff every symbol's
edge exists; the empty string trivially succeeds. -/
def containsT : TrieNode → List Nat → Bool
  | _, [] => true
  | .mk _ ch, c :: rest =>
    match lookupA ch c with
    | some child => containsT child rest
    | none => false

/-- The downward traversal of `PrefixTrieBase::Remove`, returning `none`
when the call is a no-op.  At the end of the walk the code erases the
child stored under the *last symbol* of `s` (if any), then prunes each
ancestor that has become childless, stopping at the first ancestor that
still has children. -/
def removeGo (last : Nat) : TrieNode → List Nat → Option TrieNode
  | .mk k ch, [] =>
    match lookupA ch last with
    | some _ => some (.mk k (eraseA ch last))
    | none => none
  | .mk k ch, c :: rest =>
    match lookupA ch c with
    | none => none
    | some child =>
      match removeGo last child rest with
      | none => none
      | some child' =>
        if child'.children.isEmpty then some (.mk k (eraseA ch c))
        else some (.mk k (updateA ch c child'))

/-- `PrefixTrieBase::Remove`: no-op on the empty string or when the walk
fails. -/
def removeT (t : TrieNode) (s : List Nat) : TrieNode :=
  match s with
  | [] => t
  | _ => (removeGo (s.getLastD 0) t s).getD t

/-- The prefix navigation shared by `Count` (and `MatchWithCallback`):
the node at the end of the prefix path, if the path exists. -/
def findNode : TrieNode → List Nat → Option TrieNode
  | n, [] => some n
  | .mk _ ch, c :: rest =>
    match lookupA ch c with
    | some child => findNode child rest
    | none => none

mutual
/-- One step of the counting DFS of `PrefixTrieBase::Count`: a node whose
key is the null symbol counts as one completed string and is not
expanded; any other node contributes the count of its children. -/
def countNode : TrieNode → Nat
  | .mk k ch => if k = 0 then 1 else countChildren ch

/-- Sum of `countNode` over a children map (the stack-DFS of `Count`
visits every child exactly once; the sum is order independent). -/
def countChildren : List (Nat × TrieNode) → Nat
  | [] => 0
  | (_, c) :: r => countNode c + countChildren r
end

/-- `PrefixTrieBase::Count`: navigate to the prefix node (0 if the path
is missing), then count termination markers beneath it. -/
def countT (t : TrieNode) (p : List Nat) : Nat :=
  match findNode t p with
  | none => 0
  | some n => countChildren n.children

/-- `PrefixTrieBase::Size()` is `Count` of the empty prefix. -/
def sizeT (t : TrieNode) : Nat := countT t []

mutual
/-- The set (in traversal order) of completed strings below a node: a
child whose key is the null symbol contributes the empty completion, any
other child prepends its key to the completions below it.  This is the
semantic reading shared by `Count`, `MatchWithCallback` and the fuzzy
search, all of which stop at null-key nodes. -/
def strs : TrieNode → List (List Nat)
  | .mk _ ch => strsCh ch

/-- `strs` over a children map. -/
def strsCh : List (Nat × TrieNode) → List (List Nat)
  | [] => []
  | (_, c) :: r =>
    (if c.key = 0 then [[]] else (strs c).map (c.key :: ·)) ++ strsCh r
end

/-- `true` iff `k` is not a key of the map. -/
def keyNotIn (k : Nat) : List (Nat × TrieNode) → Bool
  | [] => true
  | (k', _) :: r => (k' != k) && keyNotIn k r

/-- `true` iff the map's keys are pairwise distinct (automatic for the
C++ `unordered_map`, an invariant of the association-list model). -/
def nodupKeysB : List (Nat × TrieNode) → Bool
  | [] => true
  | (k, _) :: r => keyNotIn k r && nodupKeysB r

mutual
/-- Structural well-formedness of the node graphs produced by clean
operation sequences: keys are distinct; a null-key (sentinel) child has
no children and is registered under its parent's own key (the last
symbol of the completed string); every other child's key equals the map
key it is registered under. -/
def wfN : TrieNode → Bool
  | .mk k ch => nodupKeysB ch && wfCh k ch

/-- `wfN` over a children map, given the parent's key. -/
def wfCh (pk : Nat) : List (Nat × TrieNode) → Bool
  | [] => true
  | (mk_, c) :: r =>
    (if c.key = 0 then c.children.isEmpty && (mk_ == pk)
     else (c.key == mk_) && wfN c) && wfCh pk r
end

/-- A well-formed trie: root key is the null symbol and the graph is
well-formed. -/
def wfT (t : TrieNode) : Bool := (t.key == 0) && wfN t

mutual
/-- Key agreement, an invariant of *every* reachable trie (even ones
corrupted by overlapping insertions): each child's own key is the map
key it is registered under, or the null symbol. -/
def gkN : TrieNode → Bool
  | .mk _ ch => gkCh ch

/-- `gkN` over a children map. -/
def gkCh : List (Nat × TrieNode) → Bool
  | [] => true
  | (mk_, c) :: r => ((c.key == mk_) || (c.key == 0)) && gkN c && gkCh r
end

mutual
/-- Weight of a node, used to bound the iterative traversal's fuel. -/
def nodeW : TrieNode → Nat
  | .mk _ ch => chW ch + 1

/-- Weight of a children map (also of a DFS stack). -/
def chW : List (Nat × TrieNode) → Nat
  | [] => 0
  | (_, c) :: r => nodeW c + 1 + chW r
end

/-- The iterative depth-first loop of `PrefixTrieBase::MatchWithCallback`:
the stack holds `(depth, node)` pairs; on popping, the postfix buffer is
resynchronized to the entry's depth by discarding trailing symbols; a
null-key node emits `prefix ++ buffer`; any other node appends its key to
the buffer and pushes its children (at `depth + 1`) onto the stack.  The
structural `fuel` argument only makes the recursion structural; with
`fuel ≥ chW stack` (as always supplied) it never runs out. -/
def runMatch (pfx : List Nat) : Nat → List (Nat × TrieNode) → List Nat →
    List (List Nat) → List (List Nat)
  | _, [], _, out => out
  | 0, _ :: _, _, out => out
  | fuel + 1, (d, n) :: rest, buf, out =>
    let buf' := buf.take (d - pfx.length)
    if n.key = 0 then runMatch pfx fuel rest buf' (out ++ [pfx ++ buf'])
    else
      runMatch pfx fuel ((n.children.map (fun p => (d + 1, p.2))).reverse ++ rest)
        (buf' ++ [n.key]) out

/-- The prefix navigation of `MatchWithCallback`, which also builds the
`base` string out of the *keys* of the visited nodes. -/
def navGo : TrieNode → List Nat → Option (TrieNode × List Nat)
  | n, [] => some (n, [])
  | .mk _ ch, c :: rest =>
    match lookupA ch c with
    | some child =>
      match navGo child rest with
      | some (e, keys) => some (e, child.key :: keys)
      | none => none
    | none => none

/-- `PrefixTrieBase::Matches` / `MatchWithCallback`: navigate to the
prefix node (nothing on a missing path), then run the iterative
traversal over its children, pushed at depth `s.size()`. -/
def matchT (t : TrieNode) (s : List Nat) : List (List Nat) :=
  match navGo t s with
  | none => []
  | some (e, base) =>
    let st := (e.children.map (fun p => (s.length, p.2))).reverse
    runMatch base (chW st) st [] []

/-! ### Basic accessors and step lemmas -/

@[simp] theorem key_mk (k : Nat) (ch : List (Nat × TrieNode)) :
    (TrieNode.mk k ch).key = k := rfl

@[simp] theorem children_mk (k : Nat) (ch : List (Nat × TrieNode)) :
    (TrieNode.mk k ch).children = ch := rfl

theorem mk_key_children (n : TrieNode) : TrieNode.mk n.key n.children = n := by
  cases n with
  | mk k ch => rfl

/-! ### Association-list toolkit -/

theorem lookupA_updateA_self (l : List (Nat × TrieNode)) (k : Nat) (v : TrieNode) :
    lookupA (updateA l k v) k = some v := by
  induction l with
  | nil => simp [updateA, lookupA]
  | cons p r ih =>
    obtain ⟨k', v'⟩ := p
    by_cases h : k' = k
    · simp [updateA, h, lookupA]
    · simp [updateA, h, lookupA, ih]

theorem lookupA_updateA_ne (l : List (Nat × TrieNode)) (k k' : Nat) (v : TrieNode)
    (h : k' ≠ k) : lookupA (updateA l k v) k' = lookupA l k' := by
  induction l with
  | nil =>
    have h' : ¬ k = k' := fun hh => h hh.symm
    simp [updateA, lookupA, h']
  | cons p r ih =>
    obtain ⟨k₀, v₀⟩ := p
    by_cases h0 : k₀ = k
    · subst h0
      have h' : ¬ k₀ = k' := fun hh => h hh.symm
      simp [updateA, lookupA, h']
    · by_cases h1 : k₀ = k'
      · subst h1
        simp [updateA, h0, lookupA, h]
      · simp [updateA, h0, lookupA, h1, ih]

theorem updateA_updateA (l : List (Nat × TrieNode)) (k : Nat) (v w : TrieNode) :
    updateA (updateA l k v) k w = updateA l k w := by
  induction l with
  | nil => simp [updateA]
  | cons p r ih =>
    obtain ⟨k', v'⟩ := p
    by_cases h : k' = k
    · simp [updateA, h]
    · simp [updateA, h, ih]

/-! ### Step lemmas for the trie operations -/

theorem insertGo_nil (last k : Nat) (ch : List (Nat × TrieNode)) :
    insertGo last (.mk k ch) [] = .mk k (updateA ch last sentinel) := rfl

theorem insertGo_cons_found (last k c : Nat) (ch : List (Nat × TrieNode))
    (rest : List Nat) (child : TrieNode) (h : lookupA ch c = some child) :
    insertGo last (.mk k ch) (c :: rest)
      = .mk k (updateA ch c (insertGo last child rest)) := by
  simp only [insertGo, h]

theorem insertGo_cons_new (last k c : Nat) (ch : List (Nat × TrieNode))
    (rest : List Nat) (h : lookupA ch c = none) :
    insertGo last (.mk k ch) (c :: rest)
      = .mk k (updateA ch c (insertGo last (.mk c []) rest)) := by
  simp only [insertGo, h]

theorem containsT_nil (n : TrieNode) : containsT n [] = true := by
  cases n with
  | mk k ch => rfl

theorem containsT_cons (k c : Nat) (ch : List (Nat × TrieNode)) (rest : List Nat) :
    containsT (.mk k ch) (c :: rest)
      = match lookupA ch c with
        | some child => containsT child rest
        | none => false := rfl

/-- `insertGo` does not change a node's own key. -/
theorem insertGo_key (last : Nat) (n : TrieNode) (s : List Nat) :
    (insertGo last n s).key = n.key := by
  cases n with
  | mk k ch =>
    cases s with
    | nil => rfl
    | cons c rest =>
      simp only [insertGo]
      cases lookupA ch c <;> rfl

/-! ### Claim C1: insert then contains; idempotence of insert -/

theorem containsT_insertGo (last : Nat) (s : List Nat) :
    ∀ n : TrieNode, containsT (insertGo last n s) s = true := by
  induction s with
  | nil => intro n; exact containsT_nil _
  | cons c rest ih =>
    intro n
    cases n with
    | mk k ch =>
      cases h : lookupA ch c with
      | some child =>
        rw [insertGo_cons_found last k c ch rest child h, containsT_cons,
          lookupA_updateA_self]
        exact ih _
      | none =>
        rw [insertGo_cons_new last k c ch rest h, containsT_cons,
          lookupA_updateA_self]
        exact ih _

theorem insertGo_idem (last : Nat) (s : List Nat) :
    ∀ n : TrieNode, insertGo last (insertGo last n s) s = insertGo last n s := by
  induction s with
  | nil =>
    intro n
    cases n with
    | mk k ch => rw [insertGo_nil, insertGo_nil, updateA_updateA]
  | cons c rest ih =>
    intro n
    cases n with
    | mk k ch =>
      cases h : lookupA ch c with
      | some child =>
        rw [insertGo_cons_found last k c ch rest child h,
          insertGo_cons_found last k c _ rest _ (lookupA_updateA_self ch c _),
          ih, updateA_updateA]
      | none =>
        rw [insertGo_cons_new last k c ch rest h,
          insertGo_cons_found last k c _ rest _ (lookupA_updateA_self ch c _),
          ih, updateA_updateA]

/-- Claim C1: for every trie and every string `s`, `Contains s` holds
right after `Insert s`; re-inserting produces a structurally identical
trie, so in particular `Size()` is unchanged and nothing observable
changes. -/
theorem insert_contains_insert_idem (t : TrieNode) (s : List Nat) :
    containsT (insertT t s) s = true ∧
      insertT (insertT t s) s = insertT t s ∧
      sizeT (insertT (insertT t s) s) = sizeT (insertT t s) := by
  refine ⟨?_, ?_, ?_⟩
  · cases s with
    | nil => exact containsT_nil _
    | cons c rest => exact containsT_insertGo _ _ _
  · cases s with
    | nil => rfl
    | cons c rest => exact insertGo_idem _ _ _
  · cases s with
    | nil => rfl
    | cons c rest => rw [show insertT (insertT t (c :: rest)) (c :: rest)
        = insertT t (c :: rest) from insertGo_idem _ _ _]

/-! ### Claim C10: the extended string is traversable -/

theorem containsT_insertGo_ext (last : Nat) (s : List Nat) :
    ∀ n : TrieNode, containsT (insertGo last n s) (s ++ [last]) = true := by
  induction s with
  | nil =>
    intro n
    cases n with
    | mk k ch =>
      rw [insertGo_nil, List.nil_append, containsT_cons, lookupA_updateA_self]
      exact containsT_nil _
  | cons c rest ih =>
    intro n
    cases n with
    | mk k ch =>
      rw [List.cons_append]
      cases h : lookupA ch c with
      | some child =>
        rw [insertGo_cons_found last k c ch rest child h, containsT_cons,
          lookupA_updateA_self]
        exact ih _
      | none =>
        rw [insertGo_cons_new last k c ch rest h, containsT_cons,
          lookupA_updateA_self]
        exact ih _

/-- Fresh-chain insertion: inserting `s` below a childless node stores
exactly `s` (when `s` avoids the null symbol). -/
theorem strs_insertGo_fresh (last : Nat) (s : List Nat) (h0 : 0 ∉ s) :
    ∀ k : Nat, strs (insertGo last (.mk k []) s) = [s] := by
  induction s with
  | nil =>
    intro k
    rw [insertGo_nil]
    simp [updateA, strs, strsCh, sentinel]
  | cons c rest ih =>
    intro k
    have hc : c ≠ 0 := fun h => h0 (h ▸ List.mem_cons_self c rest)
    have h0' : 0 ∉ rest := fun h => h0 (List.mem_cons_of_mem _ h)
    rw [insertGo_cons_new last k c [] rest rfl]
    have hkey : (insertGo last (TrieNode.mk c []) rest).key = c := insertGo_key _ _ _
    simp only [updateA, strs, strsCh, hkey, hc, if_false, ih h0']
    simp

/-- Claim C10: after inserting a non-empty `s` into an empty trie,
`Contains` also accepts `s` extended by one extra copy of its own last
symbol, because the completion marker is stored under that symbol and is
traversable as an ordinary edge — even though the extended string is not
stored (for `s` over the normal, non-null alphabet the trie stores
exactly `s`). -/
theorem contains_insert_extended (s : List Nat) (hs : s ≠ []) :
    containsT (insertT emptyTrie s) (s ++ [s.getLastD 0]) = true ∧
      (0 ∉ s → strs (insertT emptyTrie s) = [s] ∧
        s ++ [s.getLastD 0] ∉ strs (insertT emptyTrie s)) := by
  constructor
  · cases s with
    | nil => exact absurd rfl hs
    | cons c rest => exact containsT_insertGo_ext _ _ _
  · intro h0
    have hstr : strs (insertT emptyTrie s) = [s] := by
      cases s with
      | nil => exact absurd rfl hs
      | cons c rest => exact strs_insertGo_fresh _ _ h0 _
    refine ⟨hstr, ?_⟩
    rw [hstr]
    intro hmem
    have : s ++ [s.getLastD 0] = s := List.mem_singleton.mp hmem
    have hlen := congrArg List.length this
    simp at hlen

/-- Witness for `contains_insert_extended` at `s = [1]`. -/
theorem contains_insert_extended_witness :
    containsT (insertT emptyTrie [1]) ([1] ++ [List.getLastD [1] 0]) = true ∧
      (0 ∉ [1] → strs (insertT emptyTrie [1]) = [[1]] ∧
        [1] ++ [List.getLastD [1] 0] ∉ strs (insertT emptyTrie [1])) :=
  contains_insert_extended [1] (by decide)

/-! ### Clean-operation preconditions

The sentinel encoding stores the completion marker of `s` under the map
key `s.last` of the node at the end of `s`'s path.  An `Insert` or
`Remove` therefore interferes with other stored strings exactly when its
walk runs into a sentinel node, or when a *real* child already stands at
the map key `s.last` of the end node.  The following decidable
predicates capture the clean cases. -/

/-- `Insert s` is clean from node `n`: the walk of `s` never steps into a
null-key (sentinel) node, and the entry at `s.last` in the end node's
map, if any, is a sentinel (so only a marker is overwritten). -/
def insOk (n : TrieNode) : List Nat → Nat → Bool
  | [], last =>
    match lookupA n.children last with
    | some c => c.key == 0
    | none => true
  | c :: rest, last =>
    match lookupA n.children c with
    | some child => (child.key != 0) && insOk child rest last
    | none => true

/-- `Remove s` is clean from node `n`: the entry at `s.last` in the end
node's map, if any, is a sentinel (so no real branch is erased). -/
def remOk (n : TrieNode) : List Nat → Nat → Bool
  | [], last =>
    match lookupA n.children last with
    | some c => c.key == 0
    | none => true
  | c :: rest, last =>
    match lookupA n.children c with
    | some child => remOk child rest last
    | none => true

/-! ### Claim C3: Remove of a never-completed string is *not* a no-op -/

/-- Claim C3 (code bug): `Remove` checks only that *some* child exists
under the last symbol of `s` at the end of the walk, not that that child
is the null-key completion marker (contrary to the comment "Check if
this is actually a complete string (has '\0' marker)" and the doc
comment "If the string doesn't exist, this is a no-op").  With only
`[1,2,2]` stored, the path `[1,2]` exists but was never completed, yet
`Remove [1,2]` erases the real child standing at the end of the path and
prunes the whole branch, destroying the stored string `[1,2,2]`. -/
theorem remove_incomplete_not_noop :
    strs (insertT emptyTrie [1,2,2]) = [[1,2,2]] ∧
      [1,2] ∉ strs (insertT emptyTrie [1,2,2]) ∧
      removeT (insertT emptyTrie [1,2,2]) [1,2] = emptyTrie ∧
      containsT (removeT (insertT emptyTrie [1,2,2]) [1,2]) [1,2,2] = false ∧
      sizeT (removeT (insertT emptyTrie [1,2,2]) [1,2]) = 0 := by
  refine ⟨by decide, by decide, rfl, by decide, by decide⟩

/-! ### More toolkit: splits, keys, `strs` as a flat map -/

theorem removeGo_key (last : Nat) (n : TrieNode) (s : List Nat) (u : TrieNode)
    (h : removeGo last n s = some u) : u.key = n.key := by
  cases n with
  | mk k ch =>
    cases s with
    | nil =>
      simp only [removeGo] at h
      cases h' : lookupA ch last with
      | some c => rw [h'] at h; cases h; rfl
      | none => rw [h'] at h; cases h
    | cons c rest =>
      simp only [removeGo] at h
      cases h1 : lookupA ch c with
      | none => rw [h1] at h; cases h
      | some child =>
        rw [h1] at h
        dsimp only at h
        cases h2 : removeGo last child rest with
        | none => rw [h2] at h; cases h
        | some child' =>
          rw [h2] at h
          dsimp only at h
          by_cases h3 : child'.children.isEmpty
          · simp only [h3, if_true] at h; cases h; rfl
          · simp only [h3, if_false] at h; cases h; rfl

theorem getLastD_irrel (s : List Nat) (hs : s ≠ []) (a b : Nat) :
    s.getLastD a = s.getLastD b := by
  cases s with
  | nil => exact absurd rfl hs
  | cons c r => rw [List.getLastD_cons, List.getLastD_cons]

theorem keyNotIn_iff (k : Nat) (l : List (Nat × TrieNode)) :
    keyNotIn k l = true ↔ ∀ p ∈ l, p.1 ≠ k := by
  induction l with
  | nil => simp [keyNotIn]
  | cons p r ih =>
    obtain ⟨k', v'⟩ := p
    simp [keyNotIn, ih, Bool.and_eq_true]

theorem keyNotIn_append (k : Nat) (l1 l2 : List (Nat × TrieNode)) :
    keyNotIn k (l1 ++ l2) = (keyNotIn k l1 && keyNotIn k l2) := by
  induction l1 with
  | nil => simp [keyNotIn]
  | cons p r ih =>
    obtain ⟨k', v'⟩ := p
    simp [keyNotIn, ih, Bool.and_assoc]

/-- A successful lookup splits the map at its (first) entry with that
key. -/
theorem lookupA_split (l : List (Nat × TrieNode)) (k : Nat) (v : TrieNode)
    (h : lookupA l k = some v) :
    ∃ l1 l2, l = l1 ++ (k, v) :: l2 ∧ keyNotIn k l1 = true := by
  induction l with
  | nil => simp [lookupA] at h
  | cons p r ih =>
    obtain ⟨k', v'⟩ := p
    by_cases hk : k' = k
    · subst hk
      simp only [lookupA, if_true] at h
      cases h
      exact ⟨[], r, rfl, rfl⟩
    · simp only [lookupA, hk, if_false] at h
      obtain ⟨l1, l2, hl, hn⟩ := ih h
      refine ⟨(k', v') :: l1, l2, by rw [hl]; rfl, ?_⟩
      simp [keyNotIn, hn, hk]

theorem lookupA_none_iff (l : List (Nat × TrieNode)) (k : Nat) :
    lookupA l k = none ↔ keyNotIn k l = true := by
  induction l with
  | nil => simp [lookupA, keyNotIn]
  | cons p r ih =>
    obtain ⟨k', v'⟩ := p
    by_cases hk : k' = k
    · subst hk; simp [lookupA, keyNotIn]
    · simp [lookupA, keyNotIn, hk, ih]

theorem updateA_split (l1 l2 : List (Nat × TrieNode)) (k : Nat) (v w : TrieNode)
    (hn : keyNotIn k l1 = true) :
    updateA (l1 ++ (k, v) :: l2) k w = l1 ++ (k, w) :: l2 := by
  induction l1 with
  | nil => simp [updateA]
  | cons p r ih =>
    obtain ⟨k', v'⟩ := p
    simp only [keyNotIn, Bool.and_eq_true, bne_iff_ne] at hn
    simp [updateA, hn.1, ih hn.2]

theorem updateA_none (l : List (Nat × TrieNode)) (k : Nat) (v : TrieNode)
    (h : lookupA l k = none) : updateA l k v = l ++ [(k, v)] := by
  induction l with
  | nil => simp [updateA]
  | cons p r ih =>
    obtain ⟨k', v'⟩ := p
    by_cases hk : k' = k
    · subst hk; simp [lookupA] at h
    · simp only [lookupA, hk, if_false] at h
      simp [updateA, hk, ih h]

theorem eraseA_split (l1 l2 : List (Nat × TrieNode)) (k : Nat) (v : TrieNode)
    (hn : keyNotIn k l1 = true) :
    eraseA (l1 ++ (k, v) :: l2) k = l1 ++ l2 := by
  induction l1 with
  | nil => simp [eraseA]
  | cons p r ih =>
    obtain ⟨k', v'⟩ := p
    simp only [keyNotIn, Bool.and_eq_true, bne_iff_ne] at hn
    simp [eraseA, hn.1, ih hn.2]

/-- The per-child contribution to `strs`. -/
def contrib (p : Nat × TrieNode) : List (List Nat) :=
  if p.2.key = 0 then [[]] else (strs p.2).map (p.2.key :: ·)

theorem strsCh_eq_flatMap (l : List (Nat × TrieNode)) :
    strsCh l = l.flatMap contrib := by
  induction l with
  | nil => rfl
  | cons p r ih =>
    obtain ⟨k, c⟩ := p
    simp [strsCh, contrib, ih]

theorem strsCh_append (l1 l2 : List (Nat × TrieNode)) :
    strsCh (l1 ++ l2) = strsCh l1 ++ strsCh l2 := by
  rw [strsCh_eq_flatMap, strsCh_eq_flatMap, strsCh_eq_flatMap,
    List.flatMap_append]

theorem nodupKeysB_keys_eq (l l' : List (Nat × TrieNode))
    (h : l.map Prod.fst = l'.map Prod.fst) : nodupKeysB l = nodupKeysB l' := by
  induction l generalizing l' with
  | nil =>
    cases l' with
    | nil => rfl
    | cons p r => simp at h
  | cons p r ih =>
    cases l' with
    | nil => simp at h
    | cons p' r' =>
      obtain ⟨k, v⟩ := p
      obtain ⟨k', v'⟩ := p'
      simp only [List.map_cons, List.cons.injEq] at h
      obtain ⟨hk, hr⟩ := h
      subst hk
      have hkn : ∀ kk, keyNotIn kk r = keyNotIn kk r' := by
        intro kk
        have h1 := (keyNotIn_iff kk r)
        have h2 := (keyNotIn_iff kk r')
        have hmem : (∀ p ∈ r, p.1 ≠ kk) ↔ (∀ p ∈ r', p.1 ≠ kk) := by
          constructor
          · intro hh p hp
            have : p.1 ∈ r'.map Prod.fst := List.mem_map_of_mem _ hp
            rw [← hr] at this
            obtain ⟨q, hq, hq1⟩ := List.mem_map.mp this
            rw [← hq1]; exact hh q hq
          · intro hh p hp
            have : p.1 ∈ r.map Prod.fst := List.mem_map_of_mem _ hp
            rw [hr] at this
            obtain ⟨q, hq, hq1⟩ := List.mem_map.mp this
            rw [← hq1]; exact hh q hq
        cases hb : keyNotIn kk r'
        · cases hb' : keyNotIn kk r
          · rfl
          · exact absurd (h2.mpr (hmem.mp (h1.mp hb'))) (by simp [hb])
        · exact h1.mpr (hmem.mpr (h2.mp hb))
      simp [nodupKeysB, hkn, ih r' hr]

theorem nodupKeysB_split (l1 l2 : List (Nat × TrieNode)) (k : Nat) (v : TrieNode)
    (h : nodupKeysB (l1 ++ (k, v) :: l2) = true) :
    keyNotIn k l1 = true ∧ keyNotIn k l2 = true := by
  induction l1 with
  | nil =>
    simp only [List.nil_append, nodupKeysB, Bool.and_eq_true] at h
    exact ⟨rfl, h.1⟩
  | cons p r ih =>
    obtain ⟨k', v'⟩ := p
    simp only [List.cons_append, nodupKeysB, Bool.and_eq_true] at h
    obtain ⟨hkn, hrest⟩ := h
    simp only [List.append_eq] at hkn hrest
    rw [keyNotIn_append] at hkn
    simp only [Bool.and_eq_true, keyNotIn, bne_iff_ne, Bool.and_eq_true] at hkn
    obtain ⟨ih1, ih2⟩ := ih hrest
    refine ⟨?_, ih2⟩
    simp only [keyNotIn, Bool.and_eq_true, bne_iff_ne]
    exact ⟨fun hh => hkn.2.1 hh.symm, ih1⟩

theorem nodupKeysB_erase (l1 l2 : List (Nat × TrieNode)) (k : Nat) (v : TrieNode)
    (h : nodupKeysB (l1 ++ (k, v) :: l2) = true) :
    nodupKeysB (l1 ++ l2) = true := by
  induction l1 with
  | nil =>
    simp only [List.nil_append, nodupKeysB, Bool.and_eq_true] at h ⊢
    exact h.2
  | cons p r ih =>
    obtain ⟨k', v'⟩ := p
    simp only [List.cons_append, nodupKeysB, Bool.and_eq_true] at h ⊢
    obtain ⟨hkn, hrest⟩ := h
    simp only [List.append_eq] at hkn hrest ⊢
    rw [keyNotIn_append] at hkn
    simp only [Bool.and_eq_true, keyNotIn, bne_iff_ne] at hkn
    refine ⟨?_, ih hrest⟩
    rw [keyNotIn_append]
    simp [hkn.1, hkn.2.2]

theorem nodupKeysB_append_single (l : List (Nat × TrieNode)) (k : Nat) (v : TrieNode)
    (h : nodupKeysB l = true) (hk : keyNotIn k l = true) :
    nodupKeysB (l ++ [(k, v)]) = true := by
  induction l with
  | nil => simp [nodupKeysB, keyNotIn]
  | cons p r ih =>
    obtain ⟨k', v'⟩ := p
    simp only [nodupKeysB, Bool.and_eq_true] at h
    simp only [keyNotIn, Bool.and_eq_true, bne_iff_ne] at hk
    simp only [List.cons_append, nodupKeysB, Bool.and_eq_true]
    refine ⟨?_, ih h.2 hk.2⟩
    simp only [List.append_eq]
    rw [keyNotIn_append]
    simp only [keyNotIn, Bool.and_eq_true, bne_iff_ne]
    exact ⟨h.1, fun hh => hk.1 hh.symm, trivial⟩

/-! ### Well-formedness accessors -/

theorem wfN_mk (k : Nat) (ch : List (Nat × TrieNode)) :
    wfN (.mk k ch) = (nodupKeysB ch && wfCh k ch) := rfl

theorem wfCh_cons (pk mk_ : Nat) (c : TrieNode) (r : List (Nat × TrieNode)) :
    wfCh pk ((mk_, c) :: r)
      = ((if c.key = 0 then c.children.isEmpty && (mk_ == pk)
          else (c.key == mk_) && wfN c) && wfCh pk r) := rfl

theorem wfCh_append (pk : Nat) (l1 l2 : List (Nat × TrieNode)) :
    wfCh pk (l1 ++ l2) = (wfCh pk l1 && wfCh pk l2) := by
  induction l1 with
  | nil => simp [wfCh]
  | cons p r ih =>
    obtain ⟨k, c⟩ := p
    simp only [List.cons_append, wfCh_cons, ih, Bool.and_assoc]

theorem wfCh_mem (pk : Nat) (l : List (Nat × TrieNode)) (k : Nat) (c : TrieNode)
    (h : wfCh pk l = true) (hm : (k, c) ∈ l) :
    (c.key = 0 ∧ c.children = [] ∧ k = pk) ∨
      (c.key ≠ 0 ∧ c.key = k ∧ wfN c = true) := by
  induction l with
  | nil => simp at hm
  | cons p r ih =>
    obtain ⟨k', c'⟩ := p
    rw [wfCh_cons, Bool.and_eq_true] at h
    rcases List.mem_cons.mp hm with heq | hmem
    · cases heq
      by_cases h0 : c.key = 0
      · left
        simp only [h0, if_true, Bool.and_eq_true, beq_iff_eq,
          List.isEmpty_iff] at h
        exact ⟨h0, h.1.1, h.1.2⟩
      · right
        simp only [h0, if_false, Bool.and_eq_true, beq_iff_eq] at h
        exact ⟨h0, h.1.1, h.1.2⟩
    · exact ih h.2 hmem

theorem nodupKeysB_pairwise (l : List (Nat × TrieNode))
    (h : nodupKeysB l = true) : l.Pairwise (fun p q => p.1 ≠ q.1) := by
  induction l with
  | nil => exact List.Pairwise.nil
  | cons p r ih =>
    obtain ⟨k, v⟩ := p
    simp only [nodupKeysB, Bool.and_eq_true] at h
    refine List.Pairwise.cons ?_ (ih h.2)
    intro q hq
    exact fun he => ((keyNotIn_iff k r).mp h.1 q hq) (he.symm)

/-! ### Weights -/

theorem nodeW_mk (k : Nat) (ch : List (Nat × TrieNode)) :
    nodeW (.mk k ch) = chW ch + 1 := rfl

theorem chW_le_of_mem (p : Nat × TrieNode) (l : List (Nat × TrieNode))
    (h : p ∈ l) : nodeW p.2 + 1 ≤ chW l := by
  induction l with
  | nil => simp at h
  | cons q r ih =>
    rcases List.mem_cons.mp h with heq | hmem
    · subst heq
      simp only [chW]
      omega
    · have := ih hmem
      obtain ⟨k', c'⟩ := q
      simp only [chW]
      omega

theorem nodeW_lt_of_mem (p : Nat × TrieNode) (k : Nat)
    (ch : List (Nat × TrieNode)) (h : p ∈ ch) :
    nodeW p.2 < nodeW (.mk k ch) := by
  have := chW_le_of_mem p ch h
  rw [nodeW_mk]
  omega

/-! ### `strs` is duplicate free on well-formed tries -/

theorem mem_strsCh_nil (ch : List (Nat × TrieNode)) (h : [] ∈ strsCh ch) :
    ∃ p ∈ ch, p.2.key = 0 := by
  rw [strsCh_eq_flatMap] at h
  obtain ⟨p, hp, hmem⟩ := List.mem_flatMap.mp h
  refine ⟨p, hp, ?_⟩
  by_contra h0
  simp only [contrib, h0, if_false, List.mem_map] at hmem
  obtain ⟨w, _, hw⟩ := hmem
  cases hw

theorem mem_strsCh_cons (ch : List (Nat × TrieNode)) (c : Nat) (w : List Nat)
    (h : (c :: w) ∈ strsCh ch) :
    ∃ p ∈ ch, p.2.key = c ∧ c ≠ 0 ∧ w ∈ strs p.2 := by
  rw [strsCh_eq_flatMap] at h
  obtain ⟨p, hp, hmem⟩ := List.mem_flatMap.mp h
  by_cases h0 : p.2.key = 0
  · simp only [contrib, h0, if_true, List.mem_singleton] at hmem
    cases hmem
  · simp only [contrib, h0, if_false, List.mem_map] at hmem
    obtain ⟨v, hv, hveq⟩ := hmem
    obtain ⟨hk, hw⟩ := List.cons.injEq _ _ _ _ ▸ hveq
    exact ⟨p, hp, hk, hk ▸ h0, hw ▸ hv⟩

theorem strs_nodup_aux : ∀ (m : Nat) (n : TrieNode), nodeW n ≤ m →
    wfN n = true → (strs n).Nodup := by
  intro m
  induction m with
  | zero =>
    intro n hw _
    have : 0 < nodeW n := by
      cases n with
      | mk k ch => rw [nodeW_mk]; omega
    omega
  | succ m ih =>
    intro n hw h
    cases n with
    | mk k ch =>
      rw [wfN_mk, Bool.and_eq_true] at h
      show (strsCh ch).Nodup
      rw [strsCh_eq_flatMap]
      rw [List.nodup_flatMap]
      constructor
      · intro p hp
        by_cases h0 : p.2.key = 0
        · simp [contrib, h0]
        · simp only [contrib, h0, if_false]
          rcases wfCh_mem k ch p.1 p.2 h.2 hp with ⟨h1, _, _⟩ | ⟨_, _, hwf⟩
          · exact absurd h1 h0
          · have hlt := nodeW_lt_of_mem p k ch hp
            rw [nodeW_mk] at hw hlt
            exact List.Nodup.map (fun a b hab => by simpa using hab)
              (ih p.2 (by omega) hwf)
      · have hpw := nodupKeysB_pairwise ch h.1
        refine List.Pairwise.imp_of_mem ?_ hpw
        intro p q hp hq hne
        rcases wfCh_mem k ch p.1 p.2 h.2 hp with ⟨hp0, _, hppk⟩ | ⟨hp0, hpk, _⟩ <;>
          rcases wfCh_mem k ch q.1 q.2 h.2 hq with ⟨hq0, _, hqpk⟩ | ⟨hq0, hqk, _⟩
        · exact absurd (hppk.trans hqpk.symm) hne
        · intro w hw1 hw2
          simp only [contrib, hp0, if_true, List.mem_singleton] at hw1
          subst hw1
          simp only [contrib, hq0, if_false, List.mem_map] at hw2
          obtain ⟨v, _, hv⟩ := hw2
          cases hv
        · intro w hw1 hw2
          simp only [contrib, hq0, if_true, List.mem_singleton] at hw2
          subst hw2
          simp only [contrib, hp0, if_false, List.mem_map] at hw1
          obtain ⟨v, _, hv⟩ := hw1
          cases hv
        · intro w hw1 hw2
          simp only [contrib, hp0, hq0, if_false, List.mem_map] at hw1 hw2
          obtain ⟨v1, _, hv1⟩ := hw1
          obtain ⟨v2, _, hv2⟩ := hw2
          rw [← hv2] at hv1
          have : p.2.key = q.2.key := (List.cons.injEq _ _ _ _ ▸ hv1).1
          exact hne ((hpk ▸ this) ▸ hqk ▸ rfl)

theorem strs_nodup (n : TrieNode) (h : wfN n = true) : (strs n).Nodup :=
  strs_nodup_aux (nodeW n) n le_rfl h

/-! ### Effect of a clean `Insert` on the stored set -/

theorem strsCh_cons (mk_ : Nat) (c : TrieNode) (r : List (Nat × TrieNode)) :
    strsCh ((mk_, c) :: r) = contrib (mk_, c) ++ strsCh r := by
  simp [strsCh, contrib]

theorem strs_mk (k : Nat) (ch : List (Nat × TrieNode)) :
    strs (.mk k ch) = strsCh ch := rfl

theorem insOk_leaf (k : Nat) (s : List Nat) (la : Nat) :
    insOk (.mk k []) s la = true := by
  cases s <;> rfl

/-- In a well-formed children map, a completion starting with symbol
`c ≠ 0` can only come from the (unique) entry registered at map key `c`.
If no entry (outside a designated split point) carries key `c`, the
completion lives in the split entry. -/
theorem mem_strsCh_cons_unique (pk c : Nat) (child : TrieNode)
    (l1 l2 : List (Nat × TrieNode)) (w : List Nat)
    (hwfc : wfCh pk (l1 ++ (c, child) :: l2) = true)
    (hn1 : keyNotIn c l1 = true) (hn2 : keyNotIn c l2 = true)
    (hc0 : c ≠ 0)
    (h : (c :: w) ∈ strsCh (l1 ++ (c, child) :: l2)) : w ∈ strs child := by
  obtain ⟨p, hp, hkey, _, hw⟩ := mem_strsCh_cons _ c w h
  have hp1 : p.1 = c := by
    rcases wfCh_mem pk _ p.1 p.2 hwfc hp with ⟨h1, _, _⟩ | ⟨_, h2, _⟩
    · exact absurd (h1 ▸ hkey.symm) hc0
    · rw [← h2, hkey]
  rcases List.mem_append.mp hp with hin1 | hin2
  · exact absurd hp1 ((keyNotIn_iff c l1).mp hn1 p hin1)
  · rcases List.mem_cons.mp hin2 with heq | hin2'
    · cases p
      cases heq
      exact hw
    · exact absurd hp1 ((keyNotIn_iff c l2).mp hn2 p hin2')

/-- No completion starting with `c` exists when no child is registered
at map key `c` (well-formed case). -/
theorem not_mem_strsCh_of_keyNotIn (pk c : Nat) (ch : List (Nat × TrieNode))
    (w : List Nat) (hwfc : wfCh pk ch = true) (hn : keyNotIn c ch = true)
    (hc0 : c ≠ 0) : (c :: w) ∉ strsCh ch := by
  intro h
  obtain ⟨p, hp, hkey, _, _⟩ := mem_strsCh_cons _ c w h
  have hp1 : p.1 = c := by
    rcases wfCh_mem pk _ p.1 p.2 hwfc hp with ⟨h1, _, _⟩ | ⟨_, h2, _⟩
    · exact absurd (h1 ▸ hkey.symm) hc0
    · rw [← h2, hkey]
  exact (keyNotIn_iff c ch).mp hn p hp hp1

/-- No empty completion exists when no child is registered at the
parent's own key (well-formed case: a sentinel is always registered at
the parent's key). -/
theorem not_mem_strsCh_nil_of_keyNotIn (pk : Nat) (ch : List (Nat × TrieNode))
    (hwfc : wfCh pk ch = true) (hn : keyNotIn pk ch = true) :
    [] ∉ strsCh ch := by
  intro h
  obtain ⟨p, hp, hkey⟩ := mem_strsCh_nil ch h
  rcases wfCh_mem pk _ p.1 p.2 hwfc hp with ⟨_, _, h3⟩ | ⟨h1, _, _⟩
  · exact (keyNotIn_iff pk ch).mp hn p hp h3
  · exact h1 hkey

theorem wf_insertGo (s : List Nat) : ∀ (n : TrieNode) (la : Nat),
    wfN n = true → insOk n s la = true → s.getLastD n.key = la → 0 ∉ s →
    wfN (insertGo la n s) = true := by
  induction s with
  | nil =>
    intro n la hwf hok hl h0
    cases n with
    | mk k ch =>
      simp only [key_mk, List.getLastD_nil] at hl
      subst hl
      rw [insertGo_nil]
      cases hfind : lookupA ch k with
      | some c =>
        simp only [insOk, children_mk, hfind, beq_iff_eq] at hok
        obtain ⟨l1, l2, hsplit, hn1⟩ := lookupA_split ch k c hfind
        rw [wfN_mk, Bool.and_eq_true] at hwf
        have hmem : (k, c) ∈ ch := by rw [hsplit]; simp
        have hch : c.children = [] := by
          rcases wfCh_mem k ch k c hwf.2 hmem with ⟨_, h2, _⟩ | ⟨h1, _, _⟩
          · exact h2
          · exact absurd hok h1
        have hcs : c = sentinel := by
          rw [← mk_key_children c, hok, hch]; rfl
        rw [hsplit, updateA_split l1 l2 k c sentinel hn1]
        rw [← hcs, ← hsplit]
        rw [wfN_mk, Bool.and_eq_true]
        exact hwf
      | none =>
        rw [updateA_none ch k sentinel hfind]
        rw [wfN_mk, Bool.and_eq_true] at hwf ⊢
        refine ⟨nodupKeysB_append_single ch k sentinel hwf.1
          ((lookupA_none_iff ch k).mp hfind), ?_⟩
        rw [wfCh_append, Bool.and_eq_true]
        refine ⟨hwf.2, ?_⟩
        rw [wfCh_cons]
        simp [sentinel, wfCh]
  | cons c rest ih =>
    intro n la hwf hok hl h0
    cases n with
    | mk k ch =>
      have hc0 : c ≠ 0 := fun h => h0 (by simp [h])
      have h0r : 0 ∉ rest := fun h => h0 (List.mem_cons_of_mem _ h)
      rw [List.getLastD_cons] at hl
      cases hfind : lookupA ch c with
      | some child =>
        simp only [insOk, children_mk, hfind, Bool.and_eq_true, bne_iff_ne] at hok
        rw [insertGo_cons_found la k c ch rest child hfind]
        obtain ⟨l1, l2, hsplit, hn1⟩ := lookupA_split ch c child hfind
        rw [wfN_mk, Bool.and_eq_true] at hwf
        have hmem : (c, child) ∈ ch := by rw [hsplit]; simp
        have hck : child.key = c ∧ wfN child = true := by
          rcases wfCh_mem k ch c child hwf.2 hmem with ⟨h1, _, _⟩ | ⟨_, h2, h3⟩
          · exact absurd h1 hok.1
          · exact ⟨h2, h3⟩
        have hwfc' : wfN (insertGo la child rest) = true :=
          ih child la hck.2 hok.2 (by rw [hck.1]; exact hl) h0r
        rw [hsplit, updateA_split l1 l2 c child _ hn1]
        rw [wfN_mk, Bool.and_eq_true]
        constructor
        · rw [nodupKeysB_keys_eq (l1 ++ (c, insertGo la child rest) :: l2)
            (l1 ++ (c, child) :: l2) (by simp)]
          rw [← hsplit]; exact hwf.1
        · rw [hsplit] at hwf
          have h2 := hwf.2
          rw [wfCh_append, Bool.and_eq_true] at h2 ⊢
          refine ⟨h2.1, ?_⟩
          rw [wfCh_cons, Bool.and_eq_true] at h2 ⊢
          refine ⟨?_, h2.2.2⟩
          have hkey' : (insertGo la child rest).key = c := by
            rw [insertGo_key, hck.1]
          rw [hkey']
          simp [hc0, hwfc']
      | none =>
        rw [insertGo_cons_new la k c ch rest hfind]
        rw [updateA_none ch c _ hfind]
        have hX : wfN (insertGo la (.mk c []) rest) = true := by
          refine ih _ la ?_ (insOk_leaf c rest la) ?_ h0r
          · rfl
          · simpa using hl
        have hXkey : (insertGo la (.mk c []) rest).key = c := by
          rw [insertGo_key]; rfl
        rw [wfN_mk, Bool.and_eq_true] at hwf ⊢
        refine ⟨nodupKeysB_append_single ch c _ hwf.1
          ((lookupA_none_iff ch c).mp hfind), ?_⟩
        rw [wfCh_append, Bool.and_eq_true]
        refine ⟨hwf.2, ?_⟩
        rw [wfCh_cons]
        rw [hXkey]
        simp [hc0, hX, wfCh]

theorem strs_insertGo_perm (s : List Nat) : ∀ (n : TrieNode) (la : Nat),
    wfN n = true → insOk n s la = true → s.getLastD n.key = la → 0 ∉ s →
    (strs (insertGo la n s)).Perm
      (if s ∈ strs n then strs n else strs n ++ [s]) := by
  induction s with
  | nil =>
    intro n la hwf hok hl h0
    cases n with
    | mk k ch =>
      simp only [key_mk, List.getLastD_nil] at hl
      subst hl
      rw [insertGo_nil]
      cases hfind : lookupA ch k with
      | some c =>
        simp only [insOk, children_mk, hfind, beq_iff_eq] at hok
        obtain ⟨l1, l2, hsplit, hn1⟩ := lookupA_split ch k c hfind
        rw [wfN_mk, Bool.and_eq_true] at hwf
        have hmem : (k, c) ∈ ch := by rw [hsplit]; simp
        have hch : c.children = [] := by
          rcases wfCh_mem k ch k c hwf.2 hmem with ⟨_, h2, _⟩ | ⟨h1, _, _⟩
          · exact h2
          · exact absurd hok h1
        have hcs : c = sentinel := by
          rw [← mk_key_children c, hok, hch]; rfl
        rw [hsplit, updateA_split l1 l2 k c sentinel hn1, ← hcs, ← hsplit]
        have hmemnil : ([] : List Nat) ∈ strs (TrieNode.mk k ch) := by
          rw [strs_mk, hsplit, strsCh_append, strsCh_cons]
          simp [contrib, hok]
        rw [if_pos hmemnil]
      | none =>
        rw [updateA_none ch k sentinel hfind]
        have hnot : ([] : List Nat) ∉ strs (TrieNode.mk k ch) := by
          rw [strs_mk]
          rw [wfN_mk, Bool.and_eq_true] at hwf
          exact not_mem_strsCh_nil_of_keyNotIn k ch hwf.2
            ((lookupA_none_iff ch k).mp hfind)
        rw [if_neg hnot, strs_mk, strs_mk, strsCh_append, strsCh_cons]
        simp [contrib, sentinel, strsCh]
  | cons c rest ih =>
    intro n la hwf hok hl h0
    cases n with
    | mk k ch =>
      have hc0 : c ≠ 0 := fun h => h0 (by simp [h])
      have h0r : 0 ∉ rest := fun h => h0 (List.mem_cons_of_mem _ h)
      rw [List.getLastD_cons] at hl
      cases hfind : lookupA ch c with
      | some child =>
        simp only [insOk, children_mk, hfind, Bool.and_eq_true, bne_iff_ne] at hok
        rw [insertGo_cons_found la k c ch rest child hfind]
        obtain ⟨l1, l2, hsplit, hn1⟩ := lookupA_split ch c child hfind
        rw [wfN_mk, Bool.and_eq_true] at hwf
        have hmem : (c, child) ∈ ch := by rw [hsplit]; simp
        have hck : child.key = c ∧ wfN child = true := by
          rcases wfCh_mem k ch c child hwf.2 hmem with ⟨h1, _, _⟩ | ⟨_, h2, h3⟩
          · exact absurd h1 hok.1
          · exact ⟨h2, h3⟩
        have hperm : (strs (insertGo la child rest)).Perm
            (if rest ∈ strs child then strs child else strs child ++ [rest]) :=
          ih child la hck.2 hok.2 (by rw [hck.1]; exact hl) h0r
        have hn2 : keyNotIn c l2 = true := by
          have := nodupKeysB_split l1 l2 c child (hsplit ▸ hwf.1)
          exact this.2
        have hkey' : (insertGo la child rest).key = c := by
          rw [insertGo_key, hck.1]
        have hres : strs (TrieNode.mk k (updateA ch c (insertGo la child rest)))
            = strsCh l1 ++ (strs (insertGo la child rest)).map (c :: ·)
              ++ strsCh l2 := by
          rw [strs_mk, hsplit, updateA_split l1 l2 c child _ hn1,
            strsCh_append, strsCh_cons]
          simp only [contrib, hkey', hc0, if_false, List.append_assoc]
        have hdec : strs (TrieNode.mk k ch)
            = strsCh l1 ++ (strs child).map (c :: ·) ++ strsCh l2 := by
          rw [strs_mk, hsplit, strsCh_append, strsCh_cons]
          simp only [contrib, hck.1, hc0, if_false, List.append_assoc]
        by_cases hrmem : rest ∈ strs child
        · rw [if_pos hrmem] at hperm
          have hsmem : (c :: rest) ∈ strs (TrieNode.mk k ch) := by
            rw [hdec]
            refine List.mem_append.mpr (Or.inl ?_)
            refine List.mem_append.mpr (Or.inr ?_)
            exact List.mem_map_of_mem _ hrmem
          rw [if_pos hsmem, hres, hdec]
          rw [List.append_assoc, List.append_assoc]
          refine List.Perm.append_left _ ?_
          exact (hperm.map _).append_right _
        · rw [if_neg hrmem] at hperm
          have hsnot : (c :: rest) ∉ strs (TrieNode.mk k ch) := by
            rw [strs_mk, hsplit]
            intro hmem'
            exact hrmem (mem_strsCh_cons_unique k c child l1 l2 rest
              (hsplit ▸ hwf.2) hn1 hn2 hc0 hmem')
          rw [if_neg hsnot, hres, hdec]
          have h1 : (strsCh l1 ++ (strs (insertGo la child rest)).map (c :: ·)
              ++ strsCh l2).Perm
              (strsCh l1 ++ ((strs child ++ [rest]).map (c :: ·)) ++ strsCh l2) := by
            rw [List.append_assoc, List.append_assoc]
            exact List.Perm.append_left _ ((hperm.map _).append_right _)
          have h2 : strsCh l1 ++ ((strs child ++ [rest]).map (c :: ·)) ++ strsCh l2
              = strsCh l1 ++ ((strs child).map (c :: ·) ++ [c :: rest]) ++ strsCh l2 := by
            rw [List.map_append]
            rfl
          have h3 : (strsCh l1 ++ ((strs child).map (c :: ·) ++ [c :: rest])
              ++ strsCh l2).Perm
              (strsCh l1 ++ (strs child).map (c :: ·) ++ strsCh l2 ++ [c :: rest]) := by
            simp only [List.append_assoc]
            refine List.Perm.append_left _ ?_
            refine List.Perm.append_left _ ?_
            exact List.perm_append_comm
          exact h1.trans (h2 ▸ h3)
      | none =>
        rw [insertGo_cons_new la k c ch rest hfind, updateA_none ch c _ hfind]
        have hXkey : (insertGo la (.mk c []) rest).key = c := by
          rw [insertGo_key]; rfl
        have hXstrs : strs (insertGo la (.mk c []) rest) = [rest] :=
          strs_insertGo_fresh la rest h0r c
        have hsnot : (c :: rest) ∉ strs (TrieNode.mk k ch) := by
          rw [strs_mk]
          rw [wfN_mk, Bool.and_eq_true] at hwf
          exact not_mem_strsCh_of_keyNotIn k c ch rest hwf.2
            ((lookupA_none_iff ch c).mp hfind) hc0
        rw [if_neg hsnot, strs_mk, strs_mk, strsCh_append, strsCh_cons]
        simp [contrib, hXkey, hc0, hXstrs, strsCh]

/-! ### Effect of a clean `Remove` on the stored set -/

theorem lookupA_eq_of_mem_nodup (l : List (Nat × TrieNode)) (k : Nat)
    (v : TrieNode) (hnd : nodupKeysB l = true) (hm : (k, v) ∈ l) :
    lookupA l k = some v := by
  induction l with
  | nil => simp at hm
  | cons p r ih =>
    obtain ⟨k', v'⟩ := p
    simp only [nodupKeysB, Bool.and_eq_true] at hnd
    rcases List.mem_cons.mp hm with heq | hmem
    · cases heq
      simp [lookupA]
    · have hk : k' ≠ k := by
        intro he
        subst he
        exact (keyNotIn_iff k' r).mp hnd.1 (k', v) hmem rfl
      simp only [lookupA, hk, if_false]
      exact ih hnd.2 hmem

/-- In a well-formed children map with no duplicate keys, a completion
starting with `c ≠ 0` comes exactly from the child found at map key `c`. -/
theorem mem_strsCh_lookup (pk c : Nat) (ch : List (Nat × TrieNode))
    (w : List Nat) (hwfc : wfCh pk ch = true) (hnd : nodupKeysB ch = true)
    (hc0 : c ≠ 0) (h : (c :: w) ∈ strsCh ch) :
    ∃ child, lookupA ch c = some child ∧ child.key = c ∧ w ∈ strs child := by
  obtain ⟨p, hp, hkey, _, hw⟩ := mem_strsCh_cons _ c w h
  have hp1 : p.1 = c := by
    rcases wfCh_mem pk _ p.1 p.2 hwfc hp with ⟨h1, _, _⟩ | ⟨_, h2, _⟩
    · exact absurd (h1 ▸ hkey.symm) hc0
    · rw [← h2, hkey]
  refine ⟨p.2, ?_, hkey, hw⟩
  have : (c, p.2) ∈ ch := by
    have : p = (c, p.2) := by
      cases p
      simp only at hp1
      rw [hp1]
    exact this ▸ hp
  exact lookupA_eq_of_mem_nodup ch c p.2 hnd this

theorem removeGo_leaf (la x : Nat) (s : List Nat) :
    removeGo la (.mk x []) s = none := by
  cases s <;> rfl

/-- `Remove` on a clean trie: when the downward walk succeeds, the trie
stays well-formed and loses exactly the string `s`; when it fails, `s`
was not stored. -/
theorem removeGo_spec (s : List Nat) : ∀ (n : TrieNode) (la : Nat),
    wfN n = true → remOk n s la = true → s.getLastD n.key = la → 0 ∉ s →
    (∀ u, removeGo la n s = some u →
      wfN u = true ∧ (strs n).Perm (strs u ++ [s])) ∧
    (removeGo la n s = none → s ∉ strs n) := by
  induction s with
  | nil =>
    intro n la hwf hok hl h0
    cases n with
    | mk k ch =>
      simp only [key_mk, List.getLastD_nil] at hl
      subst hl
      rw [wfN_mk, Bool.and_eq_true] at hwf
      cases hfind : lookupA ch k with
      | some c =>
        simp only [remOk, children_mk, hfind, beq_iff_eq] at hok
        obtain ⟨l1, l2, hsplit, hn1⟩ := lookupA_split ch k c hfind
        have hmem : (k, c) ∈ ch := by rw [hsplit]; simp
        have hch : c.children = [] := by
          rcases wfCh_mem k ch k c hwf.2 hmem with ⟨_, h2, _⟩ | ⟨h1, _, _⟩
          · exact h2
          · exact absurd hok h1
        constructor
        · intro u hu
          simp only [removeGo, hfind] at hu
          cases hu
          rw [hsplit, eraseA_split l1 l2 k c hn1]
          constructor
          · rw [wfN_mk, Bool.and_eq_true]
            refine ⟨nodupKeysB_erase l1 l2 k c (by rw [← hsplit]; exact hwf.1), ?_⟩
            have h2 : wfCh k (l1 ++ (k, c) :: l2) = true := by
              rw [← hsplit]; exact hwf.2
            rw [wfCh_append, Bool.and_eq_true] at h2
            rw [wfCh_append, Bool.and_eq_true]
            rw [wfCh_cons, Bool.and_eq_true] at h2
            exact ⟨h2.1, h2.2.2⟩
          · rw [strs_mk, strs_mk, strsCh_append, strsCh_cons, strsCh_append]
            simp only [contrib, hok, if_true]
            simp only [List.append_assoc]
            refine List.Perm.append_left _ ?_
            exact List.perm_append_comm
        · intro hu
          simp only [removeGo, hfind] at hu
          cases hu
      | none =>
        constructor
        · intro u hu
          simp only [removeGo, hfind] at hu
          cases hu
        · intro _
          rw [strs_mk]
          exact not_mem_strsCh_nil_of_keyNotIn k ch hwf.2
            ((lookupA_none_iff ch k).mp hfind)
  | cons c rest ih =>
    intro n la hwf hok hl h0
    cases n with
    | mk k ch =>
      have hc0 : c ≠ 0 := fun h => h0 (by simp [h])
      have h0r : 0 ∉ rest := fun h => h0 (List.mem_cons_of_mem _ h)
      rw [List.getLastD_cons] at hl
      rw [wfN_mk, Bool.and_eq_true] at hwf
      cases hfind : lookupA ch c with
      | none =>
        constructor
        · intro u hu
          simp only [removeGo, hfind] at hu
          cases hu
        · intro _
          rw [strs_mk]
          exact not_mem_strsCh_of_keyNotIn k c ch rest hwf.2
            ((lookupA_none_iff ch c).mp hfind) hc0
      | some child =>
        simp only [remOk, children_mk, hfind] at hok
        obtain ⟨l1, l2, hsplit, hn1⟩ := lookupA_split ch c child hfind
        have hmem : (c, child) ∈ ch := by rw [hsplit]; simp
        rcases wfCh_mem k ch c child hwf.2 hmem with ⟨hk0, hch, _⟩ | ⟨hk0, hkc, hwfchild⟩
        · -- the walk stepped into a sentinel: its children are empty,
          -- so the recursive walk fails and the call is a no-op
          have hnone : removeGo la child rest = none := by
            rw [← mk_key_children child, hk0, hch]
            exact removeGo_leaf la 0 rest
          constructor
          · intro u hu
            simp only [removeGo, hfind, hnone] at hu
            cases hu
          · intro _
            rw [strs_mk]
            intro hmem'
            obtain ⟨child2, hl2, hk2, _⟩ :=
              mem_strsCh_lookup k c ch rest hwf.2 hwf.1 hc0 hmem'
            rw [hfind] at hl2
            cases hl2
            rw [hk0] at hk2
            exact hc0 hk2.symm
        · have hlrest : rest.getLastD child.key = la := by rw [hkc]; exact hl
          have IH := ih child la hwfchild hok hlrest h0r
          cases hrec : removeGo la child rest with
          | none =>
            constructor
            · intro u hu
              simp only [removeGo, hfind, hrec] at hu
              cases hu
            · intro _
              rw [strs_mk]
              intro hmem'
              obtain ⟨child2, hl2, _, hw2⟩ :=
                mem_strsCh_lookup k c ch rest hwf.2 hwf.1 hc0 hmem'
              rw [hfind] at hl2
              cases hl2
              exact (IH.2 hrec) hw2
          | some child' =>
            obtain ⟨hwfc', hpermc⟩ := IH.1 child' hrec
            have hkey' : child'.key = c := by
              rw [removeGo_key la child rest child' hrec, hkc]
            have hdec : strs (TrieNode.mk k ch)
                = strsCh l1 ++ (strs child).map (c :: ·) ++ strsCh l2 := by
              rw [strs_mk, hsplit, strsCh_append, strsCh_cons]
              simp only [contrib, hkc, hc0, if_false, List.append_assoc]
            constructor
            · intro u hu
              simp only [removeGo, hfind, hrec] at hu
              by_cases hemp : child'.children.isEmpty
              · simp only [hemp, if_true] at hu
                cases hu
                have hstrs' : strs child' = [] := by
                  rw [← mk_key_children child', List.isEmpty_iff.mp hemp]
                  rfl
                have hpc : (strs child).Perm [rest] := by
                  have := hpermc
                  rw [hstrs'] at this
                  simpa using this
                constructor
                · rw [wfN_mk, Bool.and_eq_true]
                  rw [hsplit, eraseA_split l1 l2 c child hn1]
                  refine ⟨nodupKeysB_erase l1 l2 c child (by rw [← hsplit]; exact hwf.1), ?_⟩
                  have h2 : wfCh k (l1 ++ (c, child) :: l2) = true := by
                    rw [← hsplit]; exact hwf.2
                  rw [wfCh_append, Bool.and_eq_true] at h2
                  rw [wfCh_append, Bool.and_eq_true]
                  rw [wfCh_cons, Bool.and_eq_true] at h2
                  exact ⟨h2.1, h2.2.2⟩
                · rw [hdec, hsplit, eraseA_split l1 l2 c child hn1, strs_mk,
                    strsCh_append]
                  have hmap : ((strs child).map (c :: ·)).Perm [c :: rest] :=
                    hpc.map _
                  simp only [List.append_assoc]
                  refine (List.Perm.append_left _ (hmap.append_right _)).trans ?_
                  simp only [List.singleton_append]
                  exact List.Perm.append_left _ ((List.perm_append_singleton _ _).symm)
              · simp only [hemp, if_false] at hu
                cases hu
                constructor
                · rw [wfN_mk, Bool.and_eq_true]
                  rw [hsplit, updateA_split l1 l2 c child child' hn1]
                  constructor
                  · rw [nodupKeysB_keys_eq (l1 ++ (c, child') :: l2)
                      (l1 ++ (c, child) :: l2) (by simp)]
                    rw [← hsplit]; exact hwf.1
                  · have h2 : wfCh k (l1 ++ (c, child) :: l2) = true := by
                      rw [← hsplit]; exact hwf.2
                    rw [wfCh_append, Bool.and_eq_true] at h2 ⊢
                    refine ⟨h2.1, ?_⟩
                    rw [wfCh_cons, Bool.and_eq_true] at h2 ⊢
                    refine ⟨?_, h2.2.2⟩
                    rw [hkey']
                    simp [hc0, hwfc']
                · have hres : strs (TrieNode.mk k (updateA ch c child'))
                      = strsCh l1 ++ (strs child').map (c :: ·) ++ strsCh l2 := by
                    rw [strs_mk, hsplit, updateA_split l1 l2 c child child' hn1,
                      strsCh_append, strsCh_cons]
                    simp only [contrib, hkey', hc0, if_false, List.append_assoc]
                  rw [hdec, hres]
                  have hmap : ((strs child).map (c :: ·)).Perm
                      ((strs child').map (c :: ·) ++ [c :: rest]) := by
                    have := hpermc.map (c :: ·)
                    rw [List.map_append] at this
                    simpa using this
                  simp only [List.append_assoc]
                  refine (List.Perm.append_left _ (hmap.append_right _)).trans ?_
                  simp only [List.append_assoc]
                  refine List.Perm.append_left _ ?_
                  refine List.Perm.append_left _ ?_
                  exact List.perm_append_comm
            · intro hu
              simp only [removeGo, hfind, hrec] at hu
              by_cases hemp : child'.children.isEmpty <;> simp [hemp] at hu

/-! ### `Count` counts the stored set -/

theorem countCh_eq_length : ∀ (m : Nat) (ch : List (Nat × TrieNode)),
    chW ch ≤ m → countChildren ch = (strsCh ch).length := by
  intro m
  induction m with
  | zero =>
    intro ch hw
    cases ch with
    | nil => rfl
    | cons p r =>
      obtain ⟨k, c⟩ := p
      exfalso
      have : 0 < nodeW c := by
        cases c with
        | mk k' ch' => rw [nodeW_mk]; omega
      simp only [chW] at hw
      omega
  | succ m ih =>
    intro ch hw
    cases ch with
    | nil => rfl
    | cons p r =>
      obtain ⟨k, c⟩ := p
      simp only [chW] at hw
      rw [strsCh_cons]
      simp only [countChildren, List.length_append]
      have hr : countChildren r = (strsCh r).length := by
        refine ih r ?_
        have : 0 < nodeW c := by
          cases c with
          | mk k' ch' => rw [nodeW_mk]; omega
        omega
      rw [hr]
      congr 1
      cases c with
      | mk k' ch' =>
        by_cases h0 : k' = 0
        · simp [countNode, contrib, h0]
        · simp only [countNode, h0, if_false, contrib, key_mk, children_mk]
          rw [ih ch' (by rw [nodeW_mk] at hw; omega)]
          simp [h0, strs_mk]

theorem sizeT_eq_length (t : TrieNode) : sizeT t = (strs t).length := by
  cases t with
  | mk k ch =>
    show countT (.mk k ch) [] = (strsCh ch).length
    simp only [countT, findNode, children_mk]
    exact countCh_eq_length (chW ch) ch le_rfl

/-! ### Operation sequences and clean executions -/

/-- A client operation on the trie. -/
inductive Op : Type where
  | ins : List Nat → Op
  | del : List Nat → Op

/-- Apply one operation (`Insert` or `Remove`). -/
def applyOp (t : TrieNode) : Op → TrieNode
  | .ins s => insertT t s
  | .del s => removeT t s

/-- Execute a sequence of operations. -/
def execOps (t : TrieNode) : List Op → TrieNode
  | [] => t
  | o :: r => execOps (applyOp t o) r

/-- An operation is clean in the current trie: the empty string (always a
no-op) is allowed; otherwise the string avoids the null symbol and its
walk neither crosses a completion marker nor touches a real child stored
at the last symbol of its end node. -/
def opOk (t : TrieNode) : Op → Bool
  | .ins s => s.isEmpty || (!(s.contains 0) && insOk t s (s.getLastD 0))
  | .del s => s.isEmpty || (!(s.contains 0) && remOk t s (s.getLastD 0))

/-- Every operation of the sequence is clean in the trie it applies to. -/
def okSeq (t : TrieNode) : List Op → Bool
  | [] => true
  | o :: r => opOk t o && okSeq (applyOp t o) r

/-- The reference semantics: the set of non-empty strings currently
stored, updated by the obvious set operations. -/
def execSet (S : Finset (List Nat)) : List Op → Finset (List Nat)
  | [] => S
  | .ins s :: r => execSet (if s = [] then S else insert s S) r
  | .del s :: r => execSet (S.erase s) r

/-! ### Trie-level wrappers for the insert/remove lemmas -/

theorem insertT_wf_strs (t : TrieNode) (s : List Nat) (hw : wfT t = true)
    (hok : insOk t s (s.getLastD 0) = true) (h0 : 0 ∉ s) (hs : s ≠ []) :
    wfT (insertT t s) = true ∧
      (strs (insertT t s)).Perm
        (if s ∈ strs t then strs t else strs t ++ [s]) := by
  rw [wfT, Bool.and_eq_true, beq_iff_eq] at hw
  cases s with
  | nil => exact absurd rfl hs
  | cons c rest =>
    have hl : (c :: rest).getLastD (t.key) = (c :: rest).getLastD 0 := by
      rw [List.getLastD_cons, List.getLastD_cons]
    constructor
    · rw [wfT, Bool.and_eq_true, beq_iff_eq]
      refine ⟨?_, ?_⟩
      · show (insertT t (c :: rest)).key = 0
        show (insertGo ((c :: rest).getLastD 0) t (c :: rest)).key = 0
        rw [insertGo_key]
        exact hw.1
      · exact wf_insertGo (c :: rest) t _ hw.2 hok hl h0
    · exact strs_insertGo_perm (c :: rest) t _ hw.2 hok hl h0

theorem removeT_wf_strs (t : TrieNode) (s : List Nat) (hw : wfT t = true)
    (hok : remOk t s (s.getLastD 0) = true) (h0 : 0 ∉ s) (hs : s ≠ []) :
    wfT (removeT t s) = true ∧
      (strs t).Perm (strs (removeT t s) ++ (if s ∈ strs t then [s] else [])) := by
  rw [wfT, Bool.and_eq_true, beq_iff_eq] at hw
  cases s with
  | nil => exact absurd rfl hs
  | cons c rest =>
    have hl : (c :: rest).getLastD (t.key) = (c :: rest).getLastD 0 := by
      rw [List.getLastD_cons, List.getLastD_cons]
    have hspec := removeGo_spec (c :: rest) t _ hw.2 hok hl h0
    have hun : removeT t (c :: rest)
        = (removeGo ((c :: rest).getLastD 0) t (c :: rest)).getD t := rfl
    rw [hun]
    cases hrem : removeGo ((c :: rest).getLastD 0) t (c :: rest) with
    | none =>
      have hnot := hspec.2 hrem
      refine ⟨by rw [Option.getD_none, wfT, Bool.and_eq_true, beq_iff_eq]; exact hw, ?_⟩
      rw [Option.getD_none, if_neg hnot]
      simp
    | some u =>
      obtain ⟨hwfu, hperm⟩ := hspec.1 u hrem
      have hmem : (c :: rest) ∈ strs t :=
        hperm.mem_iff.mpr (List.mem_append.mpr (Or.inr (List.mem_singleton.mpr rfl)))
      refine ⟨?_, ?_⟩
      · rw [Option.getD_some, wfT, Bool.and_eq_true, beq_iff_eq]
        have hku : u.key = t.key := removeGo_key _ _ _ _ hrem
        exact ⟨hku ▸ hw.1, hwfu⟩
      · rw [Option.getD_some, if_pos hmem]
        exact hperm

/-! ### Claim C6: Size equals inserted-minus-removed (corrected) -/

/-- Claim C6 counterexample: two plain insertions of distinct non-empty
strings ("ab" then "abb", modelled `[1,2]` and `[1,2,2]`) with no
removals leave `Size() = Count("") = 1`, not `2`: the second insertion
extends the first string through its completion marker and its sentinel
is buried inside the first one, invisible to the counting traversal. -/
theorem size_ne_inserted_minus_removed :
    ([1,2] : List Nat) ≠ [1,2,2] ∧
      sizeT (insertT (insertT emptyTrie [1,2]) [1,2,2]) = 1 ∧
      countT (insertT (insertT emptyTrie [1,2]) [1,2,2]) [] = 1 := by
  refine ⟨by decide, by decide, by decide⟩

theorem execOps_wf_strs : ∀ (ops : List Op) (t : TrieNode),
    wfT t = true → ([] : List Nat) ∉ strs t → okSeq t ops = true →
    wfT (execOps t ops) = true ∧
      ([] : List Nat) ∉ strs (execOps t ops) ∧
      (strs (execOps t ops)).toFinset = execSet (strs t).toFinset ops := by
  intro ops
  induction ops with
  | nil =>
    intro t hw hnil _
    exact ⟨hw, hnil, rfl⟩
  | cons o r ih =>
    intro t hw hnil hok
    simp only [okSeq, Bool.and_eq_true] at hok
    obtain ⟨hok1, hokr⟩ := hok
    cases o with
    | ins s =>
      simp only [opOk, Bool.or_eq_true, List.isEmpty_iff, Bool.and_eq_true,
        Bool.not_eq_true'] at hok1
      rcases hok1 with hse | ⟨hc0, hins⟩
      · subst hse
        have : applyOp t (.ins []) = t := rfl
        rw [execOps, this]
        have := ih t hw hnil hokr
        simpa [execSet] using this
      · have h0 : 0 ∉ s := by simpa using hc0
        by_cases hs : s = []
        · subst hs
          have happ : applyOp t (.ins []) = t := rfl
          rw [execOps, happ]
          have := ih t hw hnil hokr
          simpa [execSet] using this
        obtain ⟨hw', hperm⟩ := insertT_wf_strs t s hw hins h0 hs
        have hnil' : ([] : List Nat) ∉ strs (insertT t s) := by
          intro hmem
          have := hperm.mem_iff.mp hmem
          by_cases hmem2 : s ∈ strs t
          · rw [if_pos hmem2] at this; exact hnil this
          · rw [if_neg hmem2] at this
            rcases List.mem_append.mp this with h | h
            · exact hnil h
            · exact hs (List.mem_singleton.mp h).symm
        have hfin : (strs (insertT t s)).toFinset = insert s (strs t).toFinset := by
          by_cases hmem2 : s ∈ strs t
          · rw [if_pos hmem2] at hperm
            rw [List.toFinset_eq_of_perm _ _ hperm]
            rw [Finset.insert_eq_self.mpr (List.mem_toFinset.mpr hmem2)]
          · rw [if_neg hmem2] at hperm
            rw [List.toFinset_eq_of_perm _ _ hperm]
            simp [List.toFinset_append, Finset.insert_eq, Finset.union_comm]
        have := ih (insertT t s) hw' hnil' hokr
        rw [execOps, applyOp]
        refine ⟨this.1, this.2.1, ?_⟩
        rw [this.2.2, hfin]
        simp [execSet, hs]
    | del s =>
      simp only [opOk, Bool.or_eq_true, List.isEmpty_iff, Bool.and_eq_true,
        Bool.not_eq_true'] at hok1
      rcases hok1 with hse | ⟨hc0, hrem⟩
      · subst hse
        have happ : applyOp t (.del []) = t := rfl
        rw [execOps, happ]
        have := ih t hw hnil hokr
        refine ⟨this.1, this.2.1, ?_⟩
        rw [this.2.2]
        have : (strs t).toFinset.erase [] = (strs t).toFinset := by
          apply Finset.erase_eq_self.mpr
          simp [hnil]
        simp [execSet, this]
      · have h0 : 0 ∉ s := by simpa using hc0
        by_cases hs : s = []
        · subst hs
          have happ : applyOp t (.del []) = t := rfl
          rw [execOps, happ]
          have := ih t hw hnil hokr
          refine ⟨this.1, this.2.1, ?_⟩
          rw [this.2.2]
          have herase : (strs t).toFinset.erase [] = (strs t).toFinset := by
            apply Finset.erase_eq_self.mpr
            simp [hnil]
          simp [execSet, herase]
        · obtain ⟨hw', hperm⟩ := removeT_wf_strs t s hw hrem h0 hs
          have hnd : (strs t).Nodup := by
            rw [wfT, Bool.and_eq_true] at hw
            exact strs_nodup t hw.2
          have hnotmem : s ∉ strs (removeT t s) := by
            intro hmem
            by_cases hmem2 : s ∈ strs t
            · rw [if_pos hmem2] at hperm
              have hnd2 : (strs (removeT t s) ++ [s]).Nodup := hperm.nodup_iff.mp hnd
              rw [List.nodup_append] at hnd2
              exact hnd2.2.2 hmem (by simp)
            · rw [if_neg hmem2] at hperm
              exact hmem2 (hperm.mem_iff.mpr (by simp [hmem]))
          have hnil' : ([] : List Nat) ∉ strs (removeT t s) := by
            intro hmem
            exact hnil (hperm.mem_iff.mpr (by simp [hmem]))
          have hfin : (strs (removeT t s)).toFinset = (strs t).toFinset.erase s := by
            by_cases hmem2 : s ∈ strs t
            · rw [if_pos hmem2] at hperm
              ext w
              have hiff : w ∈ strs t ↔ w ∈ strs (removeT t s) ∨ w = s := by
                rw [hperm.mem_iff]
                simp
              simp only [List.mem_toFinset, Finset.mem_erase]
              constructor
              · intro hwm
                exact ⟨fun he => hnotmem (he ▸ hwm), hiff.mpr (Or.inl hwm)⟩
              · rintro ⟨hne, hwm⟩
                rcases hiff.mp hwm with h | h
                · exact h
                · exact absurd h hne
            · rw [if_neg hmem2, List.append_nil] at hperm
              rw [Finset.erase_eq_self.mpr (by simp [hmem2])]
              exact (List.toFinset_eq_of_perm _ _ hperm).symm
          have := ih (removeT t s) hw' hnil' hokr
          rw [execOps, applyOp]
          refine ⟨this.1, this.2.1, ?_⟩
          rw [this.2.2, hfin]
          simp [execSet]

/-- Claim C6 (amended): `Count("") = Size()` always holds; and for every
*clean* operation sequence (no operated string runs through another
stored string's completion marker or displaces a real child at its end
node — excluding in particular the counterexample pattern where one
inserted string extends another by repeating its last symbol), `Size()`
equals the number of distinct non-empty strings currently stored by the
reference set semantics: inserted strings minus subsequently removed
ones. -/
theorem count_size_inserted_minus_removed (ops : List Op)
    (hok : okSeq emptyTrie ops = true) :
    countT (execOps emptyTrie ops) [] = sizeT (execOps emptyTrie ops) ∧
      sizeT (execOps emptyTrie ops) = (execSet ∅ ops).card := by
  have hbase := execOps_wf_strs ops emptyTrie (by decide) (by decide) hok
  constructor
  · rfl
  · rw [sizeT_eq_length]
    have hnd : (strs (execOps emptyTrie ops)).Nodup := by
      have hw := hbase.1
      rw [wfT, Bool.and_eq_true] at hw
      exact strs_nodup _ hw.2
    rw [← List.toFinset_card_of_nodup hnd, hbase.2.2]
    rfl

/-- Witness for `count_size_inserted_minus_removed` on a small clean
sequence. -/
theorem count_size_inserted_minus_removed_witness :
    countT (execOps emptyTrie [.ins [1,2], .ins [1,3], .del [1,2]]) []
        = sizeT (execOps emptyTrie [.ins [1,2], .ins [1,3], .del [1,2]]) ∧
      sizeT (execOps emptyTrie [.ins [1,2], .ins [1,3], .del [1,2]])
        = (execSet ∅ [.ins [1,2], .ins [1,3], .del [1,2]]).card :=
  count_size_inserted_minus_removed [.ins [1,2], .ins [1,3], .del [1,2]]
    (by decide)

/-! ### Claim C9: where the completion marker actually lives -/

theorem findNode_nil (n : TrieNode) : findNode n [] = some n := by
  cases n with
  | mk k ch => rfl

theorem findNode_cons (k c : Nat) (ch : List (Nat × TrieNode)) (rest : List Nat) :
    findNode (.mk k ch) (c :: rest)
      = match lookupA ch c with
        | some child => findNode child rest
        | none => none := rfl

/-- In a well-formed trie, every stored string ends at a node whose own
key is the string's last symbol, carrying the sentinel under that same
key, and carrying no other null-key child. -/
theorem mem_strs_sentinel (s : List Nat) : ∀ n, wfN n = true → s ∈ strs n →
    ∃ E, findNode n s = some E ∧
      lookupA E.children E.key = some sentinel ∧
      (s ≠ [] → E.key = s.getLastD 0) ∧
      ∀ p ∈ E.children, p.2.key = 0 → p = (E.key, sentinel) := by
  induction s with
  | nil =>
    intro n hwf hmem
    refine ⟨n, findNode_nil n, ?_, fun h => absurd rfl h, ?_⟩
    · cases n with
      | mk k ch =>
        rw [wfN_mk, Bool.and_eq_true] at hwf
        obtain ⟨p, hp, hp0⟩ := mem_strsCh_nil ch hmem
        rcases wfCh_mem k ch p.1 p.2 hwf.2 hp with ⟨_, hch, hpk⟩ | ⟨hne, _, _⟩
        · have hps : p.2 = sentinel := by
            rw [← mk_key_children p.2, hp0, hch]; rfl
          have hmem2 : (k, sentinel) ∈ ch := by
            have : p = (k, sentinel) := by
              cases p
              simp only at hpk hps
              rw [hpk, hps]
            exact this ▸ hp
          exact lookupA_eq_of_mem_nodup ch k sentinel hwf.1 hmem2
        · exact absurd hp0 hne
    · cases n with
      | mk k ch =>
        rw [wfN_mk, Bool.and_eq_true] at hwf
        intro p hp hp0
        rcases wfCh_mem k ch p.1 p.2 hwf.2 hp with ⟨_, hch, hpk⟩ | ⟨hne, _, _⟩
        · have hps : p.2 = sentinel := by
            rw [← mk_key_children p.2, hp0, hch]; rfl
          cases p
          simp only at hpk hps ⊢
          rw [hpk, hps, key_mk]
        · exact absurd hp0 hne
  | cons c rest ih =>
    intro n hwf hmem
    cases n with
    | mk k ch =>
      rw [wfN_mk, Bool.and_eq_true] at hwf
      obtain ⟨q, hq, hqkey, hc0, _⟩ := mem_strsCh_cons ch c rest hmem
      obtain ⟨child, hfind, hckey, hcmem⟩ :=
        mem_strsCh_lookup k c ch rest hwf.2 hwf.1 hc0 hmem
      have hcwf : wfN child = true := by
        obtain ⟨l1, l2, hsplit, _⟩ := lookupA_split ch c child hfind
        have hm : (c, child) ∈ ch := by rw [hsplit]; simp
        rcases wfCh_mem k ch c child hwf.2 hm with ⟨h1, _, _⟩ | ⟨_, _, h3⟩
        · exact absurd (hckey ▸ h1) hc0
        · exact h3
      obtain ⟨E, hE, hEs, hEk, hEu⟩ := ih child hcwf hcmem
      refine ⟨E, ?_, hEs, ?_, hEu⟩
      · rw [findNode_cons, hfind]
        exact hE
      · intro _
        rw [List.getLastD_cons]
        cases hr : rest with
        | nil =>
          subst hr
          rw [findNode_nil] at hE
          cases hE
          rw [hckey]
          rfl
        | cons r1 r2 =>
          rw [← hr]
          rw [hEk (by rw [hr]; simp)]
          exact getLastD_irrel rest (by rw [hr]; simp) 0 c

/-- Claim C9 counterexample: after inserting `[1,2]` into an empty trie
the completion marker at the end of the path is registered under map key
`2` (the last symbol of the string, an ordinary alphabet symbol), and no
child at all is registered under the reserved null symbol `0`; only the
marker *node's own* key is the null symbol. -/
theorem sentinel_not_under_reserved_key :
    findNode (insertT emptyTrie [1,2]) [1,2]
        = some (TrieNode.mk 2 [(2, TrieNode.mk 0 [])]) ∧
      lookupA [(2, TrieNode.mk 0 [])] 0 = none ∧
      lookupA [(2, TrieNode.mk 0 [])] 2 = some sentinel := by
  refine ⟨rfl, rfl, rfl⟩

/-- Claim C9 (amended): in every trie reachable by a clean operation
sequence, string completion is encoded by a sentinel child whose *own*
key is the reserved null symbol and whose children are empty, but which
is registered in the end node's children map under the string's *last
symbol* (equal to the end node's own key), not under the null symbol;
each stored string has exactly one such sentinel child at the end of its
symbol path. -/
theorem sentinel_encoding_amended (ops : List Op)
    (hok : okSeq emptyTrie ops = true) (s : List Nat)
    (hs : s ∈ strs (execOps emptyTrie ops)) :
    ∃ E, findNode (execOps emptyTrie ops) s = some E ∧
      E.key = s.getLastD 0 ∧
      lookupA E.children (s.getLastD 0) = some sentinel ∧
      ∀ p ∈ E.children, p.2.key = 0 → p = (s.getLastD 0, sentinel) := by
  have hbase := execOps_wf_strs ops emptyTrie (by decide) (by decide) hok
  have hwf := hbase.1
  rw [wfT, Bool.and_eq_true] at hwf
  have hsne : s ≠ [] := fun he => hbase.2.1 (he ▸ hs)
  obtain ⟨E, h1, h2, h3, h4⟩ := mem_strs_sentinel s _ hwf.2 hs
  have hkey := h3 hsne
  exact ⟨E, h1, hkey, hkey ▸ h2, hkey ▸ h4⟩

/-- Witness for `sentinel_encoding_amended`. -/
theorem sentinel_encoding_amended_witness :
    ∃ E, findNode (execOps emptyTrie [.ins [1,2]]) [1,2] = some E ∧
      E.key = ([1,2] : List Nat).getLastD 0 ∧
      lookupA E.children (([1,2] : List Nat).getLastD 0) = some sentinel ∧
      ∀ p ∈ E.children, p.2.key = 0 → p = (([1,2] : List Nat).getLastD 0, sentinel) :=
  sentinel_encoding_amended [.ins [1,2]] (by decide) [1,2] (by decide)

/-! ### The iterative Match traversal emits exactly the stored strings

`MatchWithCallback` uses an explicit stack with depth-tagged entries and
a postfix buffer resynchronized on every pop.  We show the loop emits,
for the subtree of each popped node, exactly the completions below it —
in the reversed sibling order induced by `std::stack` (LIFO). -/

theorem chW_append (l1 l2 : List (Nat × TrieNode)) :
    chW (l1 ++ l2) = chW l1 + chW l2 := by
  induction l1 with
  | nil => simp [chW]
  | cons p r ih =>
    obtain ⟨k, c⟩ := p
    simp only [List.cons_append, chW, List.append_eq, ih]
    omega

theorem chW_map_depth (ch : List (Nat × TrieNode)) (f : Nat × TrieNode → Nat) :
    chW (ch.map (fun p => (f p, p.2))) = chW ch := by
  induction ch with
  | nil => rfl
  | cons p r ih =>
    obtain ⟨k, c⟩ := p
    simp only [List.map_cons, chW, ih]

theorem chW_reverse (l : List (Nat × TrieNode)) : chW l.reverse = chW l := by
  induction l with
  | nil => rfl
  | cons p r ih =>
    obtain ⟨k, c⟩ := p
    rw [List.reverse_cons, chW_append, ih]
    simp only [chW]
    omega

theorem nodeW_pos (n : TrieNode) : 0 < nodeW n := by
  cases n with
  | mk k ch => rw [nodeW_mk]; omega

theorem runMatch_nil (pfx : List Nat) (f : Nat) (buf : List Nat)
    (out : List (List Nat)) : runMatch pfx f [] buf out = out := by
  cases f <;> rfl

theorem runMatch_cons (pfx : List Nat) (f d : Nat) (n : TrieNode)
    (rest : List (Nat × TrieNode)) (buf : List Nat) (out : List (List Nat)) :
    runMatch pfx (f + 1) ((d, n) :: rest) buf out
      = (if n.key = 0 then
          runMatch pfx f rest (buf.take (d - pfx.length))
            (out ++ [pfx ++ buf.take (d - pfx.length)])
        else
          runMatch pfx f ((n.children.map (fun p => (d + 1, p.2))).reverse ++ rest)
            (buf.take (d - pfx.length) ++ [n.key]) out) := rfl

theorem runMatch_fuel (pfx : List Nat) : ∀ (f1 f2 : Nat)
    (st : List (Nat × TrieNode)) (buf : List Nat) (out : List (List Nat)),
    chW st ≤ f1 → chW st ≤ f2 →
    runMatch pfx f1 st buf out = runMatch pfx f2 st buf out := by
  intro f1
  induction f1 with
  | zero =>
    intro f2 st buf out h1 _
    cases st with
    | nil => rw [runMatch_nil, runMatch_nil]
    | cons p r =>
      obtain ⟨d, n⟩ := p
      exfalso
      have := nodeW_pos n
      simp only [chW] at h1
      omega
  | succ f1 ih =>
    intro f2 st buf out h1 h2
    cases st with
    | nil => rw [runMatch_nil, runMatch_nil]
    | cons p r =>
      obtain ⟨d, n⟩ := p
      have hn := nodeW_pos n
      simp only [chW] at h1 h2
      cases f2 with
      | zero => omega
      | succ f2 =>
        rw [runMatch_cons, runMatch_cons]
        cases hnode : n with
        | mk k ch =>
          by_cases hk : k = 0
          · simp only [key_mk, hk, if_true]
            refine ih f2 r _ _ ?_ ?_ <;> omega
          · simp only [key_mk, hk, if_false, children_mk]
            have hst : chW ((ch.map (fun p => (d + 1, p.2))).reverse ++ r)
                = chW ch + chW r := by
              rw [chW_append, chW_reverse, chW_map_depth]
            have hwn : nodeW n = chW ch + 1 := by rw [hnode, nodeW_mk]
            refine ih f2 _ _ _ ?_ ?_ <;> rw [hst] <;> omega

/-- The traversal with its canonical fuel (`chW` of the stack). -/
def runMatchN (pfx : List Nat) (st : List (Nat × TrieNode)) (buf : List Nat)
    (out : List (List Nat)) : List (List Nat) :=
  runMatch pfx (chW st) st buf out

theorem runMatchN_nil (pfx : List Nat) (buf : List Nat) (out : List (List Nat)) :
    runMatchN pfx [] buf out = out := rfl

theorem runMatchN_cons (pfx : List Nat) (d : Nat) (n : TrieNode)
    (rest : List (Nat × TrieNode)) (buf : List Nat) (out : List (List Nat)) :
    runMatchN pfx ((d, n) :: rest) buf out
      = (if n.key = 0 then
          runMatchN pfx rest (buf.take (d - pfx.length))
            (out ++ [pfx ++ buf.take (d - pfx.length)])
        else
          runMatchN pfx ((n.children.map (fun p => (d + 1, p.2))).reverse ++ rest)
            (buf.take (d - pfx.length) ++ [n.key]) out) := by
  show runMatch pfx (chW ((d, n) :: rest)) ((d, n) :: rest) buf out = _
  have hch : chW ((d, n) :: rest) = (nodeW n + chW rest) + 1 := by
    simp only [chW]; omega
  rw [hch, runMatch_cons]
  by_cases hk : n.key = 0
  · rw [if_pos hk, if_pos hk]
    exact runMatch_fuel pfx _ _ rest _ _ (by have := nodeW_pos n; omega) le_rfl
  · rw [if_neg hk, if_neg hk]
    refine runMatch_fuel pfx _ _ _ _ _ ?_ le_rfl
    rw [chW_append, chW_reverse, chW_map_depth]
    cases n with
    | mk k ch => rw [nodeW_mk]; simp only [children_mk]; omega

mutual
/-- The completions below a node, enumerated in reversed sibling order —
the order in which the explicit LIFO stack of `MatchWithCallback` visits
them. -/
def strsV : TrieNode → List (List Nat)
  | .mk _ ch => strsVCh ch

/-- `strsV` over a children map (last child first). -/
def strsVCh : List (Nat × TrieNode) → List (List Nat)
  | [] => []
  | (_, c) :: r =>
    strsVCh r ++ (if c.key = 0 then [[]] else (strsV c).map (c.key :: ·))
end

/-- Per-child contribution to `strsV`. -/
def contribV (p : Nat × TrieNode) : List (List Nat) :=
  if p.2.key = 0 then [[]] else (strsV p.2).map (p.2.key :: ·)

theorem strsVCh_cons (mk_ : Nat) (c : TrieNode) (r : List (Nat × TrieNode)) :
    strsVCh ((mk_, c) :: r) = strsVCh r ++ contribV (mk_, c) := by
  simp [strsVCh, contribV]

theorem strsVCh_append (l1 l2 : List (Nat × TrieNode)) :
    strsVCh (l1 ++ l2) = strsVCh l2 ++ strsVCh l1 := by
  induction l1 with
  | nil => simp [strsVCh]
  | cons p r ih =>
    obtain ⟨k, c⟩ := p
    rw [List.cons_append, strsVCh_cons, strsVCh_cons, ih, List.append_assoc]

theorem strsV_perm : ∀ (m : Nat) (n : TrieNode), nodeW n ≤ m →
    (strsV n).Perm (strs n) := by
  intro m
  induction m with
  | zero =>
    intro n h
    exact absurd (nodeW_pos n) (by omega)
  | succ m ih =>
    intro n h
    cases n with
    | mk k ch =>
      show (strsVCh ch).Perm (strsCh ch)
      rw [nodeW_mk] at h
      clear k
      induction ch with
      | nil => exact List.Perm.refl _
      | cons p r ihc =>
        obtain ⟨kk, c⟩ := p
        rw [strsVCh_cons, strsCh_cons]
        simp only [chW] at h
        have hperm1 : (strsVCh r).Perm (strsCh r) := ihc (by omega)
        have hperm2 : (contribV (kk, c)).Perm (contrib (kk, c)) := by
          by_cases h0 : c.key = 0
          · simp [contribV, contrib, h0]
          · simp only [contribV, contrib, h0, if_false]
            exact (ih c (by omega)).map _
        exact (hperm1.append hperm2).trans List.perm_append_comm

/-- What the loop emits for one popped node, given the resynchronized
base path `B`: the node's completion itself for a sentinel, otherwise
every completion below it prefixed with `B` and the node's key. -/
def emitN (n : TrieNode) (B : List Nat) : List (List Nat) :=
  if n.key = 0 then [B] else (strsV n).map (fun v => B ++ n.key :: v)

theorem map_contribV (p : Nat × TrieNode) (B : List Nat) :
    (contribV p).map (B ++ ·) = emitN p.2 B := by
  by_cases h0 : p.2.key = 0
  · simp [contribV, emitN, h0]
  · simp only [contribV, emitN, h0, if_false, List.map_map]
    rfl

theorem runMatchN_emit_block (pfx : List Nat) (m : Nat)
    (IH : ∀ (n' : TrieNode), nodeW n' ≤ m →
      ∀ (j : Nat) (buf : List Nat) (rest : List (Nat × TrieNode))
        (out : List (List Nat)), j ≤ buf.length →
      ∃ ext, runMatchN pfx ((pfx.length + j, n') :: rest) buf out
        = runMatchN pfx rest (buf.take j ++ ext)
            (out ++ emitN n' (pfx ++ buf.take j))) :
    ∀ (ch : List (Nat × TrieNode)), (∀ p ∈ ch, nodeW p.2 ≤ m) →
    ∀ (j : Nat) (buf : List Nat) (rest : List (Nat × TrieNode))
      (out : List (List Nat)), j ≤ buf.length →
    ∃ ext, runMatchN pfx
        ((ch.map (fun p => (pfx.length + j, p.2))).reverse ++ rest) buf out
      = runMatchN pfx rest (buf.take j ++ ext)
          (out ++ (strsVCh ch).map (fun v => (pfx ++ buf.take j) ++ v)) := by
  intro ch
  induction ch using List.reverseRecOn with
  | nil =>
    intro _ j buf rest out hj
    refine ⟨buf.drop j, ?_⟩
    rw [List.take_append_drop]
    simp [strsVCh]
  | append_singleton ch' p ihc =>
    intro hmem j buf rest out hj
    obtain ⟨kl, cl⟩ := p
    have hstack : ((ch' ++ [(kl, cl)]).map
          (fun p => (pfx.length + j, p.2))).reverse ++ rest
        = (pfx.length + j, cl)
          :: ((ch'.map (fun p => (pfx.length + j, p.2))).reverse ++ rest) := by
      rw [List.map_append, List.reverse_append]
      rfl
    rw [hstack]
    have hcl : nodeW cl ≤ m := hmem (kl, cl) (by simp)
    obtain ⟨ext1, heq1⟩ := IH cl hcl j buf
      ((ch'.map (fun p => (pfx.length + j, p.2))).reverse ++ rest) out hj
    rw [heq1]
    have hlen1 : (buf.take j).length = j := by
      rw [List.length_take]
      omega
    have hj2 : j ≤ (buf.take j ++ ext1).length := by
      rw [List.length_append, hlen1]
      omega
    obtain ⟨ext2, heq2⟩ := ihc (fun q hq => hmem q (by simp [hq])) j
      (buf.take j ++ ext1) rest (out ++ emitN cl (pfx ++ buf.take j)) hj2
    rw [heq2]
    have htake : (buf.take j ++ ext1).take j = buf.take j :=
      List.take_left' hlen1
    rw [htake]
    refine ⟨ext2, ?_⟩
    congr 1
    rw [strsVCh_append, List.map_append, List.append_assoc]
    congr 1
    rw [strsVCh_cons]
    show emitN cl (pfx ++ buf.take j) ++ _
      = (strsVCh [] ++ contribV (kl, cl)).map (fun v => (pfx ++ buf.take j) ++ v) ++ _
    rw [show strsVCh [] = [] from rfl, List.nil_append,
      map_contribV (kl, cl) (pfx ++ buf.take j)]

theorem runMatchN_emit_aux (pfx : List Nat) : ∀ (m : Nat) (n : TrieNode),
    nodeW n ≤ m →
    ∀ (j : Nat) (buf : List Nat) (rest : List (Nat × TrieNode))
      (out : List (List Nat)), j ≤ buf.length →
    ∃ ext, runMatchN pfx ((pfx.length + j, n) :: rest) buf out
      = runMatchN pfx rest (buf.take j ++ ext)
          (out ++ emitN n (pfx ++ buf.take j)) := by
  intro m
  induction m with
  | zero =>
    intro n h
    exact absurd (nodeW_pos n) (by omega)
  | succ m ih =>
    intro n h j buf rest out hj
    rw [runMatchN_cons]
    rw [Nat.add_sub_cancel_left]
    cases n with
    | mk k ch =>
      rw [nodeW_mk] at h
      by_cases hk : k = 0
      · simp only [key_mk, hk, if_true]
        refine ⟨[], ?_⟩
        rw [List.append_nil]
        simp [emitN, key_mk, hk]
      · simp only [key_mk, hk, if_false, children_mk]
        have hlen1 : (buf.take j).length = j := by
          rw [List.length_take]; omega
        have hmem : ∀ p ∈ ch, nodeW p.2 ≤ m := by
          intro p hp
          have := chW_le_of_mem p ch hp
          omega
        have hj2 : j + 1 ≤ (buf.take j ++ [k]).length := by
          rw [List.length_append, hlen1]
          simp
        have hshape : ∀ q : Nat × TrieNode,
            (pfx.length + j + 1, q.2) = (pfx.length + (j + 1), q.2) := by
          intro q
          rw [Nat.add_assoc]
        have hmapsame : (ch.map (fun p => (pfx.length + j + 1, p.2)))
            = ch.map (fun p => (pfx.length + (j + 1), p.2)) := by
          refine List.map_congr_left ?_
          intro a _
          exact hshape a
        rw [hmapsame]
        obtain ⟨ext, heq⟩ := runMatchN_emit_block pfx m ih ch hmem (j + 1)
          (buf.take j ++ [k]) rest out hj2
        rw [heq]
        have htake : (buf.take j ++ [k]).take (j + 1) = buf.take j ++ [k] := by
          refine List.take_of_length_le ?_
          rw [List.length_append, hlen1]
          simp
        rw [htake]
        refine ⟨[k] ++ ext, ?_⟩
        have harg1 : (buf.take j ++ [k]) ++ ext = buf.take j ++ ([k] ++ ext) :=
          List.append_assoc _ _ _
        have harg2 : (strsVCh ch).map (fun v => (pfx ++ (buf.take j ++ [k])) ++ v)
            = emitN (TrieNode.mk k ch) (pfx ++ buf.take j) := by
          simp only [emitN, key_mk, hk, if_false]
          show _ = (strsVCh ch).map (fun v => (pfx ++ buf.take j) ++ k :: v)
          refine List.map_congr_left ?_
          intro v _
          simp [List.append_assoc]
        rw [harg1, harg2]

/-- The depth-resynchronizing loop, started on the children of `e`
pushed at the prefix depth with an empty buffer, emits exactly the
completions below `e` (in stack order), each prefixed with the
reconstructed base string. -/
theorem matchT_eq_of_nav (t : TrieNode) (s : List Nat) (e : TrieNode)
    (base : List Nat) (hnav : navGo t s = some (e, base))
    (hlen : base.length = s.length) :
    matchT t s = (strsV e).map (base ++ ·) := by
  have hm : matchT t s = runMatchN base
      ((e.children.map (fun p => (s.length, p.2))).reverse) [] [] := by
    unfold matchT
    rw [hnav]
    rfl
  rw [hm]
  have hdep : (e.children.map (fun p => (s.length, p.2)))
      = e.children.map (fun p => (base.length + 0, p.2)) := by
    refine List.map_congr_left ?_
    intro a _
    simp [hlen]
  rw [hdep]
  have hblock := runMatchN_emit_block base (chW e.children)
    (fun n' h => runMatchN_emit_aux base (chW e.children) n' h)
    e.children
    (fun p hp => by have := chW_le_of_mem p e.children hp; omega)
    0 [] [] []
    (by simp)
  obtain ⟨ext, heq⟩ := hblock
  rw [List.append_nil] at heq
  rw [heq, runMatchN_nil, List.nil_append]
  cases e with
  | mk k ch =>
    show (strsVCh ch).map _ = (strsVCh ch).map _
    refine List.map_congr_left ?_
    intro v _
    simp

theorem matchT_eq_nil_of_nav_none (t : TrieNode) (s : List Nat)
    (hnav : navGo t s = none) : matchT t s = [] := by
  unfold matchT
  rw [hnav]

/-! ### Navigation analysis -/

theorem containsT_eq_isSome (q : List Nat) : ∀ n : TrieNode,
    containsT n q = (findNode n q).isSome := by
  induction q with
  | nil =>
    intro n
    rw [containsT_nil, findNode_nil]
    rfl
  | cons c rest ih =>
    intro n
    cases n with
    | mk k ch =>
      rw [containsT_cons, findNode_cons]
      cases lookupA ch c with
      | some child => exact ih child
      | none => rfl

theorem findNode_append (a b : List Nat) : ∀ n : TrieNode,
    findNode n (a ++ b) = (findNode n a).bind (fun m => findNode m b) := by
  induction a with
  | nil =>
    intro n
    rw [List.nil_append, findNode_nil]
    rfl
  | cons c rest ih =>
    intro n
    cases n with
    | mk k ch =>
      rw [List.cons_append, findNode_cons, findNode_cons]
      cases lookupA ch c with
      | some child => exact ih child
      | none => rfl

theorem navGo_cons (k c : Nat) (ch : List (Nat × TrieNode)) (rest : List Nat) :
    navGo (.mk k ch) (c :: rest)
      = match lookupA ch c with
        | some child =>
          match navGo child rest with
          | some (e, keys) => some (e, child.key :: keys)
          | none => none
        | none => none := rfl

theorem navGo_nil (n : TrieNode) : navGo n [] = some (n, []) := by
  cases n with
  | mk k ch => rfl

theorem wfN_of_key_nil (k : Nat) : wfN (.mk k []) = true := rfl

/-- Navigation facts: `navGo` agrees with `findNode`; the reconstructed
base has the prefix's length; the end node is well-formed; and the base
equals the prefix itself unless the very last step walked into a
sentinel node (which then has no children). -/
theorem navGo_spec (p : List Nat) : ∀ n, wfN n = true →
    (match navGo n p with
     | some (e, base) => findNode n p = some e ∧ base.length = p.length ∧
         wfN e = true ∧ (base = p ∨ (e.key = 0 ∧ p ≠ [] ∧ e.children = []))
     | none => findNode n p = none) := by
  induction p with
  | nil =>
    intro n hwf
    rw [navGo_nil]
    exact ⟨findNode_nil n, rfl, hwf, Or.inl rfl⟩
  | cons c rest ih =>
    intro n hwf
    cases n with
    | mk k ch =>
      rw [navGo_cons, findNode_cons]
      cases hfind : lookupA ch c with
      | none => rfl
      | some child =>
        dsimp only
        rw [wfN_mk, Bool.and_eq_true] at hwf
        obtain ⟨l1, l2, hsplit, _⟩ := lookupA_split ch c child hfind
        have hmem : (c, child) ∈ ch := by rw [hsplit]; simp
        have hchild : (child.key = 0 ∧ child.children = []) ∨
            (child.key = c ∧ wfN child = true) := by
          rcases wfCh_mem k ch c child hwf.2 hmem with ⟨h1, h2, _⟩ | ⟨_, h2, h3⟩
          · exact Or.inl ⟨h1, h2⟩
          · exact Or.inr ⟨h2, h3⟩
        have hcwf : wfN child = true := by
          rcases hchild with ⟨h1, h2⟩ | ⟨_, h2⟩
          · rw [← mk_key_children child, h1, h2]
            exact wfN_of_key_nil 0
          · exact h2
        have IH := ih child hcwf
        cases hnav : navGo child rest with
        | none =>
          rw [hnav] at IH
          dsimp only
          exact IH
        | some pr =>
          obtain ⟨e, keys⟩ := pr
          rw [hnav] at IH
          dsimp only
          obtain ⟨IH1, IH2, IH3, IH4⟩ := IH
          refine ⟨IH1, by simp [IH2], IH3, ?_⟩
          rcases hchild with ⟨hk0, hch0⟩ | ⟨hkc, _⟩
          · -- stepped into a sentinel: the walk below it can only be empty
            cases rest with
            | nil =>
              rw [navGo_nil] at hnav
              cases hnav
              exact Or.inr ⟨hk0, by simp, hch0⟩
            | cons r1 r2 =>
              exfalso
              rw [← mk_key_children child, hk0, hch0] at hnav
              rw [navGo_cons] at hnav
              simp [lookupA] at hnav
          · rcases IH4 with hbase | ⟨he0, hrne, hech⟩
            · exact Or.inl (by rw [hbase, hkc])
            · exact Or.inr ⟨he0, by simp, hech⟩

/-! ### Decomposing the stored set along a prefix path -/

/-- The stored strings extending a prefix `p` are exactly `p ++ ·` of
the completions below the node that `p` navigates to. -/
theorem findNode_strs (p : List Nat) : ∀ n, wfN n = true →
    (match findNode n p with
     | some E => wfN E = true ∧ ∀ w, ((p ++ w) ∈ strs n ↔ w ∈ strs E)
     | none => ∀ w, (p ++ w) ∉ strs n) := by
  induction p with
  | nil =>
    intro n hwf
    rw [findNode_nil]
    exact ⟨hwf, fun w => by rw [List.nil_append]⟩
  | cons c rest ih =>
    intro n hwf
    cases n with
    | mk k ch =>
      rw [findNode_cons]
      rw [wfN_mk, Bool.and_eq_true] at hwf
      cases hfind : lookupA ch c with
      | none =>
        dsimp only
        intro w hmem
        rw [List.cons_append] at hmem
        obtain ⟨q, hq, hkey, hc0, hw⟩ := mem_strsCh_cons ch c _ hmem
        exact not_mem_strsCh_of_keyNotIn k c ch (rest ++ w) hwf.2
          ((lookupA_none_iff _ _).mp hfind) hc0 hmem
      | some child =>
        dsimp only
        obtain ⟨l1, l2, hsplit, hn1⟩ := lookupA_split ch c child hfind
        have hmem : (c, child) ∈ ch := by rw [hsplit]; simp
        have hchild : (child.key = 0 ∧ child.children = []) ∨
            (child.key = c ∧ c ≠ 0 ∧ wfN child = true) := by
          rcases wfCh_mem k ch c child hwf.2 hmem with ⟨h1, h2, _⟩ | ⟨h1, h2, h3⟩
          · exact Or.inl ⟨h1, h2⟩
          · exact Or.inr ⟨h2, h2 ▸ h1, h3⟩
        have hcwf : wfN child = true := by
          rcases hchild with ⟨h1, h2⟩ | ⟨_, _, h2⟩
          · rw [← mk_key_children child, h1, h2]
            exact wfN_of_key_nil 0
          · exact h2
        have hkey : ∀ x, (c :: x) ∈ strsCh ch ↔ x ∈ strs child := by
          intro x
          constructor
          · intro hx
            obtain ⟨q, hq, hqk, hc0, hqw⟩ := mem_strsCh_cons ch c x hx
            obtain ⟨child2, hl2, _, hw2⟩ :=
              mem_strsCh_lookup k c ch x hwf.2 hwf.1 hc0 hx
            rw [hfind] at hl2
            cases hl2
            exact hw2
          · intro hx
            rcases hchild with ⟨h1, h2⟩ | ⟨h1, hc0, _⟩
            · exfalso
              have : strs child = [] := by
                rw [← mk_key_children child, h1, h2]
                rfl
              rw [this] at hx
              cases hx
            · rw [hsplit, strsCh_append, strsCh_cons]
              refine List.mem_append.mpr (Or.inr (List.mem_append.mpr (Or.inl ?_)))
              simp only [contrib, h1, hc0, if_false]
              exact List.mem_map_of_mem _ hx
        have IH := ih child hcwf
        cases hfnd2 : findNode child rest with
        | none =>
          rw [hfnd2] at IH
          intro w hw
          rw [List.cons_append] at hw
          exact IH w ((hkey (rest ++ w)).mp hw)
        | some E =>
          rw [hfnd2] at IH
          refine ⟨IH.1, ?_⟩
          intro w
          rw [List.cons_append]
          exact (hkey (rest ++ w)).trans (IH.2 w)

/-- Stored strings never contain the null symbol: their characters are
node keys, and null-key nodes are completion markers. -/
theorem strs_no_zero : ∀ (m : Nat) (n : TrieNode), nodeW n ≤ m →
    ∀ w ∈ strs n, 0 ∉ w := by
  intro m
  induction m with
  | zero =>
    intro n h
    exact absurd (nodeW_pos n) (by omega)
  | succ m ih =>
    intro n h w hw
    cases n with
    | mk k ch =>
      rw [nodeW_mk] at h
      rw [strs_mk, strsCh_eq_flatMap] at hw
      obtain ⟨q, hq, hmem⟩ := List.mem_flatMap.mp hw
      by_cases h0 : q.2.key = 0
      · simp only [contrib, h0, if_true, List.mem_singleton] at hmem
        subst hmem
        simp
      · simp only [contrib, h0, if_false, List.mem_map] at hmem
        obtain ⟨v, hv, hveq⟩ := hmem
        subst hveq
        have hlt := chW_le_of_mem q ch hq
        have hihv := ih q.2 (by omega) v hv
        intro hmem0
        rcases List.mem_cons.mp hmem0 with he | hi
        · exact h0 he.symm
        · exact hihv hi

/-! ### Claim C5: Match produces exactly the prefixed stored strings -/

/-- On a well-formed trie, `Matches(p)` produces exactly (up to the
unspecified `unordered_map` iteration order) the stored complete strings
whose symbol path starts with `p`. -/
theorem match_exact_of_wf (t : TrieNode) (hw : wfT t = true) (p : List Nat) :
    (matchT t p).Perm ((strs t).filter (fun w => p.isPrefixOf w)) := by
  rw [wfT, Bool.and_eq_true] at hw
  have hnav := navGo_spec p t hw.2
  have hsf := findNode_strs p t hw.2
  cases hn : navGo t p with
  | none =>
    rw [hn] at hnav
    rw [hnav] at hsf
    rw [matchT_eq_nil_of_nav_none t p hn]
    have hfil : (strs t).filter (fun w => p.isPrefixOf w) = [] := by
      refine List.filter_eq_nil_iff.mpr ?_
      intro x hx hpref
      obtain ⟨w, rfl⟩ := List.isPrefixOf_iff_prefix.mp hpref
      exact hsf w hx
    rw [hfil]
  | some pr =>
    obtain ⟨e, base⟩ := pr
    rw [hn] at hnav
    obtain ⟨hfn, hlen, hwfe, hor⟩ := hnav
    rw [hfn] at hsf
    obtain ⟨hwfE, hiff⟩ := hsf
    rcases hor with hbase | ⟨he0, hpne, hech⟩
    · rw [matchT_eq_of_nav t p e base hn hlen, hbase]
      have h1 : ((strsV e).map (p ++ ·)).Perm ((strs e).map (p ++ ·)) :=
        (strsV_perm (nodeW e) e le_rfl).map _
      refine h1.trans ?_
      refine (List.perm_ext_iff_of_nodup ?_ ?_).mpr ?_
      · exact List.Nodup.map (fun a b hab => List.append_cancel_left hab)
          (strs_nodup e hwfE)
      · exact (strs_nodup t hw.2).filter _
      · intro x
        simp only [List.mem_map, List.mem_filter, decide_eq_true_eq]
        constructor
        · rintro ⟨w, hwmem, rfl⟩
          refine ⟨(hiff w).mpr hwmem, ?_⟩
          exact List.isPrefixOf_iff_prefix.mpr ⟨w, rfl⟩
        · rintro ⟨hxmem, hxpref⟩
          obtain ⟨w, rfl⟩ := List.isPrefixOf_iff_prefix.mp hxpref
          exact ⟨w, (hiff w).mp hxmem, rfl⟩
    · have hstre : strs e = [] := by
        rw [← mk_key_children e, hech]
        rfl
      have hstrVe : strsV e = [] := by
        rw [← mk_key_children e, hech]
        rfl
      rw [matchT_eq_of_nav t p e base hn hlen, hstrVe, List.map_nil]
      have hfil : (strs t).filter (fun w => p.isPrefixOf w) = [] := by
        refine List.filter_eq_nil_iff.mpr ?_
        intro x hx hpref
        obtain ⟨w, rfl⟩ := List.isPrefixOf_iff_prefix.mp hpref
        have := (hiff w).mp hx
        rw [hstre] at this
        cases this
      rw [hfil]

/-- Claim C5 counterexample: after the two plain insertions "ab" then
"abb" (`[1,2]`, `[1,2,2]`), the only stored string is `[1,2]`, yet
`Match([1,2,2])` emits the string `[1,2,0]` — reconstructed through the
completion marker, containing the null symbol, neither stored nor
starting with the requested prefix. -/
theorem match_emits_foreign_string :
    matchT (insertT (insertT emptyTrie [1,2]) [1,2,2]) [1,2,2] = [[1,2,0]] ∧
      strs (insertT (insertT emptyTrie [1,2]) [1,2,2]) = [[1,2]] ∧
      ¬ ([1,2,2] : List Nat) <+: [1,2,0] ∧
      [1,2,0] ∉ strs (insertT (insertT emptyTrie [1,2]) [1,2,2]) := by
  refine ⟨by decide, by decide, by decide, by decide⟩

/-- Claim C5 (amended): on every trie reached by a *clean* operation
sequence (none of whose operated strings runs through a completion
marker or displaces a real child at its end node), `Match(p)` produces
exactly the stored complete strings whose symbol path starts with `p` —
each being the full stored string — up to the unspecified iteration
order of the children maps; the empty prefix yields every stored string
and a missing prefix path yields nothing. -/
theorem match_exact (ops : List Op) (hok : okSeq emptyTrie ops = true)
    (p : List Nat) :
    (matchT (execOps emptyTrie ops) p).Perm
      ((strs (execOps emptyTrie ops)).filter (fun w => p.isPrefixOf w)) := by
  have hbase := execOps_wf_strs ops emptyTrie (by decide) (by decide) hok
  exact match_exact_of_wf _ hbase.1 p

/-- Witness for `match_exact`. -/
theorem match_exact_witness :
    (matchT (execOps emptyTrie [.ins [1,2], .ins [1,3]]) [1]).Perm
      ((strs (execOps emptyTrie [.ins [1,2], .ins [1,3]])).filter
        (fun w => ([1] : List Nat).isPrefixOf w)) :=
  match_exact [.ins [1,2], .ins [1,3]] (by decide) [1]

/-! ### Deriving clean-operation preconditions semantically -/

theorem remOk_unfold_nil (k la : Nat) (ch : List (Nat × TrieNode)) :
    remOk (.mk k ch) [] la
      = match lookupA ch la with
        | some c => c.key == 0
        | none => true := rfl

theorem remOk_unfold_cons (k c la : Nat) (ch : List (Nat × TrieNode))
    (rest : List Nat) :
    remOk (.mk k ch) (c :: rest) la
      = match lookupA ch c with
        | some child => remOk child rest la
        | none => true := rfl

/-- Removing a string that is actually stored is always clean: the walk
finds the sentinel at the end. -/
theorem remOk_of_mem (s : List Nat) : ∀ n la, wfN n = true → s ∈ strs n →
    s.getLastD n.key = la → remOk n s la = true := by
  induction s with
  | nil =>
    intro n la hwf hmem hl
    cases n with
    | mk k ch =>
      simp only [key_mk, List.getLastD_nil] at hl
      subst hl
      rw [wfN_mk, Bool.and_eq_true] at hwf
      obtain ⟨p, hp, hp0⟩ := mem_strsCh_nil ch hmem
      rcases wfCh_mem k ch p.1 p.2 hwf.2 hp with ⟨_, hch, hpk⟩ | ⟨hne, _, _⟩
      · have hps : p.2 = sentinel := by
          rw [← mk_key_children p.2, hp0, hch]; rfl
        have hmem2 : (k, sentinel) ∈ ch := by
          have : p = (k, sentinel) := by
            cases p
            simp only at hpk hps
            rw [hpk, hps]
          exact this ▸ hp
        have hlook := lookupA_eq_of_mem_nodup ch k sentinel hwf.1 hmem2
        rw [remOk_unfold_nil, hlook]
        rfl
      · exact absurd hp0 hne
  | cons c rest ih =>
    intro n la hwf hmem hl
    cases n with
    | mk k ch =>
      rw [List.getLastD_cons] at hl
      rw [wfN_mk, Bool.and_eq_true] at hwf
      obtain ⟨q, hq, hqk, hc0, _⟩ := mem_strsCh_cons ch c rest hmem
      obtain ⟨child, hfind, hckey, hcmem⟩ :=
        mem_strsCh_lookup k c ch rest hwf.2 hwf.1 hc0 hmem
      have hcwf : wfN child = true := by
        obtain ⟨l1, l2, hsplit, _⟩ := lookupA_split ch c child hfind
        have hm : (c, child) ∈ ch := by rw [hsplit]; simp
        rcases wfCh_mem k ch c child hwf.2 hm with ⟨h1, _, _⟩ | ⟨_, _, h3⟩
        · exact absurd (hckey ▸ h1) hc0
        · exact h3
      rw [remOk_unfold_cons, hfind]
      exact ih child la hcwf hcmem (by rw [hckey]; exact hl)

/-- In a well-formed trie no stored string extends another through its
completion marker: `u ++ [u.last]` is never a prefix of another stored
string. -/
theorem wf_no_marker_extension (u v : List Nat) (n : TrieNode)
    (hw : wfN n = true) (hu : u ∈ strs n) (hv : v ∈ strs n) :
    ¬ (u ++ [u.getLastD 0]) <+: v := by
  intro hpre
  obtain ⟨w, hw2⟩ := hpre
  cases u with
  | nil =>
    have h0 := strs_no_zero (nodeW n) n le_rfl v hv
    rw [← hw2] at h0
    exact h0 (by simp)
  | cons uc urest =>
    obtain ⟨E, hfE, hsent, hkey, _⟩ :=
      mem_strs_sentinel (uc :: urest) n hw hu
    have hEk := hkey (by simp)
    have hsf := findNode_strs (uc :: urest) n hw
    rw [hfE] at hsf
    obtain ⟨hwfE, hiff⟩ := hsf
    have hv' : ((uc :: urest).getLastD 0 :: w) ∈ strs E := by
      refine (hiff _).mp ?_
      rw [show (uc :: urest) ++ (uc :: urest).getLastD 0 :: w
        = ((uc :: urest) ++ [(uc :: urest).getLastD 0]) ++ w by simp]
      rw [hw2]
      exact hv
    have hul0 : (uc :: urest).getLastD 0 ≠ 0 := by
      have h0 := strs_no_zero (nodeW n) n le_rfl (uc :: urest) hu
      have hmm : (uc :: urest).getLastD 0 ∈ uc :: urest :=
        List.mem_of_mem_getLast? rfl
      exact fun he => h0 (he ▸ hmm)
    obtain ⟨kE, chE⟩ := E
    rw [wfN_mk, Bool.and_eq_true] at hwfE
    obtain ⟨child2, hl2, hk2, _⟩ :=
      mem_strsCh_lookup kE ((uc :: urest).getLastD 0) chE w
        hwfE.2 hwfE.1 hul0 hv'
    simp only [key_mk, children_mk] at hEk hsent
    rw [hEk] at hsent
    rw [hl2] at hsent
    cases hsent
    rw [show sentinel.key = 0 from rfl] at hk2
    exact hul0 hk2.symm

/-! ### The pruned invariant: real nodes always hold completions -/

mutual
/-- Every non-sentinel child of any node has at least one completion
below it — true of all tries built by clean operations, because `Remove`
prunes branches that lose their last completion. -/
def prN : TrieNode → Bool
  | .mk _ ch => prCh ch

/-- `prN` over a children map. -/
def prCh : List (Nat × TrieNode) → Bool
  | [] => true
  | (_, c) :: r =>
    ((c.key == 0) || (!(strs c).isEmpty && prN c)) && prCh r
end

theorem prCh_cons (mk_ : Nat) (c : TrieNode) (r : List (Nat × TrieNode)) :
    prCh ((mk_, c) :: r)
      = (((c.key == 0) || (!(strs c).isEmpty && prN c)) && prCh r) := rfl

theorem prN_mk (k : Nat) (ch : List (Nat × TrieNode)) :
    prN (.mk k ch) = prCh ch := rfl

theorem prCh_mem (l : List (Nat × TrieNode)) (k : Nat) (c : TrieNode)
    (h : prCh l = true) (hm : (k, c) ∈ l) :
    c.key = 0 ∨ (strs c ≠ [] ∧ prN c = true) := by
  induction l with
  | nil => simp at hm
  | cons p r ih =>
    obtain ⟨k', c'⟩ := p
    rw [prCh_cons, Bool.and_eq_true] at h
    rcases List.mem_cons.mp hm with heq | hmem
    · cases heq
      rcases Bool.or_eq_true _ _ ▸ h.1 with h1 | h1
      · exact Or.inl (by simpa using h1)
      · rw [Bool.and_eq_true] at h1
        refine Or.inr ⟨?_, h1.2⟩
        have := h1.1
        simp only [Bool.not_eq_true'] at this
        exact fun he => by rw [he] at this; cases this
    · exact ih h.2 hmem

theorem strs_ne_nil_of_prN (n : TrieNode) (hp : prN n = true)
    (hch : n.children ≠ []) : strs n ≠ [] := by
  cases n with
  | mk k ch =>
    cases ch with
    | nil => exact absurd rfl hch
    | cons p r =>
      obtain ⟨k', c⟩ := p
      rw [strs_mk, strsCh_cons]
      rw [prN_mk, prCh_cons, Bool.and_eq_true] at hp
      by_cases h0 : c.key = 0
      · simp [contrib, h0]
      · rcases Bool.or_eq_true _ _ ▸ hp.1 with h1 | h1
        · exact absurd (by simpa using h1) h0
        · rw [Bool.and_eq_true] at h1
          have hne : strs c ≠ [] := by
            have := h1.1
            simp only [Bool.not_eq_true'] at this
            exact fun he => by rw [he] at this; cases this
          simp only [contrib, h0, if_false]
          intro habs
          rw [List.append_eq_nil] at habs
          exact hne (List.map_eq_nil_iff.mp habs.1)

theorem prCh_updateA (l : List (Nat × TrieNode)) (k : Nat) (v : TrieNode)
    (h : prCh l = true)
    (hv : v.key = 0 ∨ (strs v ≠ [] ∧ prN v = true)) :
    prCh (updateA l k v) = true := by
  have hvb : ((v.key == 0) || (!(strs v).isEmpty && prN v)) = true := by
    rcases hv with h1 | ⟨h1, h2⟩
    · simp [h1]
    · simp [h2, List.isEmpty_iff, h1]
  induction l with
  | nil =>
    simp only [updateA, prCh_cons, prCh, Bool.and_eq_true]
    exact ⟨hvb, trivial⟩
  | cons p r ih =>
    obtain ⟨k', c'⟩ := p
    rw [prCh_cons, Bool.and_eq_true] at h
    by_cases hk : k' = k
    · simp only [updateA, hk, if_true, prCh_cons, Bool.and_eq_true]
      exact ⟨hvb, h.2⟩
    · simp only [updateA, hk, if_false, prCh_cons, Bool.and_eq_true]
      exact ⟨h.1, ih h.2⟩

theorem prCh_eraseA (l : List (Nat × TrieNode)) (k : Nat)
    (h : prCh l = true) : prCh (eraseA l k) = true := by
  induction l with
  | nil => rfl
  | cons p r ih =>
    obtain ⟨k', c'⟩ := p
    rw [prCh_cons, Bool.and_eq_true] at h
    by_cases hk : k' = k
    · simp only [eraseA, hk, if_true]
      exact h.2
    · simp only [eraseA, hk, if_false, prCh_cons, Bool.and_eq_true]
      exact ⟨h.1, ih h.2⟩

theorem strs_insertGo_ne_nil (s : List Nat) : ∀ (n : TrieNode) (la : Nat),
    strs (insertGo la n s) ≠ [] := by
  induction s with
  | nil =>
    intro n la
    cases n with
    | mk k ch =>
      rw [insertGo_nil, strs_mk]
      obtain ⟨l1, l2, h⟩ : (∃ l1 l2, updateA ch la sentinel
          = l1 ++ (la, sentinel) :: l2) := by
        cases hf : lookupA ch la with
        | some c =>
          obtain ⟨l1, l2, hsp, hn1⟩ := lookupA_split ch la c hf
          exact ⟨l1, l2, by rw [hsp, updateA_split l1 l2 la c sentinel hn1]⟩
        | none => exact ⟨ch, [], by rw [updateA_none ch la sentinel hf]⟩
      rw [h, strsCh_append, strsCh_cons]
      simp [contrib, sentinel]
  | cons c rest ih =>
    intro n la
    cases n with
    | mk k ch =>
      cases hf : lookupA ch c with
      | some child =>
        rw [insertGo_cons_found la k c ch rest child hf, strs_mk]
        obtain ⟨l1, l2, hsp, hn1⟩ := lookupA_split ch c child hf
        rw [hsp, updateA_split l1 l2 c child _ hn1, strsCh_append, strsCh_cons]
        by_cases h0 : (insertGo la child rest).key = 0
        · simp [contrib, h0]
        · simp only [contrib, h0, if_false]
          intro habs
          rw [List.append_eq_nil] at habs
          obtain ⟨_, habs2⟩ := habs
          rw [List.append_eq_nil] at habs2
          exact ih child la (List.map_eq_nil_iff.mp habs2.1)
      | none =>
        rw [insertGo_cons_new la k c ch rest hf, strs_mk,
          updateA_none ch c _ hf, strsCh_append, strsCh_cons]
        by_cases h0 : (insertGo la (.mk c []) rest).key = 0
        · simp [contrib, h0, strsCh]
        · simp only [contrib, h0, if_false]
          intro habs
          rw [List.append_eq_nil] at habs
          obtain ⟨_, habs2⟩ := habs
          rw [List.append_eq_nil] at habs2
          exact ih _ la (List.map_eq_nil_iff.mp habs2.1)

theorem prN_insertGo (s : List Nat) : ∀ (n : TrieNode) (la : Nat),
    prN n = true → prN (insertGo la n s) = true := by
  induction s with
  | nil =>
    intro n la hp
    cases n with
    | mk k ch =>
      rw [insertGo_nil, prN_mk]
      exact prCh_updateA ch la sentinel hp (Or.inl rfl)
  | cons c rest ih =>
    intro n la hp
    cases n with
    | mk k ch =>
      cases hf : lookupA ch c with
      | some child =>
        rw [insertGo_cons_found la k c ch rest child hf, prN_mk]
        refine prCh_updateA ch c _ hp ?_
        by_cases hx0 : (insertGo la child rest).key = 0
        · exact Or.inl hx0
        · obtain ⟨l1, l2, hsp, _⟩ := lookupA_split ch c child hf
          have hm : (c, child) ∈ ch := by rw [hsp]; simp
          have hck : child.key ≠ 0 := by
            rw [insertGo_key] at hx0
            exact hx0
          rcases prCh_mem ch c child hp hm with h1 | ⟨_, h2⟩
          · exact absurd h1 hck
          · exact Or.inr ⟨strs_insertGo_ne_nil rest child la, ih child la h2⟩
      | none =>
        rw [insertGo_cons_new la k c ch rest hf, prN_mk]
        refine prCh_updateA ch c _ hp ?_
        by_cases hx0 : (insertGo la (.mk c []) rest).key = 0
        · exact Or.inl hx0
        · exact Or.inr ⟨strs_insertGo_ne_nil rest _ la, ih _ la rfl⟩

theorem prN_removeGo (s : List Nat) : ∀ (n : TrieNode) (la : Nat) (u : TrieNode),
    prN n = true → removeGo la n s = some u → prN u = true := by
  induction s with
  | nil =>
    intro n la u hp hrem
    cases n with
    | mk k ch =>
      simp only [removeGo] at hrem
      cases hf : lookupA ch la with
      | some c =>
        rw [hf] at hrem
        cases hrem
        rw [prN_mk]
        exact prCh_eraseA ch la hp
      | none => rw [hf] at hrem; cases hrem
  | cons c rest ih =>
    intro n la u hp hrem
    cases n with
    | mk k ch =>
      simp only [removeGo] at hrem
      cases hf : lookupA ch c with
      | none => rw [hf] at hrem; cases hrem
      | some child =>
        rw [hf] at hrem
        dsimp only at hrem
        cases hrec : removeGo la child rest with
        | none => rw [hrec] at hrem; cases hrem
        | some child' =>
          rw [hrec] at hrem
          dsimp only at hrem
          by_cases hemp : child'.children.isEmpty
          · simp only [hemp, if_true] at hrem
            cases hrem
            rw [prN_mk]
            exact prCh_eraseA ch c hp
          · simp only [hemp, if_false] at hrem
            cases hrem
            rw [prN_mk]
            refine prCh_updateA ch c child' hp ?_
            by_cases hx0 : child'.key = 0
            · exact Or.inl hx0
            · obtain ⟨l1, l2, hsp, _⟩ := lookupA_split ch c child hf
              have hm : (c, child) ∈ ch := by rw [hsp]; simp
              have hck : child.key ≠ 0 := by
                rw [← removeGo_key la child rest child' hrec]
                exact hx0
              rcases prCh_mem ch c child hp hm with h1 | ⟨_, h2⟩
              · exact absurd h1 hck
              · have hpc' : prN child' = true := ih child la child' h2 hrec
                refine Or.inr ⟨?_, hpc'⟩
                refine strs_ne_nil_of_prN child' hpc' ?_
                intro he
                rw [he] at hemp
                exact hemp rfl

theorem insOk_unfold_nil (k la : Nat) (ch : List (Nat × TrieNode)) :
    insOk (.mk k ch) [] la
      = match lookupA ch la with
        | some c => c.key == 0
        | none => true := rfl

theorem insOk_unfold_cons (k c la : Nat) (ch : List (Nat × TrieNode))
    (rest : List Nat) :
    insOk (.mk k ch) (c :: rest) la
      = match lookupA ch c with
        | some child => (child.key != 0) && insOk child rest la
        | none => true := rfl

/-- Semantic sufficiency for a clean `Insert`: the walk of `s` is clean
whenever no stored string extended by its own last symbol is a prefix of
`s` (the walk then never enters a marker) and no stored string extends
`s ++ [s.last]` (the marker then displaces no real child). -/
theorem insOk_of_clean (s : List Nat) : ∀ (n : TrieNode) (la : Nat),
    wfN n = true → prN n = true → 0 ∉ s → s.getLastD n.key = la →
    (∀ u ∈ strs n, ¬ (u ++ [u.getLastD n.key]) <+: s) →
    (∀ v ∈ strs n, ¬ (s ++ [la]) <+: v) →
    insOk n s la = true := by
  induction s with
  | nil =>
    intro n la hw hp h0 hl cond1 cond2
    cases n with
    | mk k ch =>
      simp only [key_mk, List.getLastD_nil] at hl
      subst hl
      rw [insOk_unfold_nil]
      cases hf : lookupA ch k with
      | none => rfl
      | some c =>
        dsimp only
        by_cases hck : c.key = 0
        · simp [hck]
        · exfalso
          obtain ⟨l1, l2, hsp, _⟩ := lookupA_split ch k c hf
          have hm : (k, c) ∈ ch := by rw [hsp]; simp
          rw [wfN_mk, Bool.and_eq_true] at hw
          have hckey : c.key = k ∧ wfN c = true := by
            rcases wfCh_mem k ch k c hw.2 hm with ⟨h1, _, _⟩ | ⟨_, h2, h3⟩
            · exact absurd h1 hck
            · exact ⟨h2, h3⟩
          have hstr : strs c ≠ [] := by
            rcases prCh_mem ch k c hp hm with h1 | ⟨h1, _⟩
            · exact absurd h1 hck
            · exact h1
          obtain ⟨w, hwmem⟩ := List.exists_mem_of_ne_nil _ hstr
          have hsf := findNode_strs [k] (TrieNode.mk k ch)
            (by rw [wfN_mk, Bool.and_eq_true]; exact hw)
          rw [findNode_cons, hf] at hsf
          dsimp only at hsf
          rw [findNode_nil] at hsf
          obtain ⟨_, hiff⟩ := hsf
          have hv : ([k] ++ w) ∈ strs (TrieNode.mk k ch) := (hiff w).mpr hwmem
          exact cond2 ([k] ++ w) hv (by
            rw [List.nil_append]
            exact List.prefix_append [k] w)
  | cons c rest ih =>
    intro n la hw hp h0 hl cond1 cond2
    cases n with
    | mk k ch =>
      have hc0 : c ≠ 0 := fun h => h0 (by simp [h])
      have h0r : 0 ∉ rest := fun h => h0 (List.mem_cons_of_mem _ h)
      simp only [key_mk, List.getLastD_cons] at hl
      rw [insOk_unfold_cons]
      cases hf : lookupA ch c with
      | none => rfl
      | some child =>
        dsimp only
        obtain ⟨l1, l2, hsp, _⟩ := lookupA_split ch c child hf
        have hm : (c, child) ∈ ch := by rw [hsp]; simp
        rw [wfN_mk, Bool.and_eq_true] at hw
        have hck : child.key ≠ 0 := by
          intro hk0
          rcases wfCh_mem k ch c child hw.2 hm with ⟨_, hch2, hckk⟩ | ⟨h1, _, _⟩
          · -- a sentinel under map key c = parent's key: [] is stored here
            have hnilmem : ([] : List Nat) ∈ strs (TrieNode.mk k ch) := by
              rw [strs_mk, hsp, strsCh_append, strsCh_cons]
              refine List.mem_append.mpr (Or.inr (List.mem_append.mpr (Or.inl ?_)))
              simp [contrib, hk0]
            have := cond1 [] hnilmem
            rw [List.nil_append, List.getLastD_nil, key_mk] at this
            exact this (by
              rw [← hckk]
              exact ⟨rest, rfl⟩)
          · exact h1 hk0
        have hckey : child.key = c ∧ wfN child = true := by
          rcases wfCh_mem k ch c child hw.2 hm with ⟨h1, _, _⟩ | ⟨_, h2, h3⟩
          · exact absurd h1 hck
          · exact ⟨h2, h3⟩
        have hpc : prN child = true := by
          rcases prCh_mem ch c child hp hm with h1 | ⟨_, h2⟩
          · exact absurd h1 hck
          · exact h2
        have hmemiff : ∀ x, x ∈ strs child → (c :: x) ∈ strs (TrieNode.mk k ch) := by
          intro x hx
          rw [strs_mk, hsp, strsCh_append, strsCh_cons]
          refine List.mem_append.mpr (Or.inr (List.mem_append.mpr (Or.inl ?_)))
          simp only [contrib, hckey.1, hc0, if_false]
          exact List.mem_map_of_mem _ hx
        have hins : insOk child rest la = true := by
          refine ih child la hckey.2 hpc h0r (by rw [hckey.1]; exact hl) ?_ ?_
          · intro u hu
            have hthis := cond1 (c :: u) (hmemiff u hu)
            rw [key_mk] at hthis
            intro hpre
            rw [hckey.1] at hpre
            refine hthis ?_
            rw [show (c :: u) ++ [(c :: u).getLastD k]
              = c :: (u ++ [u.getLastD c]) from by
                rw [List.getLastD_cons, List.cons_append]]
            exact (List.cons_prefix_cons).mpr ⟨rfl, hpre⟩
          · intro v hv
            have := cond2 (c :: v) (hmemiff v hv)
            intro hpre
            refine this ?_
            rw [show (c :: rest) ++ [la] = c :: (rest ++ [la]) from rfl]
            exact (List.cons_prefix_cons).mpr ⟨rfl, hpre⟩
        simp [hck, hins]

/-! ### Claim C2: removing a stored strict prefix -/

/-- Claim C2 counterexample: with s1 = "ab" (`[1,2]`) a strict prefix of
s2 = "abb" (`[1,2,2]`), inserting both and removing s1 does *not* leave
s2 stored: s2's continuation symbol repeats s1's last symbol, so its
whole branch hangs below s1's completion marker and `Remove(s1)` erases
it together with the marker, leaving an empty trie. -/
theorem remove_prefix_destroys_extension :
    containsT (insertT (insertT emptyTrie [1,2]) [1,2,2]) [1,2,2] = true ∧
      removeT (insertT (insertT emptyTrie [1,2]) [1,2,2]) [1,2] = emptyTrie ∧
      containsT (removeT (insertT (insertT emptyTrie [1,2]) [1,2,2]) [1,2])
          [1,2,2] = false ∧
      countT (removeT (insertT (insertT emptyTrie [1,2]) [1,2,2]) [1,2])
          [1,2,2] = 0 := by
  refine ⟨by decide, rfl, by decide, by decide⟩

/-- Claim C2 (amended): if s1 is a non-empty strict prefix of
s2 = s1 ++ d over the non-null alphabet and s2 does not continue s1 with
s1's own last symbol (which is the counterexample pattern), then after
inserting both, removing s1 leaves s2 stored — `Contains`, `Count` and
`Match` still report it — while `Contains(s1)` stays true (s1 is still a
valid prefix path) and s1 no longer appears among `Match(s1)`'s
results. -/
theorem remove_prefix_keeps_extension (s1 d : List Nat)
    (h1 : s1 ≠ []) (hd : d ≠ []) (h01 : 0 ∉ s1) (h0d : 0 ∉ d)
    (hne : d.headD 0 ≠ s1.getLastD 0) :
    containsT (removeT (insertT (insertT emptyTrie s1) (s1 ++ d)) s1)
        (s1 ++ d) = true ∧
      countT (removeT (insertT (insertT emptyTrie s1) (s1 ++ d)) s1)
        (s1 ++ d) = 1 ∧
      (s1 ++ d) ∈ matchT (removeT (insertT (insertT emptyTrie s1) (s1 ++ d)) s1)
        (s1 ++ d) ∧
      containsT (removeT (insertT (insertT emptyTrie s1) (s1 ++ d)) s1) s1
        = true ∧
      s1 ∉ matchT (removeT (insertT (insertT emptyTrie s1) (s1 ++ d)) s1) s1 := by
  have h02 : 0 ∉ s1 ++ d := by
    intro h
    rcases List.mem_append.mp h with h | h
    · exact h01 h
    · exact h0d h
  have hs2ne : s1 ++ d ≠ [] := by
    intro h
    rw [List.append_eq_nil] at h
    exact h1 h.1
  have hs1s2 : s1 ≠ s1 ++ d := by
    intro h
    have := congrArg List.length h
    rw [List.length_append] at this
    cases d with
    | nil => exact hd rfl
    | cons d0 d' => simp at this
  -- step 1: the first insertion
  have hins1 := insertT_wf_strs emptyTrie s1 (by decide)
    (by cases s1 with
        | nil => exact absurd rfl h1
        | cons c r => exact insOk_leaf 0 (c :: r) _) h01 h1
  have hstr1 : strs (insertT emptyTrie s1) = [s1] := by
    have := hins1.2
    rw [show strs emptyTrie = [] from rfl] at this
    rw [if_neg (by simp)] at this
    rw [List.nil_append] at this
    exact List.perm_singleton.mp this
  have hkey1 : (insertT emptyTrie s1).key = 0 := by
    have := hins1.1
    rw [wfT, Bool.and_eq_true, beq_iff_eq] at this
    exact this.1
  have hwfn1 : wfN (insertT emptyTrie s1) = true := by
    have := hins1.1
    rw [wfT, Bool.and_eq_true, beq_iff_eq] at this
    exact this.2
  have hprn1 : prN (insertT emptyTrie s1) = true := by
    cases s1 with
    | nil => exact absurd rfl h1
    | cons c r => exact prN_insertGo (c :: r) emptyTrie _ rfl
  -- step 2: the second insertion is clean thanks to `hne`
  have hok2 : insOk (insertT emptyTrie s1) (s1 ++ d) ((s1 ++ d).getLastD 0) = true := by
    refine insOk_of_clean (s1 ++ d) (insertT emptyTrie s1) _ hwfn1 hprn1 h02
      (getLastD_irrel _ hs2ne _ _) ?_ ?_
    · intro u hu
      rw [hstr1] at hu
      rw [List.mem_singleton.mp hu]
      rw [hkey1]
      intro hpre
      rw [List.prefix_append_right_inj] at hpre
      cases d with
      | nil => exact hd rfl
      | cons d0 d' =>
        rw [List.cons_prefix_cons] at hpre
        exact hne (by
          rw [show (d0 :: d').headD 0 = d0 from rfl]
          exact hpre.1.symm)
    · intro v hv
      rw [hstr1] at hv
      rw [List.mem_singleton.mp hv]
      intro hpre
      have := List.IsPrefix.length_le hpre
      rw [List.length_append, List.length_append] at this
      cases d with
      | nil => exact hd rfl
      | cons d0 d' =>
        rw [List.length_cons] at this
        omega
  have hins2 := insertT_wf_strs (insertT emptyTrie s1) (s1 ++ d)
    hins1.1 hok2 h02 hs2ne
  have hstr2 : (strs (insertT (insertT emptyTrie s1) (s1 ++ d))).Perm
      [s1, s1 ++ d] := by
    have := hins2.2
    rw [hstr1] at this
    rw [if_neg (by
      intro h
      exact hs1s2 (List.mem_singleton.mp h).symm)] at this
    exact this
  have hwfn2 : wfN (insertT (insertT emptyTrie s1) (s1 ++ d)) = true := by
    have := hins2.1
    rw [wfT, Bool.and_eq_true, beq_iff_eq] at this
    exact this.2
  have hkey2 : (insertT (insertT emptyTrie s1) (s1 ++ d)).key = 0 := by
    have := hins2.1
    rw [wfT, Bool.and_eq_true, beq_iff_eq] at this
    exact this.1
  -- step 3: removing s1 is clean because s1 is stored
  have hmem1 : s1 ∈ strs (insertT (insertT emptyTrie s1) (s1 ++ d)) :=
    hstr2.mem_iff.mpr (by simp)
  have hok3 : remOk (insertT (insertT emptyTrie s1) (s1 ++ d)) s1
      (s1.getLastD 0) = true := by
    refine remOk_of_mem s1 _ _ hwfn2 hmem1 ?_
    rw [hkey2]
  have hrem := removeT_wf_strs (insertT (insertT emptyTrie s1) (s1 ++ d)) s1
    hins2.1 hok3 h01 h1
  have hstr3 : strs (removeT (insertT (insertT emptyTrie s1) (s1 ++ d)) s1)
      = [s1 ++ d] := by
    have hp := hrem.2
    rw [if_pos hmem1] at hp
    have hp2 : (strs (removeT (insertT (insertT emptyTrie s1) (s1 ++ d)) s1)
        ++ [s1]).Perm [s1, s1 ++ d] := hp.symm.trans hstr2
    have hp3 : (s1 :: strs (removeT (insertT (insertT emptyTrie s1) (s1 ++ d)) s1)).Perm
        (s1 :: [s1 ++ d]) :=
      ((List.perm_append_singleton _ _).symm.trans hp2)
    exact List.perm_singleton.mp (List.Perm.cons_inv hp3)
  have hwf3 : wfT (removeT (insertT (insertT emptyTrie s1) (s1 ++ d)) s1) = true :=
    hrem.1
  have hwfn3 : wfN (removeT (insertT (insertT emptyTrie s1) (s1 ++ d)) s1) = true := by
    have := hwf3
    rw [wfT, Bool.and_eq_true, beq_iff_eq] at this
    exact this.2
  have hmem3 : (s1 ++ d) ∈ strs (removeT (insertT (insertT emptyTrie s1) (s1 ++ d)) s1) := by
    rw [hstr3]
    simp
  obtain ⟨E, hfE, _, _, _⟩ := mem_strs_sentinel (s1 ++ d) _ hwfn3 hmem3
  refine ⟨?_, ?_, ?_, ?_, ?_⟩
  · rw [containsT_eq_isSome, hfE]
    rfl
  · have hsf := findNode_strs (s1 ++ d) _ hwfn3
    rw [hfE] at hsf
    obtain ⟨hwfE, hiff⟩ := hsf
    have hstrE : strs E = [[]] := by
      have hnd : (strs E).Nodup := strs_nodup E hwfE
      refine List.perm_singleton.mp ?_
      refine (List.perm_ext_iff_of_nodup hnd (by simp)).mpr ?_
      intro w
      rw [← hiff w, hstr3]
      simp only [List.mem_singleton]
      constructor
      · intro hw
        have h0 : (s1 ++ d) ++ w = (s1 ++ d) ++ [] := by
          rw [List.append_nil]; exact hw
        exact List.append_cancel_left h0
      · intro hw
        rw [hw, List.append_nil]
    show countT _ (s1 ++ d) = 1
    unfold countT
    rw [hfE]
    show countChildren E.children = 1
    have hcl := countCh_eq_length (chW E.children) E.children le_rfl
    rw [hcl]
    rw [show strsCh E.children = strs E from by
      cases E with
      | mk k ch => rfl]
    rw [hstrE]
    rfl
  · have hm := match_exact_of_wf _ hwf3 (s1 ++ d)
    refine hm.mem_iff.mpr ?_
    rw [hstr3]
    simp only [List.mem_filter, List.mem_singleton]
    exact ⟨trivial, List.isPrefixOf_iff_prefix.mpr (List.prefix_refl _)⟩
  · rw [containsT_eq_isSome]
    have := findNode_append s1 d (removeT (insertT (insertT emptyTrie s1) (s1 ++ d)) s1)
    rw [hfE] at this
    cases hf1 : findNode (removeT (insertT (insertT emptyTrie s1) (s1 ++ d)) s1) s1 with
    | none =>
      rw [hf1] at this
      cases this
    | some m => rfl
  · have hm := match_exact_of_wf _ hwf3 s1
    intro habs
    have := hm.mem_iff.mp habs
    rw [hstr3] at this
    simp only [List.mem_filter, List.mem_singleton] at this
    exact hs1s2 this.1

/-- Witness for `remove_prefix_keeps_extension` at s1 = `[1]`,
d = `[2]`. -/
theorem remove_prefix_keeps_extension_witness :
    containsT (removeT (insertT (insertT emptyTrie [1]) ([1] ++ [2])) [1])
        ([1] ++ [2]) = true ∧
      countT (removeT (insertT (insertT emptyTrie [1]) ([1] ++ [2])) [1])
        ([1] ++ [2]) = 1 ∧
      ([1] ++ [2]) ∈ matchT (removeT (insertT (insertT emptyTrie [1]) ([1] ++ [2])) [1])
        ([1] ++ [2]) ∧
      containsT (removeT (insertT (insertT emptyTrie [1]) ([1] ++ [2])) [1]) [1]
        = true ∧
      [1] ∉ matchT (removeT (insertT (insertT emptyTrie [1]) ([1] ++ [2])) [1]) [1] :=
  remove_prefix_keeps_extension [1] [2] (by decide) (by decide) (by decide)
    (by decide) (by decide)

/-! ### The fuzzy search (`MatchFuzzy` / `FuzzySearchRecursive`) -/

/-- Reference Levenshtein distance, with a structural fuel argument (the
fuel is irrelevant once it dominates the summed lengths, see
`levF_irrel`): unit-cost insertions, deletions and substitutions. -/
def levF : Nat → List Nat → List Nat → Nat
  | _, [], b => b.length
  | _, a, [] => a.length
  | 0, _ :: _, _ :: _ => 0
  | f + 1, x :: a, y :: b =>
    min (min (levF f a (y :: b) + 1) (levF f (x :: a) b + 1))
      (levF f a b + (if x = y then 0 else 1))

/-- The Levenshtein distance between two symbol strings. -/
def lev (a b : List Nat) : Nat := levF (a.length + b.length) a b

/-- The initial DP row built by `MatchFuzzy`: `current_row[i] = i`,
the distance from the empty candidate to each query prefix. -/
def initRow (q : List Nat) : List Nat := List.range (q.length + 1)

/-- The pruning minimum of `FuzzySearchRecursive`: `min_distance`
starts at `current_row[0]` and folds `std::min` over the rest. -/
def minRow : List Nat → Nat
  | [] => 0
  | x :: r => r.foldl min x

/-- The inner loop of `FuzzySearchRecursive`'s row update: walking the
remaining query symbols together with a two-entry window of the previous
row, each cell is `min(min(cur[i-1]+1, prev[i]+1), prev[i-1] + (q[i-1] != ch))`. -/
def rowGo (ch : Nat) : List Nat → Nat → List Nat → List Nat
  | qc :: qr, left, p0 :: p1 :: pr =>
    min (min (left + 1) (p1 + 1)) (p0 + (if qc = ch then 0 else 1)) ::
      rowGo ch qr (min (min (left + 1) (p1 + 1)) (p0 + (if qc = ch then 0 else 1)))
        (p1 :: pr)
  | _, _, _ => []

/-- One DP row update of `FuzzySearchRecursive`: `current_row[0] =
previous_row[0] + 1` followed by the loop over query positions. -/
def nextRow (ch : Nat) (q prev : List Nat) : List Nat :=
  (prev.headD 0 + 1) :: rowGo ch q (prev.headD 0 + 1) prev

mutual
/-- `PrefixTrieBase::FuzzySearchRecursive`: at a null-key node the
current string is complete and is reported with `previous_row[|q|]`
when within budget; otherwise the row is advanced by the child's map
key, the branch is pruned when the row minimum exceeds the budget, and
the children are searched with the key appended to the current string. -/
def fuzzyN : TrieNode → Nat → List Nat → List Nat → List Nat → Int → List (List Nat × Nat)
  | .mk k ch, c, q, cur, prev, d =>
    if k = 0 then
      if (prev.getD q.length 0 : Int) ≤ d then [(cur, prev.getD q.length 0)] else []
    else
      if d < (minRow (nextRow c q prev) : Int) then []
      else fuzzyCh ch q (cur ++ [c]) (nextRow c q prev) d

/-- The children loop of the fuzzy DFS, in children-map order. -/
def fuzzyCh : List (Nat × TrieNode) → List Nat → List Nat → List Nat → Int → List (List Nat × Nat)
  | [], _, _, _, _ => []
  | (k, c) :: r, q, cur, prev, d =>
    fuzzyN c k q cur prev d ++ fuzzyCh r q cur prev d
end

/-- `PrefixTrieBase::MatchFuzzy`: empty on a negative budget, else the
fuzzy DFS from the root's children with the initial row. -/
def matchFuzzy (t : TrieNode) (q : List Nat) (d : Int) : List (List Nat × Nat) :=
  if d < 0 then []
  else fuzzyCh t.children q [] (initRow q) d

/-- Specification helper: the DP row a candidate `w` should carry, with
entries `lev w (b ++ q.take i)` for `i = 0 .. |q|` (the consumed query
prefix `b` generalizes the induction). -/
def rowAux (w : List Nat) : List Nat → List Nat → List Nat
  | b, [] => [lev w b]
  | b, qc :: qr => lev w b :: rowAux w (b ++ [qc]) qr

theorem levF_nil_left (f : Nat) (b : List Nat) : levF f [] b = b.length := by
  cases f <;> cases b <;> rfl

theorem levF_nil_right (f : Nat) (a : List Nat) : levF f a [] = a.length := by
  cases f <;> cases a <;> rfl

theorem levF_succ (f x y : Nat) (a b : List Nat) :
    levF (f + 1) (x :: a) (y :: b) =
      min (min (levF f a (y :: b) + 1) (levF f (x :: a) b + 1))
        (levF f a b + (if x = y then 0 else 1)) := rfl

theorem levF_irrel : ∀ (f : Nat) (a b : List Nat) (g : Nat),
    a.length + b.length ≤ f → a.length + b.length ≤ g →
    levF f a b = levF g a b := by
  intro f
  induction f with
  | zero =>
    intro a b g hf _
    cases a with
    | nil => rw [levF_nil_left, levF_nil_left]
    | cons x a' =>
      cases b with
      | nil => rw [levF_nil_right, levF_nil_right]
      | cons y b' =>
        rw [List.length_cons, List.length_cons] at hf
        omega
  | succ f ih =>
    intro a b g hf hg
    cases a with
    | nil => rw [levF_nil_left, levF_nil_left]
    | cons x a' =>
      cases b with
      | nil => rw [levF_nil_right, levF_nil_right]
      | cons y b' =>
        rw [List.length_cons, List.length_cons] at hf hg
        cases g with
        | zero => omega
        | succ g' =>
          rw [levF_succ, levF_succ]
          rw [ih a' (y :: b') g' (by rw [List.length_cons]; omega)
              (by rw [List.length_cons]; omega),
            ih (x :: a') b' g' (by rw [List.length_cons]; omega)
              (by rw [List.length_cons]; omega),
            ih a' b' g' (by omega) (by omega)]

theorem lev_nil_left (b : List Nat) : lev [] b = b.length := levF_nil_left _ _

theorem lev_nil_right (a : List Nat) : lev a [] = a.length := levF_nil_right _ _

theorem lev_cons_cons (x y : Nat) (a b : List Nat) :
    lev (x :: a) (y :: b) =
      min (min (lev a (y :: b) + 1) (lev (x :: a) b + 1))
        (lev a b + (if x = y then 0 else 1)) := by
  show levF ((x :: a).length + (y :: b).length) (x :: a) (y :: b) = _
  rw [List.length_cons, List.length_cons,
    show a.length + 1 + (b.length + 1) = (a.length + (b.length + 1)) + 1 from by omega,
    levF_succ]
  rw [levF_irrel (a.length + (b.length + 1)) a (y :: b) (a.length + (y :: b).length)
      (by rw [List.length_cons] <;> omega) (by rw [List.length_cons] <;> omega),
    levF_irrel (a.length + (b.length + 1)) (x :: a) b ((x :: a).length + b.length)
      (by rw [List.length_cons] <;> omega) (by rw [List.length_cons] <;> omega),
    levF_irrel (a.length + (b.length + 1)) a b (a.length + b.length)
      (by omega) (by omega)]
  rfl

theorem lev_snoc_base (x y : Nat) :
    lev [x] [y] = min (min (lev [x] [] + 1) (lev [] [y] + 1))
      (lev [] [] + (if y = x then 0 else 1)) := by
  rw [show ([x] : List Nat) = x :: [] from rfl, show ([y] : List Nat) = y :: [] from rfl,
    lev_cons_cons]
  simp only [lev_nil_left, lev_nil_right, List.length_nil, List.length_cons]
  split_ifs <;> omega

theorem fuzzy_min_swap (A B C D E F G H I u v : Nat) :
    min (min (min (min (B + 1) (A + 1)) (C + u) + 1) (min (min (E + 1) (D + 1)) (F + u) + 1))
      (min (min (H + 1) (G + 1)) (I + u) + v) =
    min (min (min (min (B + 1) (E + 1)) (H + v) + 1) (min (min (A + 1) (D + 1)) (G + v) + 1))
      (min (min (C + 1) (F + 1)) (I + v) + u) := by
  refine eq_of_forall_le_iff (fun w => ?_)
  simp only [← min_add_add_right, le_min_iff]
  omega

theorem lev_snoc_aux : ∀ (n : Nat) (a b : List Nat) (x y : Nat),
    a.length + b.length ≤ n →
    lev (a ++ [x]) (b ++ [y]) =
      min (min (lev (a ++ [x]) b + 1) (lev a (b ++ [y]) + 1))
        (lev a b + (if y = x then 0 else 1)) := by
  intro n
  induction n with
  | zero =>
    intro a b x y h
    cases a with
    | cons e a' => rw [List.length_cons] at h; omega
    | nil =>
      cases b with
      | cons c b' => rw [List.length_cons] at h; omega
      | nil =>
        rw [List.nil_append, List.nil_append]
        exact lev_snoc_base x y
  | succ n ih =>
    intro a b x y h
    cases a with
    | nil =>
      cases b with
      | nil =>
        rw [List.nil_append, List.nil_append]
        exact lev_snoc_base x y
      | cons c b' =>
        rw [List.length_nil, List.length_cons] at h
        rw [List.nil_append, List.cons_append]
        have hT1 := ih [] b' x y (by rw [List.length_nil]; omega)
        rw [List.nil_append] at hT1
        simp only [lev_cons_cons]
        rw [hT1]
        rw [lev_nil_left, lev_nil_left, lev_nil_left, lev_nil_left]
        simp only [List.length_append, List.length_cons, List.length_nil]
        split_ifs <;> omega
    | cons e a' =>
      cases b with
      | nil =>
        rw [List.length_cons, List.length_nil] at h
        rw [List.nil_append, List.cons_append]
        have hT1 := ih a' [] x y (by rw [List.length_nil]; omega)
        rw [List.nil_append] at hT1
        simp only [lev_cons_cons]
        rw [hT1]
        rw [lev_nil_right, lev_nil_right, lev_nil_right, lev_nil_right]
        simp only [List.length_append, List.length_cons, List.length_nil]
        split_ifs <;> omega
      | cons c b' =>
        rw [List.length_cons, List.length_cons] at h
        rw [List.cons_append, List.cons_append]
        have hT1 := ih a' (c :: b') x y (by rw [List.length_cons]; omega)
        rw [List.cons_append] at hT1
        have hT2 := ih (e :: a') b' x y (by rw [List.length_cons]; omega)
        rw [List.cons_append] at hT2
        have hT3 := ih a' b' x y (by omega)
        simp only [lev_cons_cons]
        rw [hT1, hT2, hT3]
        exact fuzzy_min_swap _ _ _ _ _ _ _ _ _ _ _

/-- The snoc-sided Levenshtein recurrence driving the code's DP rows:
extending both the candidate (by `x`) and the query prefix (by `y`)
takes the minimum of candidate-insertion, query-insertion and
substitution. -/
theorem lev_snoc (a b : List Nat) (x y : Nat) :
    lev (a ++ [x]) (b ++ [y]) =
      min (min (lev (a ++ [x]) b + 1) (lev a (b ++ [y]) + 1))
        (lev a b + (if y = x then 0 else 1)) :=
  lev_snoc_aux (a.length + b.length) a b x y le_rfl

theorem lev_eq_zero_iff : ∀ (a b : List Nat), lev a b = 0 ↔ a = b := by
  intro a
  induction a with
  | nil =>
    intro b
    rw [lev_nil_left]
    rw [List.length_eq_zero]
    exact ⟨fun h => h.symm, fun h => h.symm⟩
  | cons x a' ih =>
    intro b
    cases b with
    | nil =>
      rw [lev_nil_right, List.length_cons]
      constructor
      · intro h; omega
      · intro h; cases h
    | cons y b' =>
      rw [lev_cons_cons]
      constructor
      · intro h
        rw [Nat.min_eq_zero_iff, Nat.min_eq_zero_iff] at h
        rcases h with (h | h) | h
        · omega
        · omega
        · by_cases hxy : x = y
          · rw [hxy]
            rw [if_pos hxy, Nat.add_zero] at h
            rw [(ih b').mp h]
          · rw [if_neg hxy] at h
            omega
      · intro h
        have h1 : x = y := (List.cons.injEq _ _ _ _ ▸ h).1
        have h2 : a' = b' := (List.cons.injEq _ _ _ _ ▸ h).2
        rw [if_pos h1, (ih b').mpr h2, Nat.add_zero]
        simp

theorem rowGo_cons (ch qc left p0 p1 : Nat) (qr pr : List Nat) :
    rowGo ch (qc :: qr) left (p0 :: p1 :: pr) =
      min (min (left + 1) (p1 + 1)) (p0 + (if qc = ch then 0 else 1)) ::
        rowGo ch qr (min (min (left + 1) (p1 + 1)) (p0 + (if qc = ch then 0 else 1)))
          (p1 :: pr) := rfl

theorem rowAux_nil_q (w b : List Nat) : rowAux w b [] = [lev w b] := rfl

theorem rowAux_cons_q (w b : List Nat) (qc : Nat) (qr : List Nat) :
    rowAux w b (qc :: qr) = lev w b :: rowAux w (b ++ [qc]) qr := rfl

theorem rowAux_shape (q w b : List Nat) : ∃ t, rowAux w b q = lev w b :: t := by
  cases q with
  | nil => exact ⟨[], rfl⟩
  | cons qc qr => exact ⟨rowAux w (b ++ [qc]) qr, rfl⟩

/-- One full row update: feeding the row of `w` (over query prefixes
based at `b`) through `rowGo` with symbol `ch` yields the row of
`w ++ [ch]`, cell by cell, by the snoc recurrence `lev_snoc`. -/
theorem rowGo_rowAux : ∀ (q b w : List Nat) (ch : Nat),
    lev (w ++ [ch]) b :: rowGo ch q (lev (w ++ [ch]) b) (rowAux w b q) =
      rowAux (w ++ [ch]) b q := by
  intro q
  induction q with
  | nil => intro b w ch; rfl
  | cons qc qr ih =>
    intro b w ch
    rw [rowAux_cons_q]
    obtain ⟨t, ht⟩ := rowAux_shape qr w (b ++ [qc])
    rw [ht, rowGo_cons]
    have hv : min (min (lev (w ++ [ch]) b + 1) (lev w (b ++ [qc]) + 1))
        (lev w b + (if qc = ch then 0 else 1)) = lev (w ++ [ch]) (b ++ [qc]) :=
      (lev_snoc w b ch qc).symm
    rw [hv]
    have := ih (b ++ [qc]) w ch
    rw [ht] at this
    rw [this, rowAux_cons_q]

/-- `FuzzySearchRecursive`'s row update advances the DP row of `w` to
the DP row of `w ++ [ch]`. -/
theorem nextRow_rowAux (q w : List Nat) (ch : Nat) :
    nextRow ch q (rowAux w [] q) = rowAux (w ++ [ch]) [] q := by
  unfold nextRow
  obtain ⟨t, ht⟩ := rowAux_shape q w []
  have hh : (rowAux w [] q).headD 0 + 1 = lev (w ++ [ch]) [] := by
    rw [ht]
    rw [List.headD_cons, lev_nil_right, lev_nil_right, List.length_append,
      List.length_cons, List.length_nil]
  rw [hh]
  exact rowGo_rowAux q [] w ch

theorem rowAux_nil_w : ∀ (q b : List Nat),
    rowAux [] b q = List.range' b.length (q.length + 1) := by
  intro q
  induction q with
  | nil =>
    intro b
    rw [rowAux_nil_q, lev_nil_left]
    rfl
  | cons qc qr ih =>
    intro b
    rw [rowAux_cons_q, lev_nil_left, ih (b ++ [qc])]
    have hl : (b ++ [qc]).length = b.length + 1 := by simp
    rw [hl, List.length_cons,
      show List.range' b.length (qr.length + 1 + 1)
        = b.length :: List.range' (b.length + 1) (qr.length + 1) from rfl]

/-- The initial row `[0, 1, …, |q|]` of `MatchFuzzy` is the DP row of
the empty candidate. -/
theorem initRow_rowAux (q : List Nat) : initRow q = rowAux [] [] q := by
  rw [initRow, rowAux_nil_w, List.range_eq_range']
  rfl

theorem rowAux_getD : ∀ (q b w : List Nat),
    (rowAux w b q).getD q.length 0 = lev w (b ++ q) := by
  intro q
  induction q with
  | nil =>
    intro b w
    rw [rowAux_nil_q, List.append_nil]
    rfl
  | cons qc qr ih =>
    intro b w
    rw [rowAux_cons_q, List.length_cons]
    rw [show (lev w b :: rowAux w (b ++ [qc]) qr).getD (qr.length + 1) 0
        = (rowAux w (b ++ [qc]) qr).getD qr.length 0 from rfl]
    rw [ih (b ++ [qc]) w, List.append_assoc, List.singleton_append]

theorem lev_mem_rowAux : ∀ (q b w : List Nat), lev w (b ++ q) ∈ rowAux w b q := by
  intro q
  induction q with
  | nil =>
    intro b w
    rw [rowAux_nil_q, List.append_nil]
    exact List.mem_singleton.mpr rfl
  | cons qc qr ih =>
    intro b w
    rw [rowAux_cons_q]
    have hm := ih (b ++ [qc]) w
    rw [List.append_assoc, List.singleton_append] at hm
    exact List.mem_cons_of_mem _ hm

theorem foldl_min_le : ∀ (r : List Nat) (x z : Nat), z ∈ x :: r → r.foldl min x ≤ z := by
  intro r
  induction r with
  | nil =>
    intro x z hz
    rw [List.mem_singleton.mp hz]
    exact le_refl _
  | cons y r' ih =>
    intro x z hz
    rw [List.foldl_cons]
    rcases List.mem_cons.mp hz with hz | hz
    · exact le_trans (ih (min x y) (min x y) (List.mem_cons_self _ _))
        (by rw [hz]; exact min_le_left _ _)
    · rcases List.mem_cons.mp hz with hz | hz
      · exact le_trans (ih (min x y) (min x y) (List.mem_cons_self _ _))
          (by rw [hz]; exact min_le_right _ _)
      · exact ih (min x y) z (List.mem_cons_of_mem _ hz)

theorem foldl_min_mem : ∀ (r : List Nat) (x : Nat), r.foldl min x ∈ x :: r := by
  intro r
  induction r with
  | nil => intro x; exact List.mem_cons_self _ _
  | cons y r' ih =>
    intro x
    rw [List.foldl_cons]
    rcases List.mem_cons.mp (ih (min x y)) with hm | hm
    · rcases min_choice x y with hc | hc
      · rw [hm, hc]; exact List.mem_cons_self _ _
      · rw [hm, hc]
        exact List.mem_cons_of_mem _ (List.mem_cons_self _ _)
    · exact List.mem_cons_of_mem _ (List.mem_cons_of_mem _ hm)

theorem minRow_le (l : List Nat) (z : Nat) (hz : z ∈ l) : minRow l ≤ z := by
  cases l with
  | nil => cases hz
  | cons x r => exact foldl_min_le r x z hz

theorem minRow_mem (x : Nat) (r : List Nat) : minRow (x :: r) ∈ x :: r :=
  foldl_min_mem r x

theorem rowGo_ge : ∀ (q : List Nat) (left : Nat) (p : List Nat) (m ch : Nat),
    m ≤ left → (∀ z ∈ p, m ≤ z) → ∀ x ∈ rowGo ch q left p, m ≤ x := by
  intro q
  induction q with
  | nil =>
    intro left p m ch _ _ x hx
    cases p with
    | nil => cases hx
    | cons p0 pr =>
      cases pr with
      | nil => cases hx
      | cons p1 pr' => cases hx
  | cons qc qr ih =>
    intro left p m ch hl hp x hx
    cases p with
    | nil => cases hx
    | cons p0 pr =>
      cases pr with
      | nil => cases hx
      | cons p1 pr' =>
        rw [rowGo_cons] at hx
        have hv : m ≤ min (min (left + 1) (p1 + 1)) (p0 + (if qc = ch then 0 else 1)) := by
          refine le_min (le_min ?_ ?_) ?_
          · omega
          · have := hp p1 (List.mem_cons_of_mem _ (List.mem_cons_self _ _))
            omega
          · have := hp p0 (List.mem_cons_self _ _)
            omega
        rcases List.mem_cons.mp hx with hx | hx
        · rw [hx]; exact hv
        · exact ih _ (p1 :: pr') m ch hv
            (fun z hz => hp z (List.mem_cons_of_mem _ hz)) x hx

/-- The row minimum never decreases across a row update: the basis of
the pruning step of `FuzzySearchRecursive`. -/
theorem nextRow_min_ge (ch : Nat) (q : List Nat) (p0 : Nat) (pr : List Nat) :
    minRow (p0 :: pr) ≤ minRow (nextRow ch q (p0 :: pr)) := by
  have hall : ∀ x ∈ nextRow ch q (p0 :: pr), minRow (p0 :: pr) ≤ x := by
    intro x hx
    rw [nextRow] at hx
    rcases List.mem_cons.mp hx with hx | hx
    · have := minRow_le (p0 :: pr) p0 (List.mem_cons_self _ _)
      rw [hx, List.headD_cons]
      omega
    · exact rowGo_ge q _ (p0 :: pr) _ ch
        (by
          have := minRow_le (p0 :: pr) p0 (List.mem_cons_self _ _)
          rw [List.headD_cons]
          omega)
        (fun z hz => minRow_le (p0 :: pr) z hz) x hx
  have hmem : minRow (nextRow ch q (p0 :: pr)) ∈ nextRow ch q (p0 :: pr) := by
    rw [nextRow]
    exact minRow_mem _ _
  exact hall _ hmem

theorem minRow_mono_ext (s : List Nat) : ∀ (w q : List Nat),
    minRow (rowAux w [] q) ≤ minRow (rowAux (w ++ s) [] q) := by
  induction s using List.reverseRecOn with
  | nil => intro w q; rw [List.append_nil]
  | append_singleton s' c ih =>
    intro w q
    rw [← List.append_assoc]
    rw [← nextRow_rowAux q (w ++ s') c]
    obtain ⟨t, ht⟩ := rowAux_shape q (w ++ s') []
    refine le_trans (ih w q) ?_
    rw [ht]
    exact nextRow_min_ge c q _ t

/-- Pruning soundness: the full-string distance of any extension of `w`
is at least the row minimum at `w`. -/
theorem minRow_le_lev_ext (s w q : List Nat) :
    minRow (rowAux w [] q) ≤ lev (w ++ s) q := by
  refine le_trans (minRow_mono_ext s w q) ?_
  have hm := lev_mem_rowAux q [] (w ++ s)
  rw [List.nil_append] at hm
  exact minRow_le _ _ hm

/-! ### Key agreement holds in every reachable trie -/

theorem gkN_mk (k : Nat) (ch : List (Nat × TrieNode)) : gkN (.mk k ch) = gkCh ch := rfl

theorem gkCh_cons (k : Nat) (c : TrieNode) (r : List (Nat × TrieNode)) :
    gkCh ((k, c) :: r) = (((c.key == k) || (c.key == 0)) && gkN c && gkCh r) := rfl

theorem gkCh_updateA : ∀ (ch : List (Nat × TrieNode)) (k : Nat) (v : TrieNode),
    gkCh ch = true → (v.key = k ∨ v.key = 0) → gkN v = true →
    gkCh (updateA ch k v) = true := by
  intro ch
  induction ch with
  | nil =>
    intro k v _ hk hv
    show gkCh [(k, v)] = true
    rw [gkCh_cons]
    simp only [Bool.and_eq_true, Bool.or_eq_true, beq_iff_eq]
    exact ⟨⟨hk, hv⟩, rfl⟩
  | cons p r ih =>
    intro k v hch hk hv
    obtain ⟨k', c'⟩ := p
    rw [gkCh_cons, Bool.and_eq_true, Bool.and_eq_true] at hch
    show gkCh (if k' = k then (k, v) :: r else (k', c') :: updateA r k v) = true
    by_cases hkk : k' = k
    · rw [if_pos hkk, gkCh_cons]
      simp only [Bool.and_eq_true, Bool.or_eq_true, beq_iff_eq]
      exact ⟨⟨hk, hv⟩, hch.2⟩
    · rw [if_neg hkk, gkCh_cons]
      simp only [Bool.and_eq_true]
      exact ⟨hch.1, ih k v hch.2 hk hv⟩

theorem gkCh_eraseA : ∀ (ch : List (Nat × TrieNode)) (k : Nat),
    gkCh ch = true → gkCh (eraseA ch k) = true := by
  intro ch
  induction ch with
  | nil => intro k h; exact h
  | cons p r ih =>
    intro k hch
    obtain ⟨k', c'⟩ := p
    rw [gkCh_cons, Bool.and_eq_true, Bool.and_eq_true] at hch
    show gkCh (if k' = k then r else (k', c') :: eraseA r k) = true
    by_cases hkk : k' = k
    · rw [if_pos hkk]; exact hch.2
    · rw [if_neg hkk, gkCh_cons]
      simp only [Bool.and_eq_true]
      exact ⟨hch.1, ih k hch.2⟩

theorem gkCh_lookup : ∀ (ch : List (Nat × TrieNode)) (c : Nat) (child : TrieNode),
    gkCh ch = true → lookupA ch c = some child →
    gkN child = true ∧ (child.key = c ∨ child.key = 0) := by
  intro ch
  induction ch with
  | nil => intro c child _ h; cases h
  | cons p r ih =>
    intro c child hch hl
    obtain ⟨k', c'⟩ := p
    rw [gkCh_cons, Bool.and_eq_true, Bool.and_eq_true] at hch
    rw [show lookupA ((k', c') :: r) c = if k' = c then some c' else lookupA r c from rfl] at hl
    by_cases hkk : k' = c
    · rw [if_pos hkk] at hl
      cases hl
      refine ⟨hch.1.2, ?_⟩
      have := hch.1.1
      rw [Bool.or_eq_true, beq_iff_eq, beq_iff_eq] at this
      rcases this with h | h
      · exact Or.inl (h.trans hkk)
      · exact Or.inr h
    · rw [if_neg hkk] at hl
      exact ih c child hch.2 hl

theorem gk_insertGo : ∀ (s : List Nat) (n : TrieNode) (last : Nat),
    gkN n = true → gkN (insertGo last n s) = true := by
  intro s
  induction s with
  | nil =>
    intro n last hg
    cases n with
    | mk k ch =>
      rw [show insertGo last (.mk k ch) [] = .mk k (updateA ch last sentinel) from rfl,
        gkN_mk]
      exact gkCh_updateA ch last sentinel hg (Or.inr rfl) rfl
  | cons c rest ih =>
    intro n last hg
    cases n with
    | mk k ch =>
      rw [gkN_mk] at hg
      cases hl : lookupA ch c with
      | some child =>
        rw [show insertGo last (.mk k ch) (c :: rest)
            = match lookupA ch c with
              | some child => .mk k (updateA ch c (insertGo last child rest))
              | none => .mk k (updateA ch c (insertGo last (.mk c []) rest)) from rfl,
          hl]
        obtain ⟨hgc, hkc⟩ := gkCh_lookup ch c child hg hl
        rw [gkN_mk]
        refine gkCh_updateA ch c _ hg ?_ (ih child last hgc)
        rw [insertGo_key]
        exact hkc
      | none =>
        rw [show insertGo last (.mk k ch) (c :: rest)
            = match lookupA ch c with
              | some child => .mk k (updateA ch c (insertGo last child rest))
              | none => .mk k (updateA ch c (insertGo last (.mk c []) rest)) from rfl,
          hl]
        rw [gkN_mk]
        refine gkCh_updateA ch c _ hg ?_ (ih (.mk c []) last rfl)
        rw [insertGo_key]
        exact Or.inl rfl

theorem gk_removeGo : ∀ (s : List Nat) (n : TrieNode) (last : Nat) (u : TrieNode),
    gkN n = true → removeGo last n s = some u → gkN u = true := by
  intro s
  induction s with
  | nil =>
    intro n last u hg hr
    cases n with
    | mk k ch =>
      rw [show removeGo last (.mk k ch) []
          = match lookupA ch last with
            | some _ => some (.mk k (eraseA ch last))
            | none => none from rfl] at hr
      cases hl : lookupA ch last with
      | none => rw [hl] at hr; cases hr
      | some w =>
        rw [hl] at hr
        cases hr
        rw [gkN_mk]
        exact gkCh_eraseA ch last hg
  | cons c rest ih =>
    intro n last u hg hr
    cases n with
    | mk k ch =>
      rw [gkN_mk] at hg
      rw [show removeGo last (.mk k ch) (c :: rest)
          = match lookupA ch c with
            | none => none
            | some child =>
              match removeGo last child rest with
              | none => none
              | some child' =>
                if child'.children.isEmpty then some (.mk k (eraseA ch c))
                else some (.mk k (updateA ch c child')) from rfl] at hr
      cases hl : lookupA ch c with
      | none => rw [hl] at hr; cases hr
      | some child =>
        rw [hl] at hr
        dsimp only at hr
        obtain ⟨hgc, hkc⟩ := gkCh_lookup ch c child hg hl
        cases hrem : removeGo last child rest with
        | none => rw [hrem] at hr; cases hr
        | some child' =>
          rw [hrem] at hr
          dsimp only at hr
          by_cases hemp : child'.children.isEmpty
          · rw [if_pos hemp] at hr
            cases hr
            rw [gkN_mk]
            exact gkCh_eraseA ch c hg
          · rw [if_neg hemp] at hr
            cases hr
            rw [gkN_mk]
            refine gkCh_updateA ch c child' hg ?_ (ih child last child' hgc hrem)
            rw [removeGo_key last child rest child' hrem]
            exact hkc

theorem gk_insertT (t : TrieNode) (s : List Nat) (hg : gkN t = true) :
    gkN (insertT t s) = true := by
  cases s with
  | nil => exact hg
  | cons c rest => exact gk_insertGo (c :: rest) t _ hg

theorem gk_removeT (t : TrieNode) (s : List Nat) (hg : gkN t = true) :
    gkN (removeT t s) = true := by
  cases s with
  | nil => exact hg
  | cons c rest =>
    rw [show removeT t (c :: rest)
        = (removeGo ((c :: rest).getLastD 0) t (c :: rest)).getD t from rfl]
    cases hr : removeGo ((c :: rest).getLastD 0) t (c :: rest) with
    | none => exact hg
    | some u => exact gk_removeGo (c :: rest) t _ u hg hr

/-- Every trie reachable by any `Insert`/`Remove` sequence satisfies key
agreement, clean or not. -/
theorem gk_execOps : ∀ (ops : List Op) (t : TrieNode), gkN t = true →
    gkN (execOps t ops) = true := by
  intro ops
  induction ops with
  | nil => intro t hg; exact hg
  | cons o r ih =>
    intro t hg
    cases o with
    | ins s => exact ih _ (gk_insertT t s hg)
    | del s => exact ih _ (gk_removeT t s hg)

theorem fuzzyCh_nil (q cur prev : List Nat) (d : Int) :
    fuzzyCh [] q cur prev d = [] := rfl

theorem fuzzyCh_cons (k : Nat) (c : TrieNode) (r : List (Nat × TrieNode))
    (q cur prev : List Nat) (d : Int) :
    fuzzyCh ((k, c) :: r) q cur prev d =
      fuzzyN c k q cur prev d ++ fuzzyCh r q cur prev d := rfl

theorem fuzzyN_mk (ck : Nat) (cch : List (Nat × TrieNode)) (k : Nat)
    (q cur prev : List Nat) (d : Int) :
    fuzzyN (.mk ck cch) k q cur prev d =
      if ck = 0 then
        if (prev.getD q.length 0 : Int) ≤ d then [(cur, prev.getD q.length 0)] else []
      else
        if d < (minRow (nextRow k q prev) : Int) then []
        else fuzzyCh cch q (cur ++ [k]) (nextRow k q prev) d := rfl

/-- The fuzzy DFS over a children block, carried with the DP row of the
current string, reports exactly the in-budget completions below the
block, in traversal order, each with its exact Levenshtein distance. -/
theorem fuzzyCh_spec : ∀ (m : Nat) (ch : List (Nat × TrieNode)), chW ch ≤ m →
    gkCh ch = true → ∀ (q cur : List Nat) (d : Int),
    fuzzyCh ch q cur (rowAux cur [] q) d =
      (strsCh ch).filterMap (fun s =>
        if (lev (cur ++ s) q : Int) ≤ d then some (cur ++ s, lev (cur ++ s) q)
        else none) := by
  intro m
  induction m with
  | zero =>
    intro ch hw _ q cur d
    cases ch with
    | nil => rfl
    | cons p r =>
      obtain ⟨k, c⟩ := p
      rw [show chW ((k, c) :: r) = nodeW c + 1 + chW r from rfl] at hw
      omega
  | succ m ih =>
    intro ch hw hg q cur d
    cases ch with
    | nil => rfl
    | cons p r =>
      obtain ⟨k, c⟩ := p
      rw [show chW ((k, c) :: r) = nodeW c + 1 + chW r from rfl] at hw
      rw [gkCh_cons, Bool.and_eq_true, Bool.and_eq_true] at hg
      obtain ⟨⟨hk, hgc⟩, hgr⟩ := hg
      rw [fuzzyCh_cons, strsCh_cons, List.filterMap_append]
      have hrest := ih r (by omega) hgr q cur d
      rw [hrest]
      refine congrArg (· ++ _) ?_
      cases c with
      | mk ck cch =>
        rw [fuzzyN_mk]
        rw [show contrib (k, TrieNode.mk ck cch)
            = if ck = 0 then [[]] else (strs (TrieNode.mk ck cch)).map (ck :: ·) from rfl]
        by_cases hck : ck = 0
        · rw [if_pos hck, if_pos hck]
          have hgd : (rowAux cur [] q).getD q.length 0 = lev cur q := by
            rw [rowAux_getD, List.nil_append]
          rw [hgd]
          by_cases hle : (lev cur q : Int) ≤ d
          · rw [if_pos hle]
            rw [show List.filterMap _ [[]] =
                if (lev (cur ++ []) q : Int) ≤ d then
                  [(cur ++ [], lev (cur ++ []) q)] else [] from by
              rw [List.filterMap_cons]
              by_cases h2 : (lev (cur ++ []) q : Int) ≤ d
              · rw [if_pos h2, if_pos h2]; rfl
              · rw [if_neg h2, if_neg h2]; rfl]
            rw [List.append_nil, if_pos hle]
          · rw [if_neg hle]
            rw [show List.filterMap _ [[]] =
                if (lev (cur ++ []) q : Int) ≤ d then
                  [(cur ++ [], lev (cur ++ []) q)] else [] from by
              rw [List.filterMap_cons]
              by_cases h2 : (lev (cur ++ []) q : Int) ≤ d
              · rw [if_pos h2, if_pos h2]; rfl
              · rw [if_neg h2, if_neg h2]; rfl]
            rw [List.append_nil, if_neg hle]
        · rw [if_neg hck, if_neg hck]
          have hkk : ck = k := by
            rw [Bool.or_eq_true, beq_iff_eq, beq_iff_eq,
              show TrieNode.key (.mk ck cch) = ck from rfl] at hk
            rcases hk with h | h
            · exact h
            · exact absurd h hck
          rw [hkk]
          rw [nextRow_rowAux q cur k]
          rw [show strs (.mk k cch) = strsCh cch from rfl]
          rw [List.filterMap_map]
          have hshape : ∀ s : List Nat, cur ++ k :: s = (cur ++ [k]) ++ s := by
            intro s
            rw [List.append_cons]
          by_cases hpr : d < (minRow (rowAux (cur ++ [k]) [] q) : Int)
          · rw [if_pos hpr]
            refine (List.filterMap_eq_nil_iff.mpr ?_).symm
            intro a _
            have h1 : minRow (rowAux (cur ++ [k]) [] q) ≤ lev ((cur ++ [k]) ++ a) q :=
              minRow_le_lev_ext a (cur ++ [k]) q
            show (if (lev (cur ++ k :: a) q : Int) ≤ d then _ else _) = _
            rw [hshape a, if_neg (by
              intro hc
              omega)]
          · rw [if_neg hpr]
            rw [ih cch (by
              rw [show nodeW (.mk ck cch) = chW cch + 1 from rfl] at hw
              omega) (by
              rw [gkN_mk] at hgc
              exact hgc) q (cur ++ [k]) d]
            refine List.filterMap_congr ?_
            intro a _
            show _ = (if (lev (cur ++ k :: a) q : Int) ≤ d then _ else _)
            rw [hshape a]

/-- Claim C4: `MatchFuzzy(q, d)` on any reachable trie returns exactly
the stored complete strings within Levenshtein distance `d` of the
query (in traversal order), each paired with its exact distance; for
negative `d` the condition is unsatisfiable, so the result is empty. -/
theorem match_fuzzy_exact (ops : List Op) (q : List Nat) (d : Int) :
    matchFuzzy (execOps emptyTrie ops) q d =
      (strs (execOps emptyTrie ops)).filterMap (fun w =>
        if (lev w q : Int) ≤ d then some (w, lev w q) else none) := by
  have hg : gkN (execOps emptyTrie ops) = true := gk_execOps ops emptyTrie rfl
  cases ht : execOps emptyTrie ops with
  | mk k ch =>
    rw [ht, gkN_mk] at hg
    rw [matchFuzzy]
    by_cases hd : d < 0
    · rw [if_pos hd]
      refine (List.filterMap_eq_nil_iff.mpr ?_).symm
      intro w _
      rw [if_neg (by
        intro hc
        have : (0 : Int) ≤ (lev w q : Int) := Int.ofNat_nonneg _
        omega)]
    · rw [if_neg hd]
      rw [show TrieNode.children (.mk k ch) = ch from rfl,
        show strs (.mk k ch) = strsCh ch from rfl]
      rw [initRow_rowAux]
      rw [show rowAux [] [] q = rowAux ([] : List Nat) [] q from rfl]
      rw [fuzzyCh_spec (chW ch) ch le_rfl hg q [] d]
      refine List.filterMap_congr ?_
      intro a _
      rw [List.nil_append]

/-! ### Serialization (`ToJSON` / `FromJSON`), for the `char` instantiation:
the JSON text is a byte string, modelled as a `List Nat` of character
codes (`"` = 34, `\\` = 92, LF = 10, CR = 13, TAB = 9, space = 32,
`[` = 91, `]` = 93, `,` = 44, `n` = 110, `r` = 114, `t` = 116,
`u` = 117). -/

/-- The escape cases of `ToJSON`'s character loop; any other character
is emitted via `static_cast<char>` (one byte). -/
def encodeChar (c : Nat) : List Nat :=
  if c = 34 then [92, 34]
  else if c = 92 then [92, 92]
  else if c = 10 then [92, 110]
  else if c = 13 then [92, 114]
  else if c = 9 then [92, 116]
  else [c % 256]

/-- One quoted, escaped string literal of `ToJSON`. -/
def encodeStr (s : List Nat) : List Nat := [34] ++ s.flatMap encodeChar ++ [34]

/-- The emission loop of `ToJSON`: a comma before every string but the
first. -/
def joinStrs : List (List Nat) → List Nat
  | [] => []
  | [s] => encodeStr s
  | s :: r => encodeStr s ++ 44 :: joinStrs r

/-- `PrefixTrieBase::ToJSON`: a bracketed, comma separated list of the
quoted strings produced by `Match` of the empty prefix. -/
def toJSON (t : TrieNode) : List Nat :=
  [91] ++ joinStrs (matchT t []) ++ [93]

/-- Value of one hex digit in a `\u` escape, if valid. -/
def hexVal (h : Nat) : Option Nat :=
  if 48 ≤ h ∧ h ≤ 57 then some (h - 48)
  else if 97 ≤ h ∧ h ≤ 102 then some (h - 97 + 10)
  else if 65 ≤ h ∧ h ≤ 70 then some (h - 65 + 10)
  else none

/-- `skip_whitespace` of `FromJSON`. -/
def skipWS : List Nat → List Nat
  | [] => []
  | c :: r => if c = 32 ∨ c = 10 ∨ c = 13 ∨ c = 9 then skipWS r else c :: r

/-- The four hex digits of a `\uXXXX` escape (mirrors the bound check
`pos + 4 >= json.size()` and the digit loop); the resulting code is
truncated by `static_cast<CharT>`, i.e. modulo 256 for `char`. -/
def parseHex4 : List Nat → Option (Nat × List Nat)
  | d1 :: d2 :: d3 :: d4 :: r3 =>
    match hexVal d1, hexVal d2, hexVal d3, hexVal d4 with
    | some v1, some v2, some v3, some v4 =>
      some ((((v1 * 16 + v2) * 16 + v3) * 16 + v4) % 256, r3)
    | _, _, _, _ => none
  | _ => none

/-- One escape sequence, entered after the backslash: the five named
escapes, `\u`, or failure. -/
def parseEsc : List Nat → Option (Nat × List Nat)
  | [] => none
  | e :: r2 =>
    if e = 34 then some (34, r2)
    else if e = 92 then some (92, r2)
    else if e = 110 then some (10, r2)
    else if e = 114 then some (13, r2)
    else if e = 116 then some (9, r2)
    else if e = 117 then parseHex4 r2
    else none

/-- The string-literal loop of `FromJSON`, entered after the opening
quote: collects characters until the closing quote, handling escapes
via `parseEsc`; `none` models `return false` (unterminated literal or
bad escape).  The structural `fuel` is only for the recursion; every
step consumes input, so the input length never runs out. -/
def parseStrF : Nat → List Nat → Option (List Nat × List Nat)
  | 0, _ => none
  | fuel + 1, j =>
    match j with
    | [] => none
    | c :: r =>
      if c = 34 then some ([], r)
      else if c = 92 then
        match parseEsc r with
        | none => none
        | some (ch, r2) => (parseStrF fuel r2).map (fun p => (ch :: p.1, p.2))
      else (parseStrF fuel r).map (fun p => (c :: p.1, p.2))

/-- The string-literal parser at its natural fuel. -/
def parseStr (j : List Nat) : Option (List Nat × List Nat) := parseStrF j.length j


/-- The element loop of `FromJSON`, after the opening bracket: stops
successfully at `]` (ignoring any trailing input), parses and inserts
one quoted string per iteration, and tolerates a missing or trailing
comma exactly as the code does.  On any failure it returns `false`
*keeping the strings inserted so far*.  The structural `fuel` only makes
the recursion structural; each iteration consumes input, so
`input length + 1` never runs out. -/
def parseLoop : Nat → TrieNode → List Nat → Bool × TrieNode
  | 0, t, _ => (false, t)
  | fuel + 1, t, j =>
    match skipWS j with
    | [] => (false, t)
    | c :: r =>
      if c = 93 then (true, t)
      else if c = 34 then
        match parseStr r with
        | none => (false, t)
        | some (str, rest) =>
          match skipWS rest with
          | [] => parseLoop fuel (insertT t str) []
          | c2 :: r2 =>
            if c2 = 44 then parseLoop fuel (insertT t str) r2
            else parseLoop fuel (insertT t str) (c2 :: r2)
      else (false, t)

/-- `PrefixTrieBase::FromJSON`: clears the trie (the prior contents are
discarded unconditionally), then parses a bracketed list of quoted
strings, inserting each as it is parsed; returns the success flag and
the resulting trie. -/
def fromJSON (t : TrieNode) (j : List Nat) : Bool × TrieNode :=
  match skipWS j with
  | c :: r => if c = 91 then parseLoop (r.length + 1) emptyTrie r else (false, emptyTrie)
  | [] => (false, emptyTrie)

/-- Specification-side parser for the refinement statement of the
`FromJSON` error-handling claim: the same grammar, but collecting the
list of successfully parsed strings instead of mutating a trie. -/
def jsonLoopSpec : Nat → List Nat → Bool × List (List Nat)
  | 0, _ => (false, [])
  | fuel + 1, j =>
    match skipWS j with
    | [] => (false, [])
    | c :: r =>
      if c = 93 then (true, [])
      else if c = 34 then
        match parseStr r with
        | none => (false, [])
        | some (str, rest) =>
          match skipWS rest with
          | [] => ((jsonLoopSpec fuel []).1, str :: (jsonLoopSpec fuel []).2)
          | c2 :: r2 =>
            if c2 = 44 then ((jsonLoopSpec fuel r2).1, str :: (jsonLoopSpec fuel r2).2)
            else ((jsonLoopSpec fuel (c2 :: r2)).1, str :: (jsonLoopSpec fuel (c2 :: r2)).2)
      else (false, [])

/-- The success flag and parsed-string list of a `FromJSON` input. -/
def jsonStrings (j : List Nat) : Bool × List (List Nat) :=
  match skipWS j with
  | c :: r => if c = 91 then jsonLoopSpec (r.length + 1) r else (false, [])
  | [] => (false, [])

theorem parseLoop_zero (t : TrieNode) (j : List Nat) :
    parseLoop 0 t j = (false, t) := rfl

theorem parseLoop_succ (fuel : Nat) (t : TrieNode) (j : List Nat) :
    parseLoop (fuel + 1) t j =
      match skipWS j with
      | [] => (false, t)
      | c :: r =>
        if c = 93 then (true, t)
        else if c = 34 then
          match parseStr r with
          | none => (false, t)
          | some (str, rest) =>
            match skipWS rest with
            | [] => parseLoop fuel (insertT t str) []
            | c2 :: r2 =>
              if c2 = 44 then parseLoop fuel (insertT t str) r2
              else parseLoop fuel (insertT t str) (c2 :: r2)
        else (false, t) := rfl

theorem jsonLoopSpec_succ (fuel : Nat) (j : List Nat) :
    jsonLoopSpec (fuel + 1) j =
      match skipWS j with
      | [] => (false, [])
      | c :: r =>
        if c = 93 then (true, [])
        else if c = 34 then
          match parseStr r with
          | none => (false, [])
          | some (str, rest) =>
            match skipWS rest with
            | [] => ((jsonLoopSpec fuel []).1, str :: (jsonLoopSpec fuel []).2)
            | c2 :: r2 =>
              if c2 = 44 then ((jsonLoopSpec fuel r2).1, str :: (jsonLoopSpec fuel r2).2)
              else ((jsonLoopSpec fuel (c2 :: r2)).1, str :: (jsonLoopSpec fuel (c2 :: r2)).2)
        else (false, []) := rfl

/-- The trie built by the element loop is the fold of `Insert` over the
strings the loop parses, and the flags agree. -/
theorem parseLoop_refines : ∀ (fuel : Nat) (j : List Nat) (t : TrieNode),
    parseLoop fuel t j =
      ((jsonLoopSpec fuel j).1, List.foldl insertT t (jsonLoopSpec fuel j).2) := by
  intro fuel
  induction fuel with
  | zero => intro j t; rfl
  | succ fuel ih =>
    intro j t
    rw [parseLoop_succ, jsonLoopSpec_succ]
    cases hsk : skipWS j with
    | nil => rfl
    | cons c r =>
      dsimp only
      by_cases h93 : c = 93
      · rw [if_pos h93, if_pos h93]
        rfl
      · rw [if_neg h93, if_neg h93]
        by_cases h34 : c = 34
        · rw [if_pos h34, if_pos h34]
          cases hps : parseStr r with
          | none => rfl
          | some p =>
            obtain ⟨str, rest⟩ := p
            dsimp only
            cases hsr : skipWS rest with
            | nil =>
              rw [ih [] (insertT t str)]
              rfl
            | cons c2 r2 =>
              dsimp only
              by_cases h44 : c2 = 44
              · rw [if_pos h44, if_pos h44, ih r2 (insertT t str)]
                rfl
              · rw [if_neg h44, if_neg h44, ih (c2 :: r2) (insertT t str)]
                rfl
        · rw [if_neg h34, if_neg h34]
          rfl

/-- Claim C8 (amended, refinement): `FromJSON` discards the prior trie
unconditionally (the initial `Clear`), returns the pure parser's
success flag, and leaves the trie containing exactly the strings parsed
*before* any error, inserted in order — on malformed input the strings
already parsed stay inserted, so the failure is not "clear-only". -/
theorem from_json_refines (t : TrieNode) (j : List Nat) :
    fromJSON t j =
      ((jsonStrings j).1, List.foldl insertT emptyTrie (jsonStrings j).2) := by
  rw [fromJSON, jsonStrings]
  cases hsk : skipWS j with
  | nil => rfl
  | cons c r =>
    dsimp only
    by_cases h91 : c = 91
    · rw [if_pos h91, if_pos h91, parseLoop_refines (r.length + 1) r emptyTrie]
    · rw [if_neg h91, if_neg h91]
      rfl

/-- Claim C8 counterexample: on the malformed input `["a",!]` the code
reports failure, but the trie is *not* left empty: `"a"` was inserted
before the error was detected (`Size` is 1 and `Contains("a")` holds),
contradicting "never partially applied beyond the initial clear". -/
theorem from_json_failure_not_clear_only :
    (fromJSON emptyTrie [91, 34, 97, 34, 44, 33, 93]).1 = false ∧
      sizeT (fromJSON emptyTrie [91, 34, 97, 34, 44, 33, 93]).2 = 1 ∧
      containsT (fromJSON emptyTrie [91, 34, 97, 34, 44, 33, 93]).2 [97] = true := by
  refine ⟨by decide, by decide, by decide⟩

theorem parseStrF_succ_quote (f : Nat) (r : List Nat) :
    parseStrF (f + 1) (34 :: r) = some ([], r) := rfl

theorem parseStrF_succ_cons (f c : Nat) (r : List Nat) :
    parseStrF (f + 1) (c :: r) =
      (if c = 34 then some ([], r)
       else if c = 92 then
         match parseEsc r with
         | none => none
         | some (ch, r2) => (parseStrF f r2).map (fun p => (ch :: p.1, p.2))
       else (parseStrF f r).map (fun p => (c :: p.1, p.2))) := rfl

theorem parseStrF_succ_lit (f c : Nat) (r : List Nat) (h34 : c ≠ 34) (h92 : c ≠ 92) :
    parseStrF (f + 1) (c :: r) = (parseStrF f r).map (fun p => (c :: p.1, p.2)) := by
  rw [parseStrF_succ_cons, if_neg h34, if_neg h92]

theorem parseEsc_named (e t : Nat) (r : List Nat)
    (h : (e = 34 ∧ t = 34) ∨ (e = 92 ∧ t = 92) ∨ (e = 110 ∧ t = 10) ∨
      (e = 114 ∧ t = 13) ∨ (e = 116 ∧ t = 9)) :
    parseEsc (e :: r) = some (t, r) := by
  rcases h with ⟨he, ht⟩ | ⟨he, ht⟩ | ⟨he, ht⟩ | ⟨he, ht⟩ | ⟨he, ht⟩ <;>
    rw [he, ht] <;> rfl

/-- Decoding inverts encoding on one string literal: the escaped body
followed by the closing quote parses back to the original string, for
byte-valued symbols (with any sufficient fuel). -/
theorem parseStrF_encode : ∀ (s : List Nat), (∀ c ∈ s, c < 256) →
    ∀ (fuel : Nat) (rest : List Nat), s.length + 1 ≤ fuel →
    parseStrF fuel (s.flatMap encodeChar ++ (34 :: rest)) = some (s, rest) := by
  intro s
  induction s with
  | nil =>
    intro _ fuel rest hf
    cases fuel with
    | zero => omega
    | succ f =>
      rw [show ([] : List Nat).flatMap encodeChar ++ (34 :: rest) = 34 :: rest from rfl]
      exact parseStrF_succ_quote f rest
  | cons c s' ih =>
    intro hlt fuel rest hf
    have hc : c < 256 := hlt c (List.mem_cons_self _ _)
    have hlt' := fun c' hc' => hlt c' (List.mem_cons_of_mem _ hc')
    cases fuel with
    | zero => rw [List.length_cons] at hf; omega
    | succ f =>
      rw [List.length_cons] at hf
      have ih' := ih hlt' f rest (by omega)
      rw [List.flatMap_cons, List.append_assoc]
      by_cases hesc : c = 34 ∨ c = 92 ∨ c = 10 ∨ c = 13 ∨ c = 9
      · have hrep : ∃ e, encodeChar c = [92, e] ∧
            parseEsc (e :: (s'.flatMap encodeChar ++ (34 :: rest)))
              = some (c, s'.flatMap encodeChar ++ (34 :: rest)) := by
          rcases hesc with h | h | h | h | h
          · refine ⟨34, ?_, ?_⟩
            · rw [encodeChar, if_pos h]
            · exact parseEsc_named _ _ _ (Or.inl ⟨rfl, h⟩)
          · refine ⟨92, ?_, ?_⟩
            · rw [encodeChar, if_neg (by omega), if_pos h]
            · exact parseEsc_named _ _ _ (Or.inr (Or.inl ⟨rfl, h⟩))
          · refine ⟨110, ?_, ?_⟩
            · rw [encodeChar, if_neg (by omega), if_neg (by omega), if_pos h]
            · exact parseEsc_named _ _ _ (Or.inr (Or.inr (Or.inl ⟨rfl, h⟩)))
          · refine ⟨114, ?_, ?_⟩
            · rw [encodeChar, if_neg (by omega), if_neg (by omega), if_neg (by omega),
                if_pos h]
            · exact parseEsc_named _ _ _
                (Or.inr (Or.inr (Or.inr (Or.inl ⟨rfl, h⟩))))
          · refine ⟨116, ?_, ?_⟩
            · rw [encodeChar, if_neg (by omega), if_neg (by omega), if_neg (by omega),
                if_neg (by omega), if_pos h]
            · exact parseEsc_named _ _ _
                (Or.inr (Or.inr (Or.inr (Or.inr ⟨rfl, h⟩))))
        obtain ⟨e, henc, hpe⟩ := hrep
        rw [henc]
        rw [show ([92, e] : List Nat) ++ (s'.flatMap encodeChar ++ (34 :: rest))
            = 92 :: (e :: (s'.flatMap encodeChar ++ (34 :: rest))) from rfl]
        rw [parseStrF_succ_cons, if_neg (by omega), if_pos rfl, hpe]
        dsimp only
        rw [ih']
        rfl
      · push_neg at hesc
        obtain ⟨h34, h92, h10, h13, h9⟩ := hesc
        rw [show encodeChar c = [c % 256] from by
          rw [encodeChar, if_neg h34, if_neg h92, if_neg h10, if_neg h13, if_neg h9]]
        rw [Nat.mod_eq_of_lt hc]
        rw [show ([c] : List Nat) ++ (s'.flatMap encodeChar ++ (34 :: rest))
            = c :: (s'.flatMap encodeChar ++ (34 :: rest)) from rfl]
        rw [parseStrF_succ_lit f c _ h34 h92, ih']
        rfl

theorem length_le_flatMap_encode : ∀ (s : List Nat),
    s.length ≤ (s.flatMap encodeChar).length := by
  intro s
  induction s with
  | nil => exact le_refl _
  | cons c s' ih =>
    rw [List.flatMap_cons, List.length_append, List.length_cons]
    have hpos : 1 ≤ (encodeChar c).length := by
      rw [encodeChar]
      split_ifs <;> simp
    omega

/-- `parseStr` (at its natural fuel) inverts `encodeStr`'s body. -/
theorem parseStr_encode (s : List Nat) (hlt : ∀ c ∈ s, c < 256) (rest : List Nat) :
    parseStr (s.flatMap encodeChar ++ (34 :: rest)) = some (s, rest) := by
  rw [parseStr]
  refine parseStrF_encode s hlt _ rest ?_
  rw [List.length_append, List.length_cons]
  have := length_le_flatMap_encode s
  omega

theorem skipWS_34 (r : List Nat) : skipWS (34 :: r) = 34 :: r := rfl

theorem skipWS_44 (r : List Nat) : skipWS (44 :: r) = 44 :: r := rfl

theorem skipWS_93 (r : List Nat) : skipWS (93 :: r) = 93 :: r := rfl

/-- The element loop accepts the serialized list and folds `Insert` over
exactly the original strings. -/
theorem parseLoop_encode : ∀ (L : List (List Nat)) (fuel : Nat) (t : TrieNode),
    L.length < fuel → (∀ s ∈ L, ∀ c ∈ s, c < 256) →
    parseLoop fuel t (joinStrs L ++ [93]) = (true, List.foldl insertT t L) := by
  intro L
  induction L with
  | nil =>
    intro fuel t hf _
    cases fuel with
    | zero => omega
    | succ f =>
      rw [show joinStrs [] ++ [93] = 93 :: ([] : List Nat) from rfl, parseLoop_succ,
        skipWS_93]
      rfl
  | cons s L' ih =>
    intro fuel t hf hlt
    have hs : ∀ c ∈ s, c < 256 := hlt s (List.mem_cons_self _ _)
    have hL' : ∀ u ∈ L', ∀ c ∈ u, c < 256 :=
      fun u hu => hlt u (List.mem_cons_of_mem _ hu)
    cases fuel with
    | zero => omega
    | succ f =>
      rw [List.length_cons] at hf
      cases L' with
      | nil =>
        rw [show joinStrs [s] ++ [93] = 34 :: (s.flatMap encodeChar ++ (34 :: [93]))
            from by
          rw [show joinStrs [s] = encodeStr s from rfl, encodeStr]
          rw [List.append_assoc, List.append_assoc]
          rfl]
        rw [parseLoop_succ, skipWS_34]
        dsimp only
        rw [if_neg (by omega), if_pos rfl]
        rw [parseStr_encode s hs [93]]
        dsimp only
        rw [show skipWS [93] = 93 :: ([] : List Nat) from rfl]
        dsimp only
        rw [if_neg (by omega)]
        cases f with
        | zero => omega
        | succ f2 =>
          rw [parseLoop_succ, skipWS_93]
          dsimp only
          rw [if_pos rfl]
          rfl
      | cons s2 L2 =>
        rw [show joinStrs (s :: s2 :: L2) ++ [93]
            = 34 :: (s.flatMap encodeChar ++ (34 :: (44 :: (joinStrs (s2 :: L2) ++ [93]))))
            from by
          rw [show joinStrs (s :: s2 :: L2) = encodeStr s ++ 44 :: joinStrs (s2 :: L2)
            from rfl, encodeStr]
          rw [List.append_assoc, List.append_assoc, List.append_assoc]
          rfl]
        rw [parseLoop_succ, skipWS_34]
        dsimp only
        rw [if_neg (by omega), if_pos rfl]
        rw [parseStr_encode s hs (44 :: (joinStrs (s2 :: L2) ++ [93]))]
        dsimp only
        rw [skipWS_44]
        dsimp only
        rw [if_pos rfl]
        rw [ih f (insertT t s) (by omega) hL']
        rfl

/-! ### Rebuilding a clean trie by re-inserting its stored strings -/

theorem prN_insertT (t : TrieNode) (s : List Nat) (hp : prN t = true) :
    prN (insertT t s) = true := by
  cases s with
  | nil => exact hp
  | cons c rest => exact prN_insertGo (c :: rest) t _ hp

theorem prN_removeT (t : TrieNode) (s : List Nat) (hp : prN t = true) :
    prN (removeT t s) = true := by
  cases s with
  | nil => exact hp
  | cons c rest =>
    rw [show removeT t (c :: rest)
        = (removeGo ((c :: rest).getLastD 0) t (c :: rest)).getD t from rfl]
    cases hr : removeGo ((c :: rest).getLastD 0) t (c :: rest) with
    | none => exact hp
    | some u => exact prN_removeGo (c :: rest) t _ u hp hr

/-- Every reachable trie is pruned. -/
theorem execOps_prN : ∀ (ops : List Op) (t : TrieNode), prN t = true →
    prN (execOps t ops) = true := by
  intro ops
  induction ops with
  | nil => intro t hp; exact hp
  | cons o r ih =>
    intro t hp
    cases o with
    | ins s => exact ih _ (prN_insertT t s hp)
    | del s => exact ih _ (prN_removeT t s hp)

/-- Folding `Insert` over a fresh, pairwise marker-compatible, null-free
list of non-empty strings is clean: the result is well formed, pruned,
and stores exactly the prior strings plus the list. -/
theorem foldl_insertT_clean : ∀ (L : List (List Nat)) (t : TrieNode),
    wfT t = true → prN t = true →
    (∀ s ∈ L, s ≠ []) → (∀ s ∈ L, 0 ∉ s) →
    (∀ u ∈ strs t ++ L, ∀ v ∈ strs t ++ L, ¬ (u ++ [u.getLastD 0]) <+: v) →
    (strs t ++ L).Nodup →
    wfT (List.foldl insertT t L) = true ∧
      prN (List.foldl insertT t L) = true ∧
      (strs (List.foldl insertT t L)).Perm (strs t ++ L) := by
  intro L
  induction L with
  | nil =>
    intro t hw hp _ _ _ _
    rw [List.foldl_nil, List.append_nil]
    exact ⟨hw, hp, List.Perm.refl _⟩
  | cons s L' ih =>
    intro t hw hp hne h0 hcomp hnd
    have hkey : t.key = 0 := by
      have := hw
      rw [wfT, Bool.and_eq_true, beq_iff_eq] at this
      exact this.1
    have hwfn : wfN t = true := by
      have := hw
      rw [wfT, Bool.and_eq_true, beq_iff_eq] at this
      exact this.2
    have hsne : s ≠ [] := hne s (List.mem_cons_self _ _)
    have hs0 : 0 ∉ s := h0 s (List.mem_cons_self _ _)
    have hsmem : s ∈ strs t ++ s :: L' :=
      List.mem_append_right _ (List.mem_cons_self _ _)
    have hok : insOk t s (s.getLastD 0) = true := by
      refine insOk_of_clean s t _ hwfn hp hs0 (by rw [hkey]) ?_ ?_
      · intro u hu
        have := hcomp u (List.mem_append_left _ hu) s hsmem
        rw [hkey]
        exact this
      · intro v hv
        exact hcomp s hsmem v (List.mem_append_left _ hv)
    have hins := insertT_wf_strs t s hw hok hs0 hsne
    have hsnotin : s ∉ strs t := by
      intro hmem
      have : ¬ (strs t ++ s :: L').Nodup := by
        intro hn
        have hdis := List.disjoint_of_nodup_append hn
        exact hdis hmem (List.mem_cons_self _ _)
      exact this hnd
    rw [if_neg hsnotin] at hins
    have hp1 : prN (insertT t s) = true := prN_insertT t s hp
    have hperm1 : (strs (insertT t s) ++ L').Perm (strs t ++ s :: L') := by
      have h1 : (strs (insertT t s) ++ L').Perm ((strs t ++ [s]) ++ L') :=
        hins.2.append_right L'
      have h2 : ((strs t ++ [s]) ++ L') = strs t ++ s :: L' := by
        rw [List.append_assoc, List.singleton_append]
      rw [h2] at h1
      exact h1
    have hmemt : ∀ x, x ∈ strs (insertT t s) ++ L' → x ∈ strs t ++ s :: L' :=
      fun x hx => hperm1.mem_iff.mp hx
    have hres := ih (insertT t s) hins.1 hp1
      (fun u hu => hne u (List.mem_cons_of_mem _ hu))
      (fun u hu => h0 u (List.mem_cons_of_mem _ hu))
      (fun u hu v hv => hcomp u (hmemt u hu) v (hmemt v hv))
      (hperm1.nodup_iff.mpr hnd)
    rw [List.foldl_cons]
    refine ⟨hres.1, hres.2.1, ?_⟩
    refine hres.2.2.trans ?_
    exact hperm1

/-! ### `Contains` is determined by the stored set on clean tries -/

theorem nil_mem_strsCh_of_key0 (ch : List (Nat × TrieNode)) (m : Nat) (c : TrieNode)
    (hm : (m, c) ∈ ch) (hk : c.key = 0) : ([] : List Nat) ∈ strsCh ch := by
  rw [strsCh_eq_flatMap]
  refine List.mem_flatMap.mpr ⟨(m, c), hm, ?_⟩
  rw [contrib, if_pos hk]
  exact List.mem_singleton.mpr rfl

theorem cons_mem_strsCh_of_lookup (ch : List (Nat × TrieNode)) (c : Nat)
    (child : TrieNode) (w : List Nat) (hl : lookupA ch c = some child)
    (hk : child.key = c) (hc0 : c ≠ 0) (hw : w ∈ strs child) :
    (c :: w) ∈ strsCh ch := by
  obtain ⟨l1, l2, hsplit, _⟩ := lookupA_split ch c child hl
  rw [hsplit, strsCh_append, strsCh_cons]
  refine List.mem_append_right _ (List.mem_append_left _ ?_)
  rw [contrib, if_neg (by rw [hk]; exact hc0)]
  rw [hk]
  exact List.mem_map.mpr ⟨w, hw, rfl⟩

/-- A successful `Contains`-walk in a well-formed pruned trie ends on a
stored string's path or crosses a completion marker at the end of a
stored string: the forward half of the characterization. -/
theorem findNode_isSome_cases : ∀ (q : List Nat) (n : TrieNode),
    wfN n = true → prN n = true → (findNode n q).isSome = true →
    q = [] ∨ (∃ w ∈ strs n, q <+: w) ∨
      (∃ w ∈ strs n, q = w ++ [w.getLastD n.key]) := by
  intro q
  induction q with
  | nil => intro n _ _ _; exact Or.inl rfl
  | cons c rest ih =>
    intro n hwf hpr hfind
    cases n with
    | mk k ch =>
      rw [findNode_cons] at hfind
      cases hl : lookupA ch c with
      | none => rw [hl] at hfind; cases hfind
      | some child =>
        rw [hl] at hfind
        dsimp only at hfind
        obtain ⟨l1, l2, hsplit, _⟩ := lookupA_split ch c child hl
        have hmem : (c, child) ∈ ch := by
          rw [hsplit]
          exact List.mem_append_right _ (List.mem_cons_self _ _)
        have hwfc : wfCh k ch = true := by
          rw [wfN_mk, Bool.and_eq_true] at hwf
          exact hwf.2
        have hprc := prCh_mem ch c child (by rw [prN_mk] at hpr; exact hpr) hmem
        rcases wfCh_mem k ch c child hwfc hmem with ⟨hk0, hemp, hck⟩ | ⟨hk0, hkc, hwfchild⟩
        · cases rest with
          | nil =>
            refine Or.inr (Or.inr ⟨[], ?_, ?_⟩)
            · rw [show strs (.mk k ch) = strsCh ch from rfl]
              exact nil_mem_strsCh_of_key0 ch c child hmem hk0
            · rw [show ([] : List Nat).getLastD (TrieNode.mk k ch).key = k from rfl, hck]
              rfl
          | cons r1 r' =>
            cases child with
            | mk ck cch =>
              rw [show TrieNode.children (.mk ck cch) = cch from rfl] at hemp
              rw [hemp, findNode_cons] at hfind
              rw [show lookupA [] r1 = none from rfl] at hfind
              simp at hfind
        · have hprchild : prN child = true := by
            rcases hprc with h | h
            · exact absurd h hk0
            · exact h.2
          have hstrne : strs child ≠ [] := by
            rcases hprc with h | h
            · exact absurd h hk0
            · exact h.1
          have hc0 : c ≠ 0 := by
            rw [← hkc]
            exact hk0
          rcases ih child hwfchild hprchild hfind with hrest | ⟨w, hw, hpre⟩ | ⟨w, hw, heq⟩
          · obtain ⟨u, hu⟩ := List.exists_mem_of_ne_nil _ hstrne
            refine Or.inr (Or.inl ⟨c :: u, ?_, ?_⟩)
            · rw [show strs (.mk k ch) = strsCh ch from rfl]
              exact cons_mem_strsCh_of_lookup ch c child u hl hkc hc0 hu
            · rw [hrest]
              rw [List.cons_prefix_cons]
              exact ⟨rfl, List.nil_prefix⟩
          · refine Or.inr (Or.inl ⟨c :: w, ?_, ?_⟩)
            · rw [show strs (.mk k ch) = strsCh ch from rfl]
              exact cons_mem_strsCh_of_lookup ch c child w hl hkc hc0 hw
            · rw [List.cons_prefix_cons]
              exact ⟨rfl, hpre⟩
          · refine Or.inr (Or.inr ⟨c :: w, ?_, ?_⟩)
            · rw [show strs (.mk k ch) = strsCh ch from rfl]
              exact cons_mem_strsCh_of_lookup ch c child w hl hkc hc0 hw
            · rw [heq, hkc]
              rw [show (c :: w).getLastD (TrieNode.mk k ch).key = w.getLastD c from
                List.getLastD_cons _ _ _]
              rfl

/-- The backward half: every such `q` makes the walk succeed. -/
theorem findNode_isSome_of_strs (q : List Nat) (n : TrieNode) (hwf : wfN n = true)
    (h : q = [] ∨ (∃ w ∈ strs n, q <+: w) ∨
      (∃ w ∈ strs n, q = w ++ [w.getLastD n.key])) :
    (findNode n q).isSome = true := by
  rcases h with hq | ⟨w, hw, hpre⟩ | ⟨w, hw, heq⟩
  · rw [hq, findNode_nil]
    rfl
  · obtain ⟨u, hu⟩ := hpre
    obtain ⟨E, hfE, _, _, _⟩ := mem_strs_sentinel w n hwf hw
    rw [← hu] at hfE
    rw [findNode_append] at hfE
    cases hfq : findNode n q with
    | none => rw [hfq] at hfE; cases hfE
    | some m => rfl
  · obtain ⟨E, hfE, hsen, hkey, _⟩ := mem_strs_sentinel w n hwf hw
    rw [heq, findNode_append]
    rw [hfE]
    rw [show (some E).bind (fun m => findNode m [w.getLastD n.key])
        = findNode E [w.getLastD n.key] from rfl]
    cases E with
    | mk ek ech =>
      rw [findNode_cons]
      have hkeq : w.getLastD n.key = ek := by
        cases w with
        | nil =>
          have h2 : findNode n [] = some (.mk ek ech) := hfE
          rw [findNode_nil] at h2
          injection h2 with h3
          rw [h3]
          rfl
        | cons w0 w' =>
          have hne : (w0 :: w') ≠ ([] : List Nat) := by intro hcon; cases hcon
          have h1 := hkey hne
          rw [getLastD_irrel (w0 :: w') hne n.key 0]
          exact h1.symm
      rw [hkeq]
      rw [show lookupA ech ek
          = lookupA (TrieNode.mk ek ech).children (TrieNode.mk ek ech).key from rfl,
        hsen]
      rfl

/-- On well-formed pruned tries, `Contains` is decided by the stored
set: the path `q` exists iff `q` is empty, a prefix of a stored string,
or a stored string extended by its own final symbol (the marker edge). -/
theorem containsT_iff_strs (t : TrieNode) (hw : wfT t = true) (hp : prN t = true)
    (q : List Nat) :
    containsT t q = true ↔
      (q = [] ∨ (∃ w ∈ strs t, q <+: w) ∨
        (∃ w ∈ strs t, q = w ++ [w.getLastD 0])) := by
  have hkey : t.key = 0 := by
    rw [wfT, Bool.and_eq_true, beq_iff_eq] at hw
    exact hw.1
  have hwfn : wfN t = true := by
    rw [wfT, Bool.and_eq_true, beq_iff_eq] at hw
    exact hw.2
  rw [containsT_eq_isSome]
  constructor
  · intro h
    have := findNode_isSome_cases q t hwfn hp h
    rw [hkey] at this
    exact this
  · intro h
    refine findNode_isSome_of_strs q t hwfn ?_
    rw [hkey]
    exact h

theorem skipWS_91 (r : List Nat) : skipWS (91 :: r) = 91 :: r := rfl

theorem length_le_joinStrs : ∀ (L : List (List Nat)), L.length ≤ (joinStrs L).length := by
  intro L
  induction L with
  | nil => exact le_refl _
  | cons s L' ih =>
    cases L' with
    | nil =>
      rw [show joinStrs [s] = encodeStr s from rfl, encodeStr]
      rw [List.length_append, List.length_append, List.length_cons]
      simp
    | cons s2 L2 =>
      rw [show joinStrs (s :: s2 :: L2) = encodeStr s ++ 44 :: joinStrs (s2 :: L2)
        from rfl, encodeStr]
      simp only [List.length_append, List.length_cons, List.length_nil] at ih ⊢
      omega

/-- The decode-of-encode computation: `FromJSON(ToJSON(t))` succeeds and
rebuilds by inserting exactly the strings `Match("")` produced, in
order. -/
theorem from_json_to_json (t : TrieNode)
    (hlt : ∀ w ∈ matchT t [], ∀ c ∈ w, c < 256) :
    fromJSON t (toJSON t) = (true, List.foldl insertT emptyTrie (matchT t [])) := by
  rw [toJSON]
  rw [show ([91] ++ joinStrs (matchT t []) ++ [93] : List Nat)
      = 91 :: (joinStrs (matchT t []) ++ [93]) from rfl]
  rw [fromJSON, skipWS_91]
  dsimp only
  rw [if_pos rfl]
  refine parseLoop_encode (matchT t []) _ emptyTrie ?_ hlt
  rw [List.length_append, List.length_cons, List.length_nil]
  have := length_le_joinStrs (matchT t [])
  omega

/-- Claim C7 counterexample: on a trie reachable by plain `Insert`s
(insert `"ab"` then `"abb"`, modelled `[1,2]`, `[1,2,2]`), the
round-trip succeeds but does *not* preserve `Contains`: the original
trie answers true for `[1,2,2,2]` (the walk crosses the corrupted
marker area), while the decoded trie answers false. -/
theorem json_round_trip_not_faithful :
    (fromJSON (insertT (insertT emptyTrie [1,2]) [1,2,2])
        (toJSON (insertT (insertT emptyTrie [1,2]) [1,2,2]))).1 = true ∧
      containsT (insertT (insertT emptyTrie [1,2]) [1,2,2]) [1,2,2,2] = true ∧
      containsT (fromJSON (insertT (insertT emptyTrie [1,2]) [1,2,2])
        (toJSON (insertT (insertT emptyTrie [1,2]) [1,2,2]))).2 [1,2,2,2] = false ∧
      sizeT (insertT (insertT emptyTrie [1,2]) [1,2,2]) = 1 := by
  refine ⟨by decide, by decide, by decide, by decide⟩

/-- Claim C7 (amended): on every trie reached by a *clean* operation
sequence with byte-valued symbols, `FromJSON(ToJSON(t))` succeeds and
yields a trie with the same `Size`, the same `Contains` answers, and
the same `Match` results (up to the unspecified children order) —
though the decoded trie may differ in layout.  On corrupted tries the
law fails (see the counterexample). -/
theorem json_round_trip_clean (ops : List Op) (q : List Nat)
    (hok : okSeq emptyTrie ops = true)
    (hlt : ∀ w ∈ strs (execOps emptyTrie ops), ∀ c ∈ w, c < 256) :
    (fromJSON (execOps emptyTrie ops) (toJSON (execOps emptyTrie ops))).1 = true ∧
      sizeT (fromJSON (execOps emptyTrie ops) (toJSON (execOps emptyTrie ops))).2 = sizeT (execOps emptyTrie ops) ∧
      containsT (fromJSON (execOps emptyTrie ops) (toJSON (execOps emptyTrie ops))).2 q = containsT (execOps emptyTrie ops) q ∧
      (matchT (fromJSON (execOps emptyTrie ops) (toJSON (execOps emptyTrie ops))).2 q).Perm (matchT (execOps emptyTrie ops) q) := by
  obtain ⟨hw, hnil, -⟩ := execOps_wf_strs ops emptyTrie (by decide) (by decide) hok
  have hwfn : wfN (execOps emptyTrie ops) = true := by
    rw [wfT, Bool.and_eq_true, beq_iff_eq] at hw
    exact hw.2
  have hp : prN (execOps emptyTrie ops) = true := execOps_prN ops emptyTrie rfl
  have hLperm : (matchT (execOps emptyTrie ops) []).Perm (strs (execOps emptyTrie ops)) := by
    have h1 := match_exact_of_wf (execOps emptyTrie ops) hw []
    have h2 : (strs (execOps emptyTrie ops)).filter (fun w => ([] : List Nat).isPrefixOf w)
        = strs (execOps emptyTrie ops) :=
      List.filter_eq_self.mpr (fun a _ => List.isPrefixOf_iff_prefix.mpr (List.nil_prefix))
    rw [h2] at h1
    exact h1
  have hmemlt : ∀ w ∈ matchT (execOps emptyTrie ops) [], ∀ c ∈ w, c < 256 :=
    fun w hw2 => hlt w (hLperm.mem_iff.mp hw2)
  have hcomp := from_json_to_json (execOps emptyTrie ops) hmemlt
  have hfold := foldl_insertT_clean (matchT (execOps emptyTrie ops) []) emptyTrie rfl rfl
    (fun u hu => by
      intro hcon
      rw [hcon] at hu
      exact hnil (hLperm.mem_iff.mp hu))
    (fun u hu => strs_no_zero (nodeW (execOps emptyTrie ops)) _ le_rfl u (hLperm.mem_iff.mp hu))
    (fun u hu v hv => wf_no_marker_extension u v (execOps emptyTrie ops) hwfn
      (hLperm.mem_iff.mp hu) (hLperm.mem_iff.mp hv))
    (hLperm.nodup_iff.mpr (strs_nodup (execOps emptyTrie ops) hwfn))
  obtain ⟨hw2, hp2, hperm2⟩ := hfold
  have hstr2 : (strs (List.foldl insertT emptyTrie (matchT (execOps emptyTrie ops) []))).Perm
      (strs (execOps emptyTrie ops)) := hperm2.trans hLperm
  refine ⟨?_, ?_, ?_, ?_⟩
  · rw [hcomp]
  · rw [hcomp]
    rw [show ((true, List.foldl insertT emptyTrie (matchT (execOps emptyTrie ops) [])) :
        Bool × TrieNode).2 = List.foldl insertT emptyTrie (matchT (execOps emptyTrie ops) []) from rfl]
    rw [sizeT_eq_length, sizeT_eq_length]
    exact hstr2.length_eq
  · rw [hcomp]
    rw [show ((true, List.foldl insertT emptyTrie (matchT (execOps emptyTrie ops) [])) :
        Bool × TrieNode).2 = List.foldl insertT emptyTrie (matchT (execOps emptyTrie ops) []) from rfl]
    have hiff : containsT (List.foldl insertT emptyTrie (matchT (execOps emptyTrie ops) [])) q = true
        ↔ containsT (execOps emptyTrie ops) q = true := by
      rw [containsT_iff_strs (List.foldl insertT emptyTrie (matchT (execOps emptyTrie ops) [])) hw2 hp2 q,
        containsT_iff_strs (execOps emptyTrie ops) hw hp q]
      constructor
      · rintro (h | ⟨w, hwm, hrest⟩ | ⟨w, hwm, hrest⟩)
        · exact Or.inl h
        · exact Or.inr (Or.inl ⟨w, hstr2.mem_iff.mp hwm, hrest⟩)
        · exact Or.inr (Or.inr ⟨w, hstr2.mem_iff.mp hwm, hrest⟩)
      · rintro (h | ⟨w, hwm, hrest⟩ | ⟨w, hwm, hrest⟩)
        · exact Or.inl h
        · exact Or.inr (Or.inl ⟨w, hstr2.mem_iff.mpr hwm, hrest⟩)
        · exact Or.inr (Or.inr ⟨w, hstr2.mem_iff.mpr hwm, hrest⟩)
    cases hb : containsT (execOps emptyTrie ops) q with
    | true => exact hiff.mpr hb
    | false =>
      cases hb2 : containsT (List.foldl insertT emptyTrie (matchT (execOps emptyTrie ops) [])) q with
      | false => rfl
      | true =>
        have hcontra := hiff.mp hb2
        rw [hb] at hcontra
        cases hcontra
  · rw [hcomp]
    rw [show ((true, List.foldl insertT emptyTrie (matchT (execOps emptyTrie ops) [])) :
        Bool × TrieNode).2 = List.foldl insertT emptyTrie (matchT (execOps emptyTrie ops) []) from rfl]
    have m1 := match_exact_of_wf (List.foldl insertT emptyTrie (matchT (execOps emptyTrie ops) [])) hw2 q
    have m2 := match_exact_of_wf (execOps emptyTrie ops) hw q
    exact m1.trans ((hstr2.filter _).trans m2.symm)

/-- Witness for `json_round_trip_clean` at the clean sequence
Insert `[1]`, Insert `[2,3]` and query `[1]`. -/
theorem json_round_trip_clean_witness :
    (fromJSON (execOps emptyTrie [.ins [1], .ins [2,3]])
        (toJSON (execOps emptyTrie [.ins [1], .ins [2,3]]))).1 = true ∧
      sizeT (fromJSON (execOps emptyTrie [.ins [1], .ins [2,3]])
        (toJSON (execOps emptyTrie [.ins [1], .ins [2,3]]))).2
        = sizeT (execOps emptyTrie [.ins [1], .ins [2,3]]) ∧
      containsT (fromJSON (execOps emptyTrie [.ins [1], .ins [2,3]])
        (toJSON (execOps emptyTrie [.ins [1], .ins [2,3]]))).2 [1]
        = containsT (execOps emptyTrie [.ins [1], .ins [2,3]]) [1] ∧
      (matchT (fromJSON (execOps emptyTrie [.ins [1], .ins [2,3]])
        (toJSON (execOps emptyTrie [.ins [1], .ins [2,3]]))).2 [1]).Perm
        (matchT (execOps emptyTrie [.ins [1], .ins [2,3]]) [1]) :=
  json_round_trip_clean [.ins [1], .ins [2,3]] [1] (by decide) (by decide)

end PrefixTrie
